import Mathlib

/-!
The streaming JSON decoder `jstream`: its read-ahead byte scanner (`scanner.go`), its errors
(`errors.go`) and its decode engine.

A shallow embedding of `scanner.go`.  The scanner owns two fixed-size buffers and talks to a
fill goroutine over two unbuffered channels.  The embedding keeps the consumer's fields, the
goroutine's local state and the remaining results of the `io.Reader` in one record; the
goroutine's asynchronous progress is an explicit step (`workerRun`), so that an interleaving of
consumer and goroutine is a list of operations (`Op`).

Between two channel operations the goroutine does one thing that the consumer can observe: the
store to `end`, right before it closes `fillReady`.  The consumer reads `end` at the start of
`next` and in `remaining`; whether the store has happened by then is what `Op.yield` decides.
A receive on `fillReady` waits for the goroutine, so it runs the goroutine first.  The fields of
type `int64` are integers, and every arithmetic operation on them wraps (`wrapInt64`).
-/

namespace Jstream

/-- A byte. -/
abbrev Byte := Fin 256

/-- The constant `chunk = 4095`. -/
def chunk : Nat := 4095

/-- The constant `maxInt = int64(maxUint >> 1)` on a platform with 64-bit `uint`. -/
def maxInt : Int := 2 ^ 63 - 1

/-- Two's-complement wrap-around of `int64` arithmetic. -/
def wrapInt64 (x : Int) : Int := (x + 2 ^ 63) % 2 ^ 64 - 2 ^ 63

/-- A non-nil Go `error` value: `io.EOF` or some other error, named by a code.
A nil error is `none : Option Err`. -/
inductive Err where
  | eof
  | other (code : Nat)
  deriving DecidableEq

/-- The struct `fillReady`. -/
structure fillReady where
  fill : Int
  err : Option Err
  deriving DecidableEq

/-- One result `(n, err)` of `r.Read(p)`: `data` are the `n` bytes written to the front of `p`.
The `io.Reader` contract has `n ≤ len(p)`. -/
structure ReadResult where
  data : List Byte
  err : Option Err
  deriving DecidableEq

/-- Where the fill goroutine of `newScanner` stands. -/
inductive Worker where
  /-- blocked in `for range sr.fillReq`, no request taken yet -/
  | idle
  /-- a request was taken from `fillReq`; the `scan:` loop and what follows is still to run -/
  | reading
  /-- blocked in `sr.fillReady <- fr`; `closing` tells whether `close` and `return` follow -/
  | sending (fr : fillReady) (closing : Bool)
  /-- returned, after `close(sr.fillReady)` -/
  | exited
  deriving DecidableEq

/-- How a call can fail to return: a Go panic, or a goroutine blocked on a channel for ever. -/
inductive Fault where
  | panic
  | blocked
  deriving DecidableEq

/-- The struct `scanner`, the local variable `rpos` of its goroutine, the goroutine's control
state and the results the reader `r` has yet to give.  The arrays `buf` (`chunk + 1` bytes) and
`nbuf` (`chunk` bytes) are maps from index to byte; every indexing checks its bound.
The channel `fillReady` is closed exactly when `worker` is `exited`. -/
structure scanner where
  pos : Int
  ipos : Int
  ifill : Int
  end_ : Int
  buf : Nat → Byte
  nbuf : Nat → Byte
  rpos : Int
  worker : Worker
  reader : List ReadResult

/-- The body of the goroutine's loop for one fill request (the label `scan:` to the send on
`fillReady`).  A reader whose results are used up reports `(0, io.EOF)`. -/
def scan (s : scanner) : List ReadResult → scanner
  | [] => { s with end_ := s.rpos, worker := .exited, reader := [] }
  | r :: rs =>
    let s1 := { s with nbuf := fun i => r.data.getD i (s.nbuf i), reader := rs }
    if r.data.length = 0 then
      match r.err with
      | some .eof => { s1 with end_ := s1.rpos, worker := .exited }
      | none => scan s1 rs
      | some e => { s1 with worker := .sending ⟨0, some e⟩ true }
    else
      { s1 with
        rpos := wrapInt64 (s1.rpos + (r.data.length : Int))
        worker := .sending ⟨(r.data.length : Int), none⟩ false }

/-- The fill goroutine is scheduled and runs until it blocks on a channel or returns. -/
def workerRun (s : scanner) : scanner :=
  match s.worker with
  | .reading => scan s s.reader
  | _ => s

/-- The receive `<-s.fillReady` in `next`.  A closed channel gives the zero `fillReady`. -/
def recvFillReady (s : scanner) : Except Fault (fillReady × scanner) :=
  let s1 := workerRun s
  match s1.worker with
  | .sending fr closing => .ok (fr, { s1 with worker := if closing then .exited else .idle })
  | .exited => .ok (⟨0, none⟩, s1)
  | .idle => .error .blocked
  | .reading => .error .blocked

/-- The send `s.fillReq <- struct{}{}`. -/
def sendFillReq (s : scanner) : Except Fault scanner :=
  match s.worker with
  | .idle => .ok { s with worker := .reading }
  | _ => .error .blocked

/-- The function `newScanner`: the goroutine is started and takes the initial fill request. -/
def newScanner (r : List ReadResult) : scanner :=
  { pos := 0, ipos := 0, ifill := 0, end_ := maxInt
    buf := fun _ => 0, nbuf := fun _ => 0
    rpos := 0, worker := .reading, reader := r }

/-- The method `remaining`.  Its two loads of `end` differ only when the goroutine stores in
between, and then the first load, which decides the result, has seen `maxInt`. -/
def remaining (s : scanner) : Int :=
  if s.end_ = maxInt then maxInt else wrapInt64 (s.end_ - s.pos)

/-- An index expression `s.buf[i]`, which panics outside `0 .. chunk`. -/
def bufAt (s : scanner) (i : Int) : Except Fault Byte :=
  if 0 ≤ i ∧ i ≤ (chunk : Int) then .ok (s.buf i.toNat) else .error .panic

/-- The method `cur`. -/
def cur (s : scanner) : Except Fault Byte := bufAt s s.ipos

/-- The last two statements of `next`: `s.pos++` and `return s.buf[s.ipos], nil`. -/
def nextReturn (s : scanner) : Except Fault ((Byte × Option Err) × scanner) :=
  match bufAt s s.ipos with
  | .ok b => .ok ((b, none), { s with pos := wrapInt64 (s.pos + 1) })
  | .error f => .error f

/-- The buffer swap in `next`: `s.ifill = fr.fill`, `s.buf[0] = s.buf[len(s.buf)-1]`,
`copy(s.buf[1:], s.nbuf[:])` and `s.ipos = 1`. -/
def swapBuffers (fill : Int) (s : scanner) : scanner :=
  { s with
    ifill := fill
    buf := fun i => if i = 0 then s.buf chunk else if i ≤ chunk then s.nbuf (i - 1) else s.buf i
    ipos := 1 }

/-- The branch of `next` for an exhausted internal buffer, from the receive on `fillReady` to
the return. -/
def refill (s1 : scanner) : Except Fault ((Byte × Option Err) × scanner) :=
  match recvFillReady s1 with
  | .error f => .error f
  | .ok (fr, s2) =>
    match fr.err with
    | some e => .ok ((0, some e), s2)
    | none =>
      let s3 := swapBuffers fr.fill s2
      if s3.end_ = maxInt then
        match sendFillReq s3 with
        | .ok s4 => nextReturn s4
        | .error f => .error f
      else nextReturn s3

/-- The method `next`. -/
def next (s : scanner) : Except Fault ((Byte × Option Err) × scanner) :=
  if s.pos ≥ s.end_ then .ok ((0, none), s)
  else
    let s1 := { s with ipos := wrapInt64 (s.ipos + 1) }
    if s1.ipos > s1.ifill then refill s1 else nextReturn s1

/-- The method `back`. -/
def back (s : scanner) : Except Fault scanner :=
  if s.ipos ≤ 0 then .error .panic
  else .ok { s with ipos := wrapInt64 (s.ipos - 1), pos := wrapInt64 (s.pos - 1) }

/-- What the consumer or the scheduler does next. -/
inductive Op where
  | next
  | back
  /-- the fill goroutine gets to run -/
  | yield
  deriving DecidableEq

/-- Runs an interleaving: the results of its `next` calls in order, and the state reached. -/
def run : List Op → scanner → Except Fault (List (Byte × Option Err) × scanner)
  | [], s => .ok ([], s)
  | .next :: ops, s =>
    match next s with
    | .ok (o, s1) =>
      match run ops s1 with
      | .ok (os, s2) => .ok (o :: os, s2)
      | .error f => .error f
    | .error f => .error f
  | .back :: ops, s =>
    match back s with
    | .ok s1 => run ops s1
    | .error f => .error f
  | .yield :: ops, s => run ops (workerRun s)

/-- The fill goroutine is scheduled (`y = true`) or not before the consumer's next call. -/
def yieldIf (y : Bool) (s : scanner) : scanner :=
  if y then workerRun s else s

/-- The state that an interleaving reaches from a fresh scanner over the reader results `r`
(the fresh scanner itself when a call in it panics or blocks). -/
def stateAfter (ops : List Op) (r : List ReadResult) : scanner :=
  match run ops (newScanner r) with
  | .ok x => x.2
  | .error _ => newScanner r

/-- The results of the `next` calls of an interleaving from a fresh scanner. -/
def resultsAfter (ops : List Op) (r : List ReadResult) : List (Byte × Option Err) :=
  match run ops (newScanner r) with
  | .ok x => x.1
  | .error _ => []

/-- A reader that gives the chunks in `cs`, one per `Read`, and then `(0, e)`. -/
def chunkReader (cs : List (List Byte)) (e : Err) : List ReadResult :=
  cs.map (fun c => ⟨c, none⟩) ++ [⟨[], some e⟩]

/-- The reader results `rs1` are the results `rs` with results `(0, nil)` inserted. -/
inductive Padded : List ReadResult → List ReadResult → Prop where
  | nil : Padded [] []
  | keep (r : ReadResult) {a b : List ReadResult} : Padded a b → Padded (r :: a) (r :: b)
  | zero {a b : List ReadResult} : Padded a b → Padded a (⟨[], none⟩ :: b)

/-- The reader results without the results `(0, nil)`. -/
def stripZero (rs : List ReadResult) : List ReadResult :=
  rs.filter (fun r => !decide (r.data = [] ∧ r.err = none))

/-- The state with the results `(0, nil)` taken out of what the reader has yet to give. -/
def normReader (s : scanner) : scanner :=
  { s with reader := stripZero s.reader }

/-- What a caller can see of the outcome of an interleaving: the results of `next`, and `pos`,
`remaining()` and `cur()` in the state reached. -/
def observe (r : List (Byte × Option Err) × scanner) :
    List (Byte × Option Err) × Int × Int × Except Fault Byte :=
  (r.1, r.2.pos, remaining r.2, cur r.2)

/-- Every read gives between 1 and `chunk` bytes. -/
def ChunksOk (cs : List (List Byte)) : Prop :=
  ∀ c ∈ cs, 1 ≤ c.length ∧ c.length ≤ chunk

/-- What the goroutine's side of the state looks like when `d` bytes of the stream `B` have been
handed to the consumer and the reads `rest`, then `(0, e)`, are still to be handed over. -/
def WorkerInv (B : List Byte) (e : Err) (d : Nat) (rest : List (List Byte))
    (w : Worker) (rd : List ReadResult) (nbuf : Nat → Byte) (rpos end_ : Int) : Prop :=
  (w = .reading ∧ rd = chunkReader rest e ∧ rpos = d ∧ end_ = maxInt) ∨
  (∃ ck rest1, rest = ck :: rest1 ∧ w = .sending ⟨(ck.length : Int), none⟩ false ∧
    rd = chunkReader rest1 e ∧ (∀ j, j < ck.length → ck[j]? = some (nbuf j)) ∧
    rpos = d + ck.length ∧ end_ = maxInt) ∨
  (w = .exited ∧ e = .eof ∧ rest = [] ∧ end_ = B.length) ∨
  (w = .sending ⟨0, some e⟩ true ∧ e ≠ .eof ∧ rest = [] ∧ end_ = maxInt)

/-- The invariant of a scanner over a reader that gives the stream `B` in reads of 1 to `chunk`
bytes and then `(0, e)`, as long as no error has been delivered. -/
def Inv (B : List Byte) (e : Err) (s : scanner) : Prop :=
  ∃ (base fill i : Nat) (rest : List (List Byte)),
    s.ifill = fill ∧ s.ipos = i ∧ s.pos = base + i ∧ fill ≤ chunk ∧
    base + fill ≤ B.length ∧ B.drop (base + fill) = rest.flatten ∧ ChunksOk rest ∧
    (∀ j, j < fill → B[base + j]? = some (s.buf (j + 1))) ∧
    WorkerInv B e (base + fill) rest s.worker s.reader s.nbuf s.rpos s.end_ ∧
    (i ≤ fill ∨ (fill = 0 ∧ i = 1 ∧ s.worker = .exited))

/-- The fill goroutine has ended its reading: it has returned, or it holds a terminal result
that it sends before it closes `fillReady` and returns. -/
def WorkerDone (s : scanner) : Prop :=
  s.worker = .exited ∨ ∃ fr, s.worker = .sending fr true

/-! ## The decode engine

`decoder.go` is not among the sources: only its test (`decoder_test.go`) and its errors
(`errors.go`) are.  The engine is modelled from the design document, over the bytes that the
scanner delivers in order.

Bytes are written as numbers: 9 tab, 10 line feed, 13 carriage return, 32 space, 34 double quote,
43 plus, 44 comma, 45 minus, 46 point, 47 slash, 48 to 57 the digits, 58 colon, 69 `E`,
91 opening bracket, 92 backslash, 93 closing bracket, 97 to 102 `a` to `f`, 101 `e`, 108 `l`,
110 `n`, 114 `r`, 115 `s`, 116 `t`, 117 `u`, 123 opening brace, 125 closing brace.
-/

/-- The type `errPos`: line number and byte offset where an error occurred. -/
abbrev errPos := Int × Int

/-- The struct `DecoderError` of `errors.go`; `pos` is `errPos`, line number and byte offset. -/
structure DecoderError where
  msg : String
  context : String
  pos : errPos
  atChar : Byte
  readerErr : Option Err
  deriving DecidableEq

/-- The predefined error `ErrSyntax`. -/
def ErrSyntax : DecoderError :=
  { msg := "invalid character", context := "", pos := (0, 0), atChar := 0, readerErr := none }

/-- The predefined error `ErrUnexpectedEOF`. -/
def ErrUnexpectedEOF : DecoderError :=
  { msg := "unexpected end of JSON input", context := "", pos := (0, 0), atChar := 0,
    readerErr := none }

/-- Modelled from the spec: `decoder.go` is missing; the Native Value of §3; a number keeps its
literal, which stands for the double that the literal denotes; an object is a list of properties
with unique keys. -/
inductive JValue where
  | null
  | bool (b : Bool)
  | number (literal : List Byte)
  | string (s : List Byte)
  | array (xs : List JValue)
  | object (kvs : List (List Byte × JValue))

/-- Modelled from the spec: `decoder.go` is missing; the value of an event of §3, a Native Value
(Value Event) or a key with a Native Value (Key/Value Event, the type `KV` of the tests). -/
inductive Emitted where
  | plain (v : JValue)
  | KV (key : List Byte) (value : JValue)

/-- Modelled from the spec: `decoder.go` is missing; the Value Event of §3, `MetaValue` in the
tests, with the fields `Offset`, `Length`, `Depth` and `Value`. -/
structure MetaValue where
  Offset : Nat
  Length : Nat
  Depth : Nat
  Value : Emitted

/-- Modelled from the spec: `decoder.go` is missing; the decoder of §6, over the bytes its scanner
delivers, with the target depth and the key/value emission mode. -/
structure Decoder where
  input : List Byte
  emitDepth : Nat
  emitKV : Bool

/-- Modelled from the spec: `decoder.go` is missing; why the decode engine stops, and the input
left at that point. -/
structure Failure where
  err : DecoderError
  context : String
  rest : List Byte

/-- Modelled from the spec: `decoder.go` is missing; insignificant whitespace is space, tab, line
feed, carriage return. -/
def isSpace (b : Byte) : Bool := b = 32 || b = 9 || b = 10 || b = 13

/-- Modelled from the spec: `decoder.go` is missing; skipping of insignificant whitespace (§4.2).
-/
def skipSpaces : List Byte → List Byte
  | [] => []
  | b :: rest => if isSpace b then skipSpaces rest else b :: rest

/-- Modelled from the spec: `decoder.go` is missing; a decimal digit. -/
def isDigit (b : Byte) : Bool := decide (48 ≤ b) && decide (b ≤ 57)

/-- Modelled from the spec: `decoder.go` is missing; the longest run of digits at the head of the
input. -/
def takeDigits : List Byte → List Byte × List Byte
  | [] => ([], [])
  | b :: rest =>
    if isDigit b then ((takeDigits rest).1.cons b, (takeDigits rest).2) else ([], b :: rest)

/-- Modelled from the spec: `decoder.go` is missing; the integer part of a number (§4.2 Number):
`0`, or a digit from `1` to `9` and more digits; a leading zero followed by digits is a syntax
error. -/
def lexInt (inp : List Byte) : Except Failure (List Byte × List Byte) :=
  match inp with
  | [] => .error ⟨ErrUnexpectedEOF, "in numeric literal", []⟩
  | b :: rest =>
    if b = 48 then
      match rest with
      | b1 :: _ =>
        if isDigit b1 then .error ⟨ErrSyntax, "after leading zero in numeric literal", rest⟩
        else .ok ([48], rest)
      | [] => .ok ([48], rest)
    else if isDigit b then .ok (b :: (takeDigits rest).1, (takeDigits rest).2)
    else .error ⟨ErrSyntax, "in numeric literal", inp⟩

/-- Modelled from the spec: `decoder.go` is missing; the optional fractional part of a number; a
bare `.` is a syntax error. -/
def lexFrac (inp : List Byte) : Except Failure (List Byte × List Byte) :=
  match inp with
  | b :: rest =>
    if b = 46 then
      match (takeDigits rest).1 with
      | [] => .error ⟨ErrSyntax, "after decimal point in numeric literal", rest⟩
      | ds => .ok (46 :: ds, (takeDigits rest).2)
    else .ok ([], inp)
  | [] => .ok ([], inp)

/-- Modelled from the spec: `decoder.go` is missing; the digits of an exponent; missing exponent
digits are a syntax error. -/
def lexExpDigits (mark : List Byte) (inp : List Byte) : Except Failure (List Byte × List Byte) :=
  match (takeDigits inp).1 with
  | [] => .error ⟨ErrSyntax, "in exponent of numeric literal", inp⟩
  | ds => .ok (mark ++ ds, (takeDigits inp).2)

/-- Modelled from the spec: `decoder.go` is missing; the optional exponent of a number: `e` or
`E`, an optional sign, digits. -/
def lexExp (inp : List Byte) : Except Failure (List Byte × List Byte) :=
  match inp with
  | b :: rest =>
    if b = 101 ∨ b = 69 then
      match rest with
      | b1 :: rest1 =>
        if b1 = 43 ∨ b1 = 45 then lexExpDigits [b, b1] rest1 else lexExpDigits [b] rest
      | [] => lexExpDigits [b] rest
    else .ok ([], inp)
  | [] => .ok ([], inp)

/-- Modelled from the spec: `decoder.go` is missing; the Number production of §4.2: an optional
leading `-`, digits, an optional fractional part, an optional exponent. Gives the literal and the
input after it. -/
def lexNumber (inp : List Byte) : Except Failure (List Byte × List Byte) :=
  let signed : List Byte × List Byte :=
    match inp with
    | b :: rest => if b = 45 then ([45], rest) else ([], inp)
    | [] => ([], inp)
  match lexInt signed.2 with
  | .error f => .error f
  | .ok (i, r1) =>
    match lexFrac r1 with
    | .error f => .error f
    | .ok (fr, r2) =>
      match lexExp r2 with
      | .error f => .error f
      | .ok (ex, r3) => .ok (signed.1 ++ i ++ fr ++ ex, r3)

/-- Modelled from the spec: `decoder.go` is missing; the standard escapes of §4.2 (quote,
backslash, slash, `b`, `f`, `n`, `r`, `t` after a backslash) and the byte each stands for. -/
def simpleEscape (c : Byte) : Option Byte :=
  if c = 34 then some 34 else if c = 92 then some 92 else if c = 47 then some 47
  else if c = 98 then some 8 else if c = 102 then some 12 else if c = 110 then some 10
  else if c = 114 then some 13 else if c = 116 then some 9 else none

/-- Modelled from the spec: `decoder.go` is missing; the value of a hexadecimal digit. -/
def hexVal (b : Byte) : Option Nat :=
  if 48 ≤ b ∧ b ≤ 57 then some (b.val - 48)
  else if 97 ≤ b ∧ b ≤ 102 then some (b.val - 87)
  else if 65 ≤ b ∧ b ≤ 70 then some (b.val - 55)
  else none

/-- Modelled from the spec: `decoder.go` is missing; the code unit of the four hexadecimal digits
of a `uXXXX` escape. -/
def hex4 : List Byte → Option (Nat × List Byte)
  | a :: b :: c :: d :: rest =>
    match hexVal a, hexVal b, hexVal c, hexVal d with
    | some x, some y, some z, some w => some (((x * 16 + y) * 16 + z) * 16 + w, rest)
    | _, _, _, _ => none
  | _ => none

/-- Modelled from the spec: `decoder.go` is missing; the UTF-8 encoding of a code point (strings
are UTF-8, §3). -/
def utf8 (cp : Nat) : List Byte :=
  if cp < 128 then [Fin.ofNat cp]
  else if cp < 2048 then [Fin.ofNat (192 + cp / 64), Fin.ofNat (128 + cp % 64)]
  else if cp < 65536 then
    [Fin.ofNat (224 + cp / 4096), Fin.ofNat (128 + cp / 64 % 64), Fin.ofNat (128 + cp % 64)]
  else
    [Fin.ofNat (240 + cp / 262144 % 8), Fin.ofNat (128 + cp / 4096 % 64),
      Fin.ofNat (128 + cp / 64 % 64), Fin.ofNat (128 + cp % 64)]

/-- Modelled from the spec: `decoder.go` is missing; a high surrogate `D800` to `DBFF`. -/
def isHighSurrogate (u : Nat) : Bool := decide (55296 ≤ u) && decide (u ≤ 56319)

/-- Modelled from the spec: `decoder.go` is missing; a low surrogate `DC00` to `DFFF`. -/
def isLowSurrogate (u : Nat) : Bool := decide (56320 ≤ u) && decide (u ≤ 57343)

/-- Modelled from the spec: `decoder.go` is missing; the code point of a UTF-16 surrogate pair. -/
def surrogatePair (hi lo : Nat) : Nat := 65536 + (hi - 55296) * 1024 + (lo - 56320)

/-- Modelled from the spec: `decoder.go` is missing; what follows the `u` of a unicode escape
(§4.2 String): four hexadecimal digits, and for a high surrogate the `uXXXX` of a low surrogate;
gives the code point and the input after the escape. An unmatched surrogate or a malformed escape
is a syntax error. -/
def lexUnicode (inp : List Byte) : Except Failure (Nat × List Byte) :=
  match hex4 inp with
  | none => .error ⟨ErrSyntax, "in unicode escape", inp⟩
  | some (u, rest) =>
    if isHighSurrogate u then
      match rest with
      | 92 :: 117 :: rest1 =>
        match hex4 rest1 with
        | some (lo, rest2) =>
          if isLowSurrogate lo then .ok (surrogatePair u lo, rest2)
          else .error ⟨ErrSyntax, "in unicode surrogate pair", rest1⟩
        | none => .error ⟨ErrSyntax, "in unicode escape", rest1⟩
      | _ => .error ⟨ErrSyntax, "after high surrogate", rest⟩
    else if isLowSurrogate u then .error ⟨ErrSyntax, "in unicode surrogate pair", inp⟩
    else .ok (u, rest)

/-- Modelled from the spec: `decoder.go` is missing; the String production of §4.2 after the
leading quote: bytes up to an unescaped quote, with the escapes decoded. The first argument bounds
the steps. -/
def lexStringFuel : Nat → List Byte → Except Failure (List Byte × List Byte)
  | 0, inp => .error ⟨ErrUnexpectedEOF, "in string literal", inp⟩
  | _ + 1, [] => .error ⟨ErrUnexpectedEOF, "in string literal", []⟩
  | fuel + 1, b :: rest =>
    if b = 34 then .ok ([], rest)
    else if b = 92 then
      match rest with
      | [] => .error ⟨ErrUnexpectedEOF, "in string escape code", []⟩
      | c :: rest1 =>
        if c = 117 then
          match lexUnicode rest1 with
          | .error f => .error f
          | .ok (cp, rest2) =>
            match lexStringFuel fuel rest2 with
            | .error f => .error f
            | .ok (s, rest3) => .ok (utf8 cp ++ s, rest3)
        else
          match simpleEscape c with
          | none => .error ⟨ErrSyntax, "in string escape code", rest⟩
          | some x =>
            match lexStringFuel fuel rest1 with
            | .error f => .error f
            | .ok (s, rest3) => .ok (x :: s, rest3)
    else
      match lexStringFuel fuel rest with
      | .error f => .error f
      | .ok (s, rest3) => .ok (b :: s, rest3)

/-- Modelled from the spec: `decoder.go` is missing; the String production after the leading
quote; every step takes at least one byte, so the length of the input bounds the steps. -/
def lexString (inp : List Byte) : Except Failure (List Byte × List Byte) :=
  lexStringFuel inp.length inp

/-- Modelled from the spec: `decoder.go` is missing; the Literal production of §4.2, matching the
exact bytes of `true`, `false` or `null` after the first. -/
def matchLiteral : List Byte → List Byte → Except Failure (List Byte)
  | [], inp => .ok inp
  | _ :: _, [] => .error ⟨ErrUnexpectedEOF, "in literal", []⟩
  | e :: es, b :: rest =>
    if b = e then matchLiteral es rest else .error ⟨ErrSyntax, "in literal", b :: rest⟩

/-- Modelled from the spec: `decoder.go` is missing; the Value production of §4.2 for the forms
that do not nest: string, number, `true`, `false`, `null`, dispatched on the first byte. -/
def parseScalar (start : List Byte) : Except Failure (JValue × List Byte) :=
  match start with
  | [] => .error ⟨ErrUnexpectedEOF, "looking for beginning of value", []⟩
  | b :: rest =>
    if b = 34 then
      match lexString rest with
      | .ok (s, r) => .ok (.string s, r)
      | .error f => .error f
    else if b = 45 ∨ isDigit b = true then
      match lexNumber start with
      | .ok (lit, r) => .ok (.number lit, r)
      | .error f => .error f
    else if b = 116 then
      match matchLiteral [114, 117, 101] rest with
      | .ok r => .ok (.bool true, r)
      | .error f => .error f
    else if b = 102 then
      match matchLiteral [97, 108, 115, 101] rest with
      | .ok r => .ok (.bool false, r)
      | .error f => .error f
    else if b = 110 then
      match matchLiteral [117, 108, 108] rest with
      | .ok r => .ok (.null, r)
      | .error f => .error f
    else .error ⟨ErrSyntax, "looking for beginning of value", start⟩

/-- Modelled from the spec: `decoder.go` is missing; a property is written into the object, last
write wins (§3). -/
def setKey (k : List Byte) (v : JValue) :
    List (List Byte × JValue) → List (List Byte × JValue)
  | [] => [(k, v)]
  | kv :: kvs => if kv.1 = k then (k, v) :: kvs else kv :: setKey k v kvs

/-- Modelled from the spec: `decoder.go` is missing; the object of the properties in the order
they were parsed. -/
def mkObject (raw : List (List Byte × JValue)) : List (List Byte × JValue) :=
  raw.foldl (fun m kv => setKey kv.1 kv.2 m) []

/-- Modelled from the spec: `decoder.go` is missing; the shape of the event for a value (§4.3): a
Key/Value Event when key/value emission is enabled and the value is an object property with key
`k`, a plain Value Event otherwise. -/
def payload (d : Decoder) (key : Option (List Byte)) (v : JValue) : Emitted :=
  match key with
  | some k => if d.emitKV then .KV k v else .plain v
  | none => .plain v

/-- Modelled from the spec: `decoder.go` is missing; the Emission Filter of §4.3 for a value
recognised at `depth`, read from `start` to `rest`; `key` is the property's key when the value is
an object property. -/
def emit (d : Decoder) (depth : Nat) (key : Option (List Byte)) (v : JValue)
    (start rest : List Byte) : List MetaValue :=
  if depth = d.emitDepth then
    [{ Offset := d.input.length - start.length
       Length := start.length - rest.length
       Depth := depth
       Value := payload d key v }]
  else []

/-- The depth and the value of an event. -/
def shape (e : MetaValue) : Nat × Emitted := (e.Depth, e.Value)

/-- Modelled from the spec: `decoder.go` is missing; the events published so far, and a value with
the input after it, or the failure that stopped the engine. -/
abbrev Parsed (α : Type) := List MetaValue × Except Failure (α × List Byte)

mutual

/-- Modelled from the spec: `decoder.go` is missing; the Value state of §4.2 at nesting depth
`depth`: whitespace is skipped, the first byte selects the production, and the recognised value
goes through the Emission Filter. The first argument bounds the nesting of calls. -/
def parseValue (d : Decoder) :
    Nat → Nat → Option (List Byte) → List Byte → Parsed JValue
  | 0, _, _, inp => ([], .error ⟨ErrUnexpectedEOF, "nesting", inp⟩)
  | fuel + 1, depth, key, inp =>
    match skipSpaces inp with
    | [] => ([], .error ⟨ErrUnexpectedEOF, "looking for beginning of value", []⟩)
    | b :: rest =>
      if b = 91 then
        match skipSpaces rest with
        | [] => ([], .error ⟨ErrUnexpectedEOF, "in array", []⟩)
        | b1 :: rest1 =>
          if b1 = 93 then
            (emit d depth key (.array []) (b :: rest) rest1, .ok (.array [], rest1))
          else
            match parseElems d fuel (depth + 1) rest with
            | (evs, .error f) => (evs, .error f)
            | (evs, .ok (vs, r)) =>
              (evs ++ emit d depth key (.array vs) (b :: rest) r, .ok (.array vs, r))
      else if b = 123 then
        match skipSpaces rest with
        | [] => ([], .error ⟨ErrUnexpectedEOF, "in object", []⟩)
        | b1 :: rest1 =>
          if b1 = 125 then
            (emit d depth key (.object []) (b :: rest) rest1, .ok (.object [], rest1))
          else
            match parseMembers d fuel (depth + 1) rest with
            | (evs, .error f) => (evs, .error f)
            | (evs, .ok (kvs, r)) =>
              (evs ++ emit d depth key (.object (mkObject kvs)) (b :: rest) r,
                .ok (.object (mkObject kvs), r))
      else
        match parseScalar (b :: rest) with
        | .error f => ([], .error f)
        | .ok (v, r) => (emit d depth key v (b :: rest) r, .ok (v, r))

/-- Modelled from the spec: `decoder.go` is missing; the Array state of §4.2 after `[`: values at
`depth` separated by `,` up to `]`; a trailing comma is a syntax error. -/
def parseElems (d : Decoder) : Nat → Nat → List Byte → Parsed (List JValue)
  | 0, _, inp => ([], .error ⟨ErrUnexpectedEOF, "nesting", inp⟩)
  | fuel + 1, depth, inp =>
    match parseValue d fuel depth none inp with
    | (evs, .error f) => (evs, .error f)
    | (evs, .ok (v, r)) =>
      match skipSpaces r with
      | [] => (evs, .error ⟨ErrUnexpectedEOF, "after array element", []⟩)
      | c :: r1 =>
        if c = 93 then (evs, .ok ([v], r1))
        else if c = 44 then
          match parseElems d fuel depth r1 with
          | (evs1, .error f) => (evs ++ evs1, .error f)
          | (evs1, .ok (vs, r2)) => (evs ++ evs1, .ok (v :: vs, r2))
        else (evs, .error ⟨ErrSyntax, "after array element", c :: r1⟩)

/-- Modelled from the spec: `decoder.go` is missing; the Object state of §4.2 after `{`: pairs of
a string key, `:` and a value at `depth`, separated by `,` up to `}`; a trailing comma or a
missing colon is a syntax error. -/
def parseMembers (d : Decoder) :
    Nat → Nat → List Byte → Parsed (List (List Byte × JValue))
  | 0, _, inp => ([], .error ⟨ErrUnexpectedEOF, "nesting", inp⟩)
  | fuel + 1, depth, inp =>
    match skipSpaces inp with
    | [] => ([], .error ⟨ErrUnexpectedEOF, "looking for beginning of object key string", []⟩)
    | q :: r0 =>
      if q = 34 then
        match lexString r0 with
        | .error f => ([], .error f)
        | .ok (k, r1) =>
          match skipSpaces r1 with
          | [] => ([], .error ⟨ErrUnexpectedEOF, "after object key", []⟩)
          | c :: r2 =>
            if c = 58 then
              match parseValue d fuel depth (some k) r2 with
              | (evs, .error f) => (evs, .error f)
              | (evs, .ok (v, r3)) =>
                match skipSpaces r3 with
                | [] => (evs, .error ⟨ErrUnexpectedEOF, "after object key:value pair", []⟩)
                | c1 :: r4 =>
                  if c1 = 125 then (evs, .ok ([(k, v)], r4))
                  else if c1 = 44 then
                    match parseMembers d fuel depth r4 with
                    | (evs1, .error f) => (evs ++ evs1, .error f)
                    | (evs1, .ok (kvs, r5)) => (evs ++ evs1, .ok ((k, v) :: kvs, r5))
                  else (evs, .error ⟨ErrSyntax, "after object key:value pair", c1 :: r4⟩)
            else ([], .error ⟨ErrSyntax, "after object key", c :: r2⟩)
      else ([], .error ⟨ErrSyntax, "looking for beginning of object key string", q :: r0⟩)

end

/-- Modelled from the spec: `decoder.go` is missing; the Position/Error Tracker of §2: the line
and column of the byte at which the engine stopped (lines counted from 1, the column is the count
of bytes after the last line feed), and that byte. -/
def mkError (d : Decoder) (f : Failure) : DecoderError :=
  let done := d.input.take (d.input.length - f.rest.length)
  { f.err with
    context := f.context
    pos := ((done.count 10 + 1 : Nat), ((done.reverse.takeWhile (fun b => b ≠ 10)).length : Nat))
    atChar := f.rest.headD 0 }

/-- Modelled from the spec: `decoder.go` is missing; the Document loop of §4.2: after a value at
depth 0, whitespace is skipped and another top-level value starts if bytes remain; the stream ends
cleanly when the input is exhausted and with the error on the first failure. The first argument
bounds the number of documents; every document takes at least one byte. -/
def decodeLoop (d : Decoder) : Nat → List Byte → List MetaValue × Option DecoderError
  | 0, inp => ([], some (mkError d ⟨ErrUnexpectedEOF, "nesting", inp⟩))
  | fuel + 1, inp =>
    match skipSpaces inp with
    | [] => ([], none)
    | b :: rest =>
      match parseValue d (2 * d.input.length + 1) 0 none (b :: rest) with
      | (evs, .error f) => (evs, some (mkError d f))
      | (evs, .ok (_, r)) => (evs ++ (decodeLoop d fuel r).1, (decodeLoop d fuel r).2)

/-- The input of `TestDecoderMultiDoc`: five objects of three properties, one per line. -/
def multiDocBody : List Byte :=
  [123, 32, 34, 98, 105, 111, 34, 58, 32, 34, 98, 97, 100, 97, 32, 98, 105, 110, 103, 32, 98,
    97, 100, 97, 32, 98, 111, 111, 109, 34, 44, 32, 34, 105, 100, 34, 58, 32, 49, 44, 32, 34,
    110, 97, 109, 101, 34, 58, 32, 34, 67, 104, 97, 114, 108, 101, 115, 34, 32, 125, 10, 123, 32,
    34, 98, 105, 111, 34, 58, 32, 34, 98, 97, 100, 97, 32, 98, 105, 110, 103, 32, 98, 97, 100,
    97, 32, 98, 111, 111, 109, 34, 44, 32, 34, 105, 100, 34, 58, 32, 50, 44, 32, 34, 110, 97,
    109, 101, 34, 58, 32, 34, 67, 104, 97, 114, 108, 101, 115, 34, 32, 125, 10, 123, 32, 34, 98,
    105, 111, 34, 58, 32, 34, 98, 97, 100, 97, 32, 98, 105, 110, 103, 32, 98, 97, 100, 97, 32,
    98, 111, 111, 109, 34, 44, 32, 34, 105, 100, 34, 58, 32, 51, 44, 32, 34, 110, 97, 109, 101,
    34, 58, 32, 34, 67, 104, 97, 114, 108, 101, 115, 34, 32, 125, 10, 123, 32, 34, 98, 105, 111,
    34, 58, 32, 34, 98, 97, 100, 97, 32, 98, 105, 110, 103, 32, 98, 97, 100, 97, 32, 98, 111,
    111, 109, 34, 44, 32, 34, 105, 100, 34, 58, 32, 52, 44, 32, 34, 110, 97, 109, 101, 34, 58,
    32, 34, 67, 104, 97, 114, 108, 101, 115, 34, 32, 125, 10, 123, 32, 34, 98, 105, 111, 34, 58,
    32, 34, 98, 97, 100, 97, 32, 98, 105, 110, 103, 32, 98, 97, 100, 97, 32, 98, 111, 111, 109,
    34, 44, 32, 34, 105, 100, 34, 58, 32, 53, 44, 32, 34, 110, 97, 109, 101, 34, 58, 32, 34, 67,
    104, 97, 114, 108, 101, 115, 34, 32, 125, 10]

/-- Modelled from the spec: `decoder.go` is missing; whether the value of an event is a Key/Value
Event, as the type switch `mv.Value.(type)` of the tests tells. -/
def Emitted.isKV : Emitted → Bool
  | .KV _ _ => true
  | .plain _ => false

/-- Modelled from the spec: `decoder.go` is missing; `NewDecoder(r, emitDepth)` of §6, over the
bytes of `r`. -/
def NewDecoder (input : List Byte) (emitDepth : Nat) : Decoder :=
  { input := input, emitDepth := emitDepth, emitKV := false }

/-- Modelled from the spec: `decoder.go` is missing; the mode toggle `EmitKV()` of §6. -/
def Decoder.EmitKV (d : Decoder) : Decoder :=
  { d with emitKV := true }

/-- Modelled from the spec: `decoder.go` is missing; the events that `Stream()` yields, in order.
-/
def Decoder.Stream (d : Decoder) : List MetaValue :=
  (decodeLoop d (d.input.length + 1) d.input).1

/-- Modelled from the spec: `decoder.go` is missing; `Err()` after the stream has ended. -/
def Decoder.Err (d : Decoder) : Option DecoderError :=
  (decodeLoop d (d.input.length + 1) d.input).2

/-! ### Well-formed JSON text -/

/-- A run of insignificant whitespace. -/
def IsWs (w : List Byte) : Prop := ∀ b ∈ w, isSpace b = true

/-- The integer part of a well-formed number. -/
inductive IntPart : List Byte → Prop where
  | zero : IntPart [48]
  | nonzero (b : Byte) (ds : List Byte) :
      isDigit b = true → b ≠ 48 → (∀ x ∈ ds, isDigit x = true) → IntPart (b :: ds)

/-- The optional fractional part of a well-formed number. -/
inductive FracPart : List Byte → Prop where
  | none : FracPart []
  | some (ds : List Byte) : ds ≠ [] → (∀ x ∈ ds, isDigit x = true) → FracPart (46 :: ds)

/-- The optional exponent of a well-formed number. -/
inductive ExpPart : List Byte → Prop where
  | none : ExpPart []
  | some (m : Byte) (sg ds : List Byte) : (m = 101 ∨ m = 69) → (sg = [] ∨ sg = [43] ∨ sg = [45]) →
      ds ≠ [] → (∀ x ∈ ds, isDigit x = true) → ExpPart (m :: (sg ++ ds))

/-- A well-formed JSON number. -/
inductive NumberLit : List Byte → Prop where
  | mk (sg i f e : List Byte) : (sg = [] ∨ sg = [45]) → IntPart i → FracPart f → ExpPart e →
      NumberLit (sg ++ i ++ f ++ e)

/-- The text between the quotes of a well-formed JSON string, and the bytes it decodes to. -/
inductive StrBody : List Byte → List Byte → Prop where
  | nil : StrBody [] []
  | plain (b : Byte) (body s : List Byte) :
      b ≠ 34 → b ≠ 92 → StrBody body s → StrBody (b :: body) (b :: s)
  | escape (c x : Byte) (body s : List Byte) :
      simpleEscape c = some x → StrBody body s → StrBody (92 :: c :: body) (x :: s)
  | unicode (h1 h2 h3 h4 : Byte) (u : Nat) (body s : List Byte) :
      hex4 [h1, h2, h3, h4] = some (u, []) → isHighSurrogate u = false →
      isLowSurrogate u = false → StrBody body s →
      StrBody (92 :: 117 :: h1 :: h2 :: h3 :: h4 :: body) (utf8 u ++ s)
  | pair (h1 h2 h3 h4 l1 l2 l3 l4 : Byte) (hi lo : Nat) (body s : List Byte) :
      hex4 [h1, h2, h3, h4] = some (hi, []) → isHighSurrogate hi = true →
      hex4 [l1, l2, l3, l4] = some (lo, []) → isLowSurrogate lo = true → StrBody body s →
      StrBody (92 :: 117 :: h1 :: h2 :: h3 :: h4 :: 92 :: 117 :: l1 :: l2 :: l3 :: l4 :: body)
        (utf8 (surrogatePair hi lo) ++ s)

/-- What a well-formed text denotes: a value, the elements of an array up to its `]`, or the
properties of an object, in the order of the text, up to its `}`. -/
inductive Sem where
  | val (v : JValue)
  | elems (vs : List JValue)
  | members (kvs : List (List Byte × JValue))

/-- Well-formed JSON text and what it denotes. -/
inductive Wf : List Byte → Sem → Prop where
  | null : Wf [110, 117, 108, 108] (.val .null)
  | true_ : Wf [116, 114, 117, 101] (.val (.bool true))
  | false_ : Wf [102, 97, 108, 115, 101] (.val (.bool false))
  | number (t : List Byte) : NumberLit t → Wf t (.val (.number t))
  | string (body s : List Byte) : StrBody body s → Wf (34 :: (body ++ [34])) (.val (.string s))
  | emptyArray (w : List Byte) : IsWs w → Wf (91 :: (w ++ [93])) (.val (.array []))
  | array (body : List Byte) (vs : List JValue) :
      Wf body (.elems vs) → Wf (91 :: body) (.val (.array vs))
  | emptyObject (w : List Byte) : IsWs w → Wf (123 :: (w ++ [125])) (.val (.object []))
  | object (body : List Byte) (kvs : List (List Byte × JValue)) :
      Wf body (.members kvs) → Wf (123 :: body) (.val (.object (mkObject kvs)))
  | lastElem (w1 t w2 : List Byte) (v : JValue) :
      IsWs w1 → IsWs w2 → Wf t (.val v) → Wf (w1 ++ t ++ w2 ++ [93]) (.elems [v])
  | consElem (w1 t w2 body : List Byte) (v : JValue) (vs : List JValue) :
      IsWs w1 → IsWs w2 → Wf t (.val v) → Wf body (.elems vs) →
      Wf (w1 ++ t ++ w2 ++ 44 :: body) (.elems (v :: vs))
  | lastMember (w1 kb k w2 w3 t w4 : List Byte) (v : JValue) :
      IsWs w1 → IsWs w2 → IsWs w3 → IsWs w4 → StrBody kb k → Wf t (.val v) →
      Wf (w1 ++ 34 :: (kb ++ 34 :: (w2 ++ 58 :: (w3 ++ t ++ w4 ++ [125])))) (.members [(k, v)])
  | consMember (w1 kb k w2 w3 t w4 body : List Byte) (v : JValue)
      (kvs : List (List Byte × JValue)) :
      IsWs w1 → IsWs w2 → IsWs w3 → IsWs w4 → StrBody kb k → Wf t (.val v) →
      Wf body (.members kvs) →
      Wf (w1 ++ 34 :: (kb ++ 34 :: (w2 ++ 58 :: (w3 ++ t ++ w4 ++ 44 :: body))))
        (.members ((k, v) :: kvs))

/-- The text after a value starts with whitespace, `,`, `]` or `}`, or is empty. -/
def Delim (rest : List Byte) : Prop :=
  ∀ b ∈ rest.head?, isSpace b = true ∨ b = 44 ∨ b = 93 ∨ b = 125

/-- What the decode engine does on a well-formed text `t`, at any depth from the target depth
on: it returns what the text denotes and the input after it, and publishes an event for each
value at the target depth and for no other. -/
def Good (d : Decoder) (t : List Byte) : Sem → Prop
  | .val v => ∀ (fuel depth : Nat) (key : Option (List Byte)) (w rest : List Byte),
      2 * t.length ≤ fuel → d.emitDepth ≤ depth → IsWs w → Delim rest →
      parseValue d fuel depth key (w ++ (t ++ rest)) =
        (emit d depth key v (t ++ rest) rest, .ok (v, rest))
  | .elems vs => ∀ (fuel depth : Nat) (rest : List Byte),
      2 * t.length ≤ fuel → d.emitDepth ≤ depth →
      ∃ evs, parseElems d fuel depth (t ++ rest) = (evs, .ok (vs, rest)) ∧
        evs.map shape =
          if depth = d.emitDepth then vs.map (fun v => (depth, Emitted.plain v)) else []
  | .members kvs => ∀ (fuel depth : Nat) (rest : List Byte),
      2 * t.length ≤ fuel → d.emitDepth ≤ depth →
      ∃ evs, parseMembers d fuel depth (t ++ rest) = (evs, .ok (kvs, rest)) ∧
        evs.map shape =
          if depth = d.emitDepth then kvs.map (fun kv => (depth, payload d (some kv.1) kv.2))
          else []

/-- Documents `t` that stand in the relation `R` to what they denote, each followed by
whitespace, and by more than none when another document follows. -/
inductive Documents {α : Type} (R : List Byte → α → Prop) : List Byte → List α → Prop where
  | done (w : List Byte) : IsWs w → Documents R w []
  | cons (t w rest : List Byte) (a : α) (as : List α) :
      R t a → IsWs w → (w ≠ [] ∨ as = []) → Documents R rest as →
      Documents R (t ++ w ++ rest) (a :: as)

/-- The text of a JSON object and its properties in the order of the text. -/
def IsObjectText (t : List Byte) (kvs : List (List Byte × JValue)) : Prop :=
  (kvs = [] ∧ ∃ w, IsWs w ∧ t = 123 :: (w ++ [125])) ∨
  (∃ body, t = 123 :: body ∧ Wf body (.members kvs))

/-- The text after a number does not continue it. -/
def NumEnd (rest : List Byte) : Prop :=
  ∀ b ∈ rest.head?, isDigit b = false ∧ b ≠ 46 ∧ b ≠ 101 ∧ b ≠ 69

/-! ## Decoder errors as text (errors.go) -/

/-- An argument of `fmt.Sprintf`: a string for the verb `%s`, an int for the verb `%d`. -/
inductive FmtArg where
  | str (s : String)
  | int (i : Int)

/-- The characters `fmt.Sprintf` writes for a format and its arguments, for the two verbs that
errors.go uses: `%s` writes the next argument, a string, as it is, and `%d` writes the next
argument, an int, in decimal with a leading `-` when it is negative; the other characters of
the format are copied.  Other verbs, and a verb without an argument of its type, do not occur in
errors.go; their characters are copied as well. -/
def sprintfChars : List Char → List FmtArg → List Char
  | '%' :: 's' :: format, .str s :: args => s.toList ++ sprintfChars format args
  | '%' :: 'd' :: format, .int i :: args => (toString i).toList ++ sprintfChars format args
  | c :: format, args => c :: sprintfChars format args
  | [], _ => []

/-- Go's `fmt.Sprintf`, see `sprintfChars`. -/
def Sprintf (format : String) (args : List FmtArg) : String :=
  String.mk (sprintfChars format.toList args)

/-- The digit table `lowerhex` of Go's `strconv`. -/
def lowerhex : List Char :=
  "0123456789abcdef".toList

/-- Go's `strconv.IsPrint` on a rune below 256, its Latin-1 branch: the ASCII characters from
space to `~`, and the characters from U+00A1 to U+00FF except the soft hyphen U+00AD. -/
def IsPrint (r : Nat) : Bool :=
  (0x20 ≤ r && r ≤ 0x7E) || (0xA1 ≤ r && r ≤ 0xFF && r != 0xAD)

/-- Go's `strconv.Quote` on one rune below 256 (`appendEscapedRune` with the quote `"`): the
quote and the backslash get a backslash, a printable rune is written as it is, the runes
`\a \b \f \n \r \t \v` as these escapes, another rune below space and U+007F as `\x` and two
hex digits, another rune as `\u` and four hex digits. -/
def appendEscapedRune (r : Nat) : List Char :=
  if r = 34 ∨ r = 92 then ['\\', Char.ofNat r]
  else if IsPrint r then [Char.ofNat r]
  else if r = 7 then ['\\', 'a']
  else if r = 8 then ['\\', 'b']
  else if r = 12 then ['\\', 'f']
  else if r = 10 then ['\\', 'n']
  else if r = 13 then ['\\', 'r']
  else if r = 9 then ['\\', 't']
  else if r = 11 then ['\\', 'v']
  else if r < 32 ∨ r = 127 then
    ['\\', 'x', lowerhex.getD (r / 16) '0', lowerhex.getD (r % 16) '0']
  else ['\\', 'u', lowerhex.getD (r / 4096 % 16) '0', lowerhex.getD (r / 256 % 16) '0',
    lowerhex.getD (r / 16 % 16) '0', lowerhex.getD (r % 16) '0']

/-- Go's `strconv.Quote(string(c))` for a byte `c`: the conversion `string(c)` is the one-rune
string of the rune with the value of `c`, and `Quote` writes it escaped between double quotes. -/
def Quote (c : Byte) : List Char :=
  '"' :: appendEscapedRune c.val ++ ['"']

/-- The function `quoteChar` of errors.go: `c` as a quoted character literal.  The slice
`s[1:len(s)-1]` removes the two double quotes of `s`, one byte each. -/
def quoteChar (c : Byte) : String :=
  if c = 39 then "'\\''"
  else if c = 34 then "'\"'"
  else
    let s := Quote c
    String.mk ('\'' :: (s.drop 1).take (s.length - 1 - 1) ++ ['\''])

/-- The method `ReaderErr` of errors.go. -/
def DecoderError.ReaderErr (e : DecoderError) : Option Err :=
  e.readerErr

/-- The method `Error` of errors.go; `errorText` is the `Error()` method of the reader's error
values. -/
def DecoderError.Error (errorText : Err → String) (e : DecoderError) : String :=
  let loc := Sprintf "%s [%d,%d]" [.str (quoteChar e.atChar), .int e.pos.1, .int e.pos.2]
  let s := Sprintf "%s %s: %s" [.str e.msg, .str e.context, .str loc]
  match e.readerErr with
  | some r => s ++ ("\nreader error: " ++ errorText r)
  | none => s

/-- The value of a hex digit of `lowerhex`. -/
def hexDigitVal (d : Char) : Nat :=
  if d.toNat < 58 then d.toNat - 48 else d.toNat - 87

/-- Reads the byte back from the text that `quoteChar` writes for it. -/
def unquoteChar (s : String) : Nat :=
  match s.toList with
  | [_, c, _] => c.toNat
  | [_, '\\', c, _] =>
    if c = 'a' then 7 else if c = 'b' then 8 else if c = 'f' then 12 else if c = 'n' then 10
    else if c = 'r' then 13 else if c = 't' then 9 else if c = 'v' then 11 else c.toNat
  | [_, '\\', 'x', h1, h2, _] => 16 * hexDigitVal h1 + hexDigitVal h2
  | [_, '\\', 'u', h1, h2, h3, h4, _] =>
    4096 * hexDigitVal h1 + 256 * hexDigitVal h2 + 16 * hexDigitVal h3 + hexDigitVal h4
  | _ => 0

/-! ## The scanner delivers the stream -/

theorem maxInt_eq : maxInt = 9223372036854775807 := by
  norm_num [maxInt]

theorem wrapInt64_eq (x : Int) (h1 : -9223372036854775808 ≤ x) (h2 : x ≤ 9223372036854775807) :
    wrapInt64 x = x := by
  unfold wrapInt64
  omega

theorem scan_chunkReader_cons (s : scanner) (c : List Byte) (rest : List (List Byte)) (e : Err)
    (hc : 1 ≤ c.length) :
    scan s (chunkReader (c :: rest) e) =
      { s with
        nbuf := fun i => c.getD i (s.nbuf i)
        reader := chunkReader rest e
        rpos := wrapInt64 (s.rpos + (c.length : Int))
        worker := .sending ⟨(c.length : Int), none⟩ false } := by
  have h : c.length ≠ 0 := by omega
  simp [chunkReader, scan, h]

theorem scan_chunkReader_eof (s : scanner) :
    scan s (chunkReader [] .eof) = { s with reader := [], end_ := s.rpos, worker := .exited } := by
  simp [chunkReader, scan]

theorem scan_chunkReader_other (s : scanner) (n : Nat) :
    scan s (chunkReader [] (.other n)) =
      { s with reader := [], worker := .sending ⟨0, some (.other n)⟩ true } := by
  simp [chunkReader, scan]

theorem flatten_length_le (B : List Byte) (d : Nat) (c : List Byte) (rest : List (List Byte))
    (hc : 1 ≤ c.length) (h : B.drop d = (c :: rest).flatten) : d + c.length ≤ B.length := by
  have := congrArg List.length h
  simp at this
  omega

theorem workerRun_of_ne (s : scanner) (h : s.worker ≠ .reading) : workerRun s = s := by
  unfold workerRun
  split
  · contradiction
  · rfl

theorem workerInv_workerRun {B : List Byte} {e : Err} {d : Nat} {rest : List (List Byte)}
    {s : scanner} (hB : (B.length : Int) < maxInt) (hd : d ≤ B.length)
    (hdrop : B.drop d = rest.flatten) (hrest : ChunksOk rest)
    (h : WorkerInv B e d rest s.worker s.reader s.nbuf s.rpos s.end_) :
    WorkerInv B e d rest (workerRun s).worker (workerRun s).reader (workerRun s).nbuf
      (workerRun s).rpos (workerRun s).end_ ∧ (workerRun s).worker ≠ .reading ∧
    (workerRun s).pos = s.pos ∧ (workerRun s).ipos = s.ipos ∧ (workerRun s).ifill = s.ifill ∧
    (workerRun s).buf = s.buf := by
  rcases h with ⟨hw, hrd, hrp, hend⟩ | ⟨c, rest1, hr, hw, hrd, hnb, hrp, hend⟩ |
    ⟨hw, he, hr, hend⟩ | ⟨hw, he, hr, hend⟩
  · cases rest with
    | nil =>
      cases e with
      | eof =>
        have hs : workerRun s = { s with reader := [], end_ := s.rpos, worker := .exited } := by
          simp only [workerRun, hw, hrd, scan_chunkReader_eof]
        rw [hs]
        refine ⟨?_, by simp, rfl, rfl, rfl, rfl⟩
        right; right; left
        simp at hdrop
        refine ⟨rfl, rfl, rfl, ?_⟩
        simp [hrp]; omega
      | other n =>
        have hs : workerRun s =
            { s with reader := [], worker := .sending ⟨0, some (.other n)⟩ true } := by
          simp only [workerRun, hw, hrd, scan_chunkReader_other]
        rw [hs]
        refine ⟨?_, by simp, rfl, rfl, rfl, rfl⟩
        right; right; right
        exact ⟨rfl, by simp, rfl, hend⟩
    | cons c rest1 =>
      have hc := hrest c (by simp)
      have hle := flatten_length_le B d c rest1 hc.1 hdrop
      have hs : workerRun s = { s with
          nbuf := fun i => c.getD i (s.nbuf i)
          reader := chunkReader rest1 e
          rpos := wrapInt64 (s.rpos + (c.length : Int))
          worker := .sending ⟨(c.length : Int), none⟩ false } := by
        simp only [workerRun, hw, hrd, scan_chunkReader_cons _ _ _ _ hc.1]
      rw [hs]
      refine ⟨?_, by simp, rfl, rfl, rfl, rfl⟩
      right; left
      refine ⟨c, rest1, rfl, rfl, rfl, ?_, ?_, hend⟩
      · intro j hj
        simp [List.getD, List.getElem?_eq_getElem hj]
      · rw [maxInt_eq] at hB
        rw [hrp, wrapInt64_eq _ (by omega) (by omega)]
  · have hs : workerRun s = s := workerRun_of_ne s (by simp [hw])
    rw [hs]
    exact ⟨Or.inr (Or.inl ⟨c, rest1, hr, hw, hrd, hnb, hrp, hend⟩), by simp [hw], rfl, rfl, rfl, rfl⟩
  · have hs : workerRun s = s := workerRun_of_ne s (by simp [hw])
    rw [hs]
    exact ⟨Or.inr (Or.inr (Or.inl ⟨hw, he, hr, hend⟩)), by simp [hw], rfl, rfl, rfl, rfl⟩
  · have hs : workerRun s = s := workerRun_of_ne s (by simp [hw])
    rw [hs]
    exact ⟨Or.inr (Or.inr (Or.inr ⟨hw, he, hr, hend⟩)), by simp [hw], rfl, rfl, rfl, rfl⟩

theorem scan_ipos (x : Int) (rs : List ReadResult) (s : scanner) :
    scan { s with ipos := x } rs = { scan s rs with ipos := x } := by
  induction rs generalizing s with
  | nil => rfl
  | cons r rs ih =>
    simp only [scan]
    split
    · split
      · rfl
      · exact ih { s with nbuf := fun i => r.data.getD i (s.nbuf i), reader := rs }
      · rfl
    · rfl

theorem workerRun_ipos (x : Int) (s : scanner) :
    workerRun { s with ipos := x } = { workerRun s with ipos := x } := by
  obtain ⟨pos, ipos, ifill, end_, buf, nbuf, rpos, w, rd⟩ := s
  cases w
  · rfl
  · exact scan_ipos x rd _
  · rfl
  · rfl

theorem next_window (s : scanner) (h1 : s.pos < s.end_) (h0 : 0 ≤ s.ipos)
    (h2 : s.ipos + 1 ≤ s.ifill) (h3 : s.ifill ≤ chunk) (hp : 0 ≤ s.pos)
    (hp2 : s.pos < maxInt) :
    next s = .ok ((s.buf (s.ipos + 1).toNat, none),
      { s with ipos := s.ipos + 1, pos := s.pos + 1 }) := by
  rw [maxInt_eq] at hp2
  have hc : (chunk : Int) = 4095 := rfl
  rw [hc] at h3
  have e1 : wrapInt64 (s.ipos + 1) = s.ipos + 1 := wrapInt64_eq _ (by omega) (by omega)
  have e2 : wrapInt64 (s.pos + 1) = s.pos + 1 := wrapInt64_eq _ (by omega) (by omega)
  have n1 : ¬ s.pos ≥ s.end_ := by omega
  have n2 : ¬ s.ipos + 1 > s.ifill := by omega
  have n3 : 0 ≤ s.ipos + 1 ∧ s.ipos + 1 ≤ (chunk : Int) := by omega
  simp [next, nextReturn, bufAt, e1, e2, n1, n2, n3]

theorem scan_consumer (rs : List ReadResult) (s : scanner) :
    (scan s rs).pos = s.pos ∧ (scan s rs).ipos = s.ipos ∧ (scan s rs).ifill = s.ifill ∧
      (scan s rs).buf = s.buf := by
  induction rs generalizing s with
  | nil => exact ⟨rfl, rfl, rfl, rfl⟩
  | cons r rs ih =>
    simp only [scan]
    split
    · split
      · exact ⟨rfl, rfl, rfl, rfl⟩
      · exact ih { s with nbuf := fun i => r.data.getD i (s.nbuf i), reader := rs }
      · exact ⟨rfl, rfl, rfl, rfl⟩
    · exact ⟨rfl, rfl, rfl, rfl⟩

theorem workerRun_consumer (s : scanner) :
    (workerRun s).pos = s.pos ∧ (workerRun s).ipos = s.ipos ∧ (workerRun s).ifill = s.ifill ∧
      (workerRun s).buf = s.buf := by
  unfold workerRun
  split
  · exact scan_consumer s.reader s
  · exact ⟨rfl, rfl, rfl, rfl⟩

theorem next_refill (s : scanner) (n : Int) (h1 : s.pos < s.end_) (h0 : 0 ≤ s.ipos)
    (h2 : s.ifill < s.ipos + 1) (hi : s.ipos < maxInt) (hp : 0 ≤ s.pos) (hp2 : s.pos < maxInt)
    (hw : (workerRun s).worker = .sending ⟨n, none⟩ false)
    (hend : (workerRun s).end_ = maxInt) :
    next s = .ok (((workerRun s).nbuf 0, none),
      { workerRun s with
        ifill := n
        buf := fun i => if i = 0 then s.buf chunk else if i ≤ chunk then (workerRun s).nbuf (i - 1)
          else s.buf i
        ipos := 1
        worker := .reading
        pos := s.pos + 1 }) := by
  obtain ⟨wp, -, wf, wb⟩ := workerRun_consumer s
  rw [maxInt_eq] at hp2 hi
  have e1 : wrapInt64 (s.ipos + 1) = s.ipos + 1 := wrapInt64_eq _ (by omega) (by omega)
  have e2 : wrapInt64 (s.pos + 1) = s.pos + 1 := wrapInt64_eq _ (by omega) (by omega)
  have n1 : ¬ s.pos ≥ s.end_ := by omega
  have n3 : (0 : Int) ≤ 1 ∧ (1 : Int) ≤ (chunk : Int) := by decide
  have n4 : chunk ≠ 0 := by decide
  simp [next, refill, swapBuffers, recvFillReady, workerRun_ipos, sendFillReq, nextReturn, bufAt, e1,
    e2, n1, h2, n3,
    n4, hw, hend, wp, wb]

theorem next_closed (s : scanner) (h1 : s.pos < s.end_) (h0 : 0 ≤ s.ipos)
    (h2 : s.ifill < s.ipos + 1) (hi : s.ipos < maxInt) (hp : 0 ≤ s.pos) (hp2 : s.pos < maxInt)
    (hw : (workerRun s).worker = .exited) (hend : (workerRun s).end_ ≠ maxInt) :
    next s = .ok (((workerRun s).nbuf 0, none),
      { workerRun s with
        ifill := 0
        buf := fun i => if i = 0 then s.buf chunk else if i ≤ chunk then (workerRun s).nbuf (i - 1)
          else s.buf i
        ipos := 1
        pos := s.pos + 1 }) := by
  obtain ⟨wp, -, wf, wb⟩ := workerRun_consumer s
  rw [maxInt_eq] at hp2 hi
  have e1 : wrapInt64 (s.ipos + 1) = s.ipos + 1 := wrapInt64_eq _ (by omega) (by omega)
  have e2 : wrapInt64 (s.pos + 1) = s.pos + 1 := wrapInt64_eq _ (by omega) (by omega)
  have n1 : ¬ s.pos ≥ s.end_ := by omega
  have n3 : (0 : Int) ≤ 1 ∧ (1 : Int) ≤ (chunk : Int) := by decide
  have n4 : chunk ≠ 0 := by decide
  simp [next, refill, swapBuffers, recvFillReady, workerRun_ipos, sendFillReq, nextReturn, bufAt, e1,
    e2, n1, h2, n3,
    n4, hw, hend, wp, wb]

theorem next_error (s : scanner) (e : Err) (h1 : s.pos < s.end_) (h0 : 0 ≤ s.ipos)
    (h2 : s.ifill < s.ipos + 1) (hi : s.ipos < maxInt)
    (hw : (workerRun s).worker = .sending ⟨0, some e⟩ true) :
    next s = .ok ((0, some e), { workerRun s with ipos := s.ipos + 1, worker := .exited }) := by
  rw [maxInt_eq] at hi
  have e1 : wrapInt64 (s.ipos + 1) = s.ipos + 1 := wrapInt64_eq _ (by omega) (by omega)
  have n1 : ¬ s.pos ≥ s.end_ := by omega
  simp [next, refill, recvFillReady, workerRun_ipos, e1, n1, h2, hw]

theorem getElem?_of_drop (B : List Byte) (d j : Nat) (ck : List Byte) (rest : List Byte)
    (h : B.drop d = ck ++ rest) (hj : j < ck.length) : B[d + j]? = ck[j]? := by
  have h1 : (B.drop d)[j]? = (ck ++ rest)[j]? := by rw [h]
  rw [List.getElem?_drop, List.getElem?_append_left hj] at h1
  exact h1

theorem inv_newScanner (cs : List (List Byte)) (e : Err) (h : ChunksOk cs) :
    Inv cs.flatten e (newScanner (chunkReader cs e)) := by
  refine ⟨0, 0, 0, cs, rfl, rfl, rfl, by decide, by simp, by simp, h, ?_, ?_, Or.inl (le_refl _)⟩
  · intro j hj
    omega
  · exact Or.inl ⟨rfl, rfl, rfl, rfl⟩

theorem inv_yield {B : List Byte} {e : Err} {s : scanner} (hB : (B.length : Int) < maxInt)
    (h : Inv B e s) : Inv B e (workerRun s) := by
  obtain ⟨base, fill, i, rest, hfill, hipos, hpos, hfc, hle, hdrop, hrest, hbuf, hW, hi⟩ := h
  obtain ⟨hW1, -, wp, wi, wf, wb⟩ := workerInv_workerRun hB hle hdrop hrest hW
  refine ⟨base, fill, i, rest, by rw [wf, hfill], by rw [wi, hipos], by rw [wp, hpos], hfc, hle,
    hdrop, hrest, by rw [wb]; exact hbuf, hW1, ?_⟩
  rcases hi with hi | ⟨h1, h2, h3⟩
  · exact Or.inl hi
  · rw [workerRun_of_ne s (by simp [h3])]
    exact Or.inr ⟨h1, h2, h3⟩

theorem workerInv_end {B : List Byte} {e : Err} {d : Nat} {rest : List (List Byte)}
    {w : Worker} {rd : List ReadResult} {nbuf : Nat → Byte} {rpos end_ : Int}
    (h : WorkerInv B e d rest w rd nbuf rpos end_) :
    end_ = maxInt ∨ (w = .exited ∧ e = .eof ∧ rest = [] ∧ end_ = B.length) := by
  rcases h with ⟨-, -, -, hend⟩ | ⟨_, _, -, -, -, -, -, hend⟩ | h | ⟨-, -, -, hend⟩
  · exact Or.inl hend
  · exact Or.inl hend
  · exact Or.inr h
  · exact Or.inl hend

theorem workerInv_exited {B : List Byte} {e : Err} {d : Nat} {rest : List (List Byte)}
    {w : Worker} {rd : List ReadResult} {nbuf : Nat → Byte} {rpos end_ : Int}
    (h : WorkerInv B e d rest w rd nbuf rpos end_) (hw : w = .exited) :
    e = .eof ∧ rest = [] ∧ end_ = B.length := by
  rcases h with ⟨h1, -⟩ | ⟨_, _, -, h1, -⟩ | ⟨-, h⟩ | ⟨h1, -⟩
  · rw [hw] at h1; cases h1
  · rw [hw] at h1; cases h1
  · exact h
  · rw [hw] at h1; cases h1

theorem inv_next_lt {B : List Byte} {e : Err} {s : scanner} (hB : (B.length : Int) < maxInt)
    (h : Inv B e s) (hlt : s.pos < B.length) :
    ∃ b s1, B[s.pos.toNat]? = some b ∧ next s = .ok ((b, none), s1) ∧ Inv B e s1 ∧
      s1.pos = s.pos + 1 ∧ cur s1 = .ok b ∧ 0 < s1.ipos := by
  obtain ⟨base, fill, i, rest, hfill, hipos, hpos, hfc, hle, hdrop, hrest, hbuf, hW, hi⟩ := h
  have hmax := maxInt_eq
  have hch : chunk = 4095 := rfl
  -- the state is not the one after a receive from the closed channel
  have hi1 : i ≤ fill := by
    rcases hi with hi | ⟨h1, h2, h3⟩
    · exact hi
    · obtain ⟨-, hr, -⟩ := workerInv_exited hW h3
      rw [hr] at hdrop
      simp at hdrop
      omega
  have hend : s.pos < s.end_ := by
    rcases workerInv_end hW with h1 | ⟨-, -, -, h1⟩ <;> omega
  have hnat : s.pos.toNat = base + i := by omega
  by_cases hin : i + 1 ≤ fill
  · -- the byte is in the window
    have hnx := next_window s hend (by omega) (by omega) (by omega) (by omega) (by omega)
    have hidx : (s.ipos + 1).toNat = i + 1 := by omega
    rw [hidx] at hnx
    refine ⟨s.buf (i + 1), _, ?_, hnx, ?_, rfl, ?_, ?_⟩
    rotate_left 3
    · show 0 < s.ipos + 1
      omega
    · rw [hnat]; exact hbuf i (by omega)
    · exact ⟨base, fill, i + 1, rest, hfill, by simp [hipos], by simp [hpos]; omega, hfc, hle,
        hdrop, hrest, hbuf, hW, Or.inl hin⟩
    · have hb : 0 ≤ s.ipos + 1 ∧ s.ipos + 1 ≤ (chunk : Int) := by omega
      simp [cur, bufAt, hb, hidx]
  · -- the window is used up: the next read is received
    have hif : i = fill := by omega
    subst hif
    obtain ⟨hW1, hne, -, -, -, -⟩ := workerInv_workerRun hB hle hdrop hrest hW
    rcases hW1 with ⟨h1, -⟩ | ⟨ck, rest1, hr, hw, hrd, hnb, hrp, hend1⟩ | ⟨-, -, hr, -⟩ |
      ⟨-, -, hr, -⟩
    · exact absurd h1 hne
    · have hck := hrest ck (by simp [hr])
      rw [hr] at hdrop
      have hle1 := flatten_length_le B _ ck rest1 hck.1 hdrop
      have hnx := next_refill s ck.length hend (by omega) (by omega) (by omega) (by omega)
        (by omega) hw hend1
      have hdrop1 : B.drop (base + i) = ck ++ rest1.flatten := by simpa using hdrop
      refine ⟨(workerRun s).nbuf 0, _, ?_, hnx, ?_, rfl, ?_, Int.one_pos⟩
      · rw [hnat]
        have := getElem?_of_drop B (base + i) 0 ck _ hdrop1 (by omega)
        rw [Nat.add_zero] at this
        rw [this]
        exact hnb 0 (by omega)
      · refine ⟨base + i, ck.length, 1, rest1, rfl, rfl, by simp [hpos], hck.2, by omega, ?_,
          ?_, ?_, ?_, Or.inl hck.1⟩
        · rw [← List.drop_drop, hdrop1]
          simp
        · intro c hc
          exact hrest c (by simp [hr, hc])
        · intro j hj
          have hj1 : j + 1 ≠ 0 := by omega
          have hj2 : j + 1 ≤ chunk := by omega
          rw [getElem?_of_drop B (base + i) j ck _ hdrop1 hj]
          simp [hj1, hj2, hnb j hj]
        · exact Or.inl ⟨rfl, hrd, by rw [hrp]; push_cast; ring, hend1⟩
      · simp [cur, bufAt, hch]
    · rw [hr] at hdrop; simp at hdrop; omega
    · rw [hr] at hdrop; simp at hdrop; omega

theorem inv_back {B : List Byte} {e : Err} {s : scanner} (hB : (B.length : Int) < maxInt)
    (h : Inv B e s) :
    (s.ipos ≤ 0 → back s = .error .panic) ∧
    (0 < s.ipos → ∃ s1, back s = .ok s1 ∧ Inv B e s1 ∧ s1.pos = s.pos - 1 ∧
      s1.ipos = s.ipos - 1) := by
  obtain ⟨base, fill, i, rest, hfill, hipos, hpos, hfc, hle, hdrop, hrest, hbuf, hW, hi⟩ := h
  have hmax := maxInt_eq
  constructor
  · intro h0
    simp [back, h0]
  · intro h0
    have n0 : ¬ s.ipos ≤ 0 := by omega
    have e1 : wrapInt64 (s.ipos - 1) = s.ipos - 1 := wrapInt64_eq _ (by omega) (by omega)
    have e2 : wrapInt64 (s.pos - 1) = s.pos - 1 := wrapInt64_eq _ (by omega) (by omega)
    refine ⟨{ s with ipos := s.ipos - 1, pos := s.pos - 1 }, by simp [back, n0, e1, e2], ?_,
      rfl, rfl⟩
    refine ⟨base, fill, i - 1, rest, hfill, ?_, ?_, hfc, hle, hdrop, hrest, hbuf, hW,
      Or.inl (by omega)⟩
    · show s.ipos - 1 = ((i - 1 : Nat) : Int)
      omega
    · show s.pos - 1 = (base : Int) + ((i - 1 : Nat) : Int)
      omega

theorem rest_nil_of_drop {B : List Byte} {d : Nat} {rest : List (List Byte)}
    (hd : B.length ≤ d) (hdrop : B.drop d = rest.flatten) (hrest : ChunksOk rest) :
    rest = [] := by
  cases rest with
  | nil => rfl
  | cons ck rest1 =>
    have hck := hrest ck (by simp)
    have := flatten_length_le B d ck rest1 hck.1 hdrop
    omega

theorem inv_next_eof {B : List Byte} {s : scanner} (hB : (B.length : Int) < maxInt)
    (h : Inv B .eof s) (hge : (B.length : Int) ≤ s.pos) :
    ∃ o s1, next s = .ok (o, s1) ∧ Inv B .eof s1 ∧
      (s.end_ ≠ maxInt → o = (0, none) ∧ s1 = s) := by
  have h' := h
  obtain ⟨base, fill, i, rest, hfill, hipos, hpos, hfc, hle, hdrop, hrest, hbuf, hW, hi⟩ := h
  have hmax := maxInt_eq
  rcases workerInv_end hW with hend | ⟨hw, -, hr, hend⟩
  · -- end-of-input is not recorded yet: the receive sees the closed channel
    have hi1 : i ≤ fill := by
      rcases hi with hi | ⟨-, -, h3⟩
      · exact hi
      · have := (workerInv_exited hW h3).2.2
        omega
    have hr : rest = [] := rest_nil_of_drop (by omega) hdrop hrest
    obtain ⟨hW1, hne, -, -, -, -⟩ := workerInv_workerRun hB hle hdrop hrest hW
    rcases hW1 with ⟨h1, -⟩ | ⟨ck, rest1, hr1, -⟩ | ⟨hw, -, -, hend1⟩ | ⟨-, h1, -⟩
    · exact absurd h1 hne
    · rw [hr] at hr1; cases hr1
    · have hnx := next_closed s (by omega) (by omega) (by omega) (by omega) (by omega)
        (by omega) hw (by omega)
      refine ⟨_, _, hnx, ?_, fun hc => absurd hend hc⟩
      refine ⟨B.length, 0, 1, [], rfl, rfl, ?_, by omega, by omega, by simp, ?_, ?_, ?_,
        Or.inr ⟨rfl, rfl, hw⟩⟩
      · show s.pos + 1 = (B.length : Int) + ((1 : Nat) : Int)
        omega
      · intro c hc
        simp at hc
      · intro j hj
        omega
      · exact Or.inr (Or.inr (Or.inl ⟨hw, rfl, rfl, hend1⟩))
    · exact absurd rfl h1
  · have hge1 : s.pos ≥ s.end_ := by omega
    refine ⟨(0, none), s, by simp [next, hge1], h', fun _ => ⟨rfl, rfl⟩⟩

theorem inv_next_err {B : List Byte} {n : Nat} {s : scanner} (hB : (B.length : Int) < maxInt)
    (h : Inv B (.other n) s) (hge : (B.length : Int) ≤ s.pos) :
    ∃ s1, next s = .ok ((0, some (.other n)), s1) ∧ s1.pos = s.pos := by
  obtain ⟨base, fill, i, rest, hfill, hipos, hpos, hfc, hle, hdrop, hrest, hbuf, hW, hi⟩ := h
  have hmax := maxInt_eq
  have hi1 : i ≤ fill := by
    rcases hi with hi | ⟨-, -, h3⟩
    · exact hi
    · have := (workerInv_exited hW h3).1
      cases this
  have hend : s.end_ = maxInt := by
    rcases workerInv_end hW with hend | ⟨-, h1, -⟩
    · exact hend
    · cases h1
  have hr : rest = [] := rest_nil_of_drop (by omega) hdrop hrest
  obtain ⟨hW1, hne, wp, -, -, -⟩ := workerInv_workerRun hB hle hdrop hrest hW
  rcases hW1 with ⟨h1, -⟩ | ⟨ck, rest1, hr1, -⟩ | ⟨-, h1, -⟩ | ⟨hw, -, -, -⟩
  · exact absurd h1 hne
  · rw [hr] at hr1; cases hr1
  · cases h1
  · have hnx := next_error s (.other n) (by omega) (by omega) (by omega) (by omega) hw
    exact ⟨_, hnx, wp⟩

theorem drop_take_succ (B : List Byte) (p k : Nat) (b : Byte) (h : B[p]? = some b) :
    (B.drop p).take (k + 1) = b :: (B.drop (p + 1)).take k := by
  have hp : p < B.length := by
    by_contra hc
    rw [List.getElem?_eq_none (by omega)] at h
    cases h
  rw [List.getElem?_eq_getElem hp] at h
  cases h
  rw [List.drop_eq_getElem_cons hp]
  rfl

theorem cur_workerRun (s : scanner) : cur (workerRun s) = cur s := by
  obtain ⟨-, wi, -, wb⟩ := workerRun_consumer s
  simp [cur, bufAt, wi, wb]

/-- Calls of `next` interleaved with the goroutine, none of them past the stream: they return
the stream's bytes from `pos` on, whatever the reader's terminal result. -/
theorem run_forward {B : List Byte} {e : Err} (hB : (B.length : Int) < maxInt) :
    ∀ (ops : List Op) (s : scanner) (p : Nat), Inv B e s → s.pos = p → Op.back ∉ ops →
      p + ops.count .next ≤ B.length →
      ∃ s1, run ops s = .ok (((B.drop p).take (ops.count .next)).map (fun b => (b, none)), s1) ∧
        Inv B e s1 ∧ s1.pos = (p + ops.count .next : Nat) ∧
        (ops.count .next = 0 → cur s1 = cur s ∧ s1.ipos = s.ipos) ∧
        (1 ≤ ops.count .next →
          ∃ b, B[p + ops.count .next - 1]? = some b ∧ cur s1 = .ok b ∧ 0 < s1.ipos) := by
  intro ops
  induction ops with
  | nil =>
    intro s p hinv hp _ _
    exact ⟨s, by simp [run], hinv, by simpa using hp, fun _ => ⟨rfl, rfl⟩, fun h => by simp at h⟩
  | cons op ops ih =>
    intro s p hinv hp hback hle
    cases op with
    | back => simp at hback
    | yield =>
      have hcnt : (Op.yield :: ops).count .next = ops.count .next := by
        simp [List.count_cons]
      rw [hcnt] at hle ⊢
      obtain ⟨wp, wi, -, -⟩ := workerRun_consumer s
      obtain ⟨s1, hrun, hinv1, hp1, hc0, hc1⟩ := ih (workerRun s) p (inv_yield hB hinv)
        (by rw [wp, hp]) (by intro hc; exact hback (by simp [hc])) hle
      refine ⟨s1, by simpa [run] using hrun, hinv1, hp1, ?_, hc1⟩
      intro h0
      obtain ⟨a1, a2⟩ := hc0 h0
      exact ⟨by rw [a1, cur_workerRun], by rw [a2, wi]⟩
    | next =>
      have hcnt : (Op.next :: ops).count .next = ops.count .next + 1 := by
        simp [List.count_cons]
      rw [hcnt] at hle ⊢
      obtain ⟨b, s1, hb, hnx, hinv1, hp1, hcur1, hi1⟩ := inv_next_lt hB hinv (by omega)
      have hb' : B[p]? = some b := by
        have : s.pos.toNat = p := by omega
        rw [this] at hb
        exact hb
      obtain ⟨s2, hrun, hinv2, hp2, hc0, hc1⟩ := ih s1 (p + 1) hinv1 (by rw [hp1, hp]; simp)
        (by intro hc; exact hback (by simp [hc])) (by omega)
      refine ⟨s2, ?_, hinv2, by rw [hp2]; push_cast; ring, fun h => by omega, fun _ => ?_⟩
      · simp only [run, hnx, hrun, drop_take_succ B p _ b hb', List.map_cons]
      · by_cases h0 : ops.count .next = 0
        · obtain ⟨a1, a2⟩ := hc0 h0
          refine ⟨b, ?_, by rw [a1]; exact hcur1, by rw [a2]; exact hi1⟩
          rw [h0]
          simpa using hb'
        · obtain ⟨b2, hb2, hcur2, hi2⟩ := hc1 (by omega)
          refine ⟨b2, ?_, hcur2, hi2⟩
          have : p + (ops.count .next + 1) - 1 = p + 1 + ops.count .next - 1 := by omega
          rw [this]
          exact hb2

/-- The invariant holds in every state a fresh scanner reaches over a reader that ends the
stream with `io.EOF`, whatever the calls and the interleaving. -/
theorem inv_run {B : List Byte} (hB : (B.length : Int) < maxInt) :
    ∀ (ops : List Op) (s : scanner) (outs : List (Byte × Option Err)) (s1 : scanner),
      Inv B .eof s → run ops s = .ok (outs, s1) → Inv B .eof s1 := by
  intro ops
  induction ops with
  | nil =>
    intro s outs s1 hinv hrun
    simp [run] at hrun
    rw [← hrun.2]
    exact hinv
  | cons op ops ih =>
    intro s outs s1 hinv hrun
    cases op with
    | yield => exact ih _ _ _ (inv_yield hB hinv) (by simpa [run] using hrun)
    | back =>
      by_cases h0 : s.ipos ≤ 0
      · rw [run, (inv_back hB hinv).1 h0] at hrun
        cases hrun
      · obtain ⟨s2, hb, hinv2, -, -⟩ := (inv_back hB hinv).2 (by omega)
        rw [run, hb] at hrun
        exact ih _ _ _ hinv2 hrun
    | next =>
      have hstep : ∃ o s2, next s = .ok (o, s2) ∧ Inv B .eof s2 := by
        by_cases hlt : s.pos < B.length
        · obtain ⟨b, s2, -, hnx, hinv2, -⟩ := inv_next_lt hB hinv hlt
          exact ⟨_, s2, hnx, hinv2⟩
        · obtain ⟨o, s2, hnx, hinv2, -⟩ := inv_next_eof hB hinv (by omega)
          exact ⟨o, s2, hnx, hinv2⟩
      obtain ⟨o, s2, hnx, hinv2⟩ := hstep
      rw [run, hnx] at hrun
      cases hr : run ops s2 with
      | error f => simp [hr] at hrun
      | ok r =>
        obtain ⟨os, s3⟩ := r
        simp [hr] at hrun
        rw [← hrun.2]
        exact ih _ _ _ hinv2 hr

/-- Once all of the stream is consumed, the goroutine records end-of-input when it runs. -/
theorem inv_recorded {B : List Byte} {s : scanner} (hB : (B.length : Int) < maxInt)
    (h : Inv B .eof s) (hp : s.pos = B.length) :
    (workerRun s).end_ = B.length ∧ (workerRun s).worker = .exited := by
  obtain ⟨base, fill, i, rest, hfill, hipos, hpos, hfc, hle, hdrop, hrest, hbuf, hW, hi⟩ := h
  have hi1 : i ≤ fill := by
    rcases hi with hi | ⟨h1, -, h3⟩
    · exact hi
    · have hr := (workerInv_exited hW h3).2.1
      rw [hr] at hdrop
      simp at hdrop
      omega
  have hr : rest = [] := rest_nil_of_drop (by omega) hdrop hrest
  obtain ⟨hW1, hne, -, -, -, -⟩ := workerInv_workerRun hB hle hdrop hrest hW
  rcases hW1 with ⟨h1, -⟩ | ⟨ck, rest1, hr1, -⟩ | ⟨hw, -, -, hend1⟩ | ⟨-, h1, -⟩
  · exact absurd h1 hne
  · rw [hr] at hr1; cases hr1
  · exact ⟨hend1, hw⟩
  · exact absurd rfl h1

/-- With end-of-input recorded and the stream consumed, `next` and the goroutine change
nothing. -/
theorem run_at_end {B : List Byte} {s : scanner} (hB : (B.length : Int) < maxInt)
    (h : Inv B .eof s) (hp : (B.length : Int) ≤ s.pos) (hend : s.end_ ≠ maxInt) :
    ∀ more : List Op, Op.back ∉ more →
      run more s = .ok (List.replicate (more.count .next) (0, none), s) := by
  have hw : s.worker = .exited := by
    obtain ⟨base, fill, i, rest, -, -, -, -, -, -, -, -, hW, -⟩ := h
    rcases workerInv_end hW with h1 | ⟨h1, -⟩
    · exact absurd h1 hend
    · exact h1
  intro more
  induction more with
  | nil => intro _; rfl
  | cons op more ih =>
    intro hback
    have hb : Op.back ∉ more := by intro hc; exact hback (by simp [hc])
    cases op with
    | back => simp at hback
    | yield =>
      have hcnt : (Op.yield :: more).count .next = more.count .next := by
        simp [List.count_cons]
      rw [hcnt, run, workerRun_of_ne s (by simp [hw])]
      exact ih hb
    | next =>
      have hcnt : (Op.next :: more).count .next = more.count .next + 1 := by
        simp [List.count_cons]
      obtain ⟨o, s1, hnx, -, hsame⟩ := inv_next_eof hB h hp
      obtain ⟨ho, hs⟩ := hsame hend
      subst ho hs
      rw [hcnt, run, hnx]
      simp only [ih hb]
      rfl

/-- The invariant holds in every state a fresh scanner reaches, whatever the reader's terminal
result, as long as no call of `next` has returned an error. -/
theorem inv_run_noerr {B : List Byte} {e : Err} (hB : (B.length : Int) < maxInt) :
    ∀ (ops : List Op) (s : scanner) (outs : List (Byte × Option Err)) (s1 : scanner),
      Inv B e s → run ops s = .ok (outs, s1) → (∀ o ∈ outs, o.2 = none) → Inv B e s1 := by
  intro ops
  induction ops with
  | nil =>
    intro s outs s1 hinv hrun _
    simp [run] at hrun
    rw [← hrun.2]
    exact hinv
  | cons op ops ih =>
    intro s outs s1 hinv hrun hno
    cases op with
    | yield => exact ih _ _ _ (inv_yield hB hinv) (by simpa [run] using hrun) hno
    | back =>
      by_cases h0 : s.ipos ≤ 0
      · rw [run, (inv_back hB hinv).1 h0] at hrun
        cases hrun
      · obtain ⟨s2, hb, hinv2, -, -⟩ := (inv_back hB hinv).2 (by omega)
        rw [run, hb] at hrun
        exact ih _ _ _ hinv2 hrun hno
    | next =>
      cases hn : next s with
      | error f => simp [run, hn] at hrun
      | ok r =>
        obtain ⟨o, s2⟩ := r
        cases hr : run ops s2 with
        | error f => simp [run, hn, hr] at hrun
        | ok r2 =>
          obtain ⟨os, s3⟩ := r2
          simp [run, hn, hr] at hrun
          obtain ⟨ho, hs⟩ := hrun
          subst ho hs
          have hinv2 : Inv B e s2 := by
            by_cases hlt : s.pos < B.length
            · obtain ⟨b, s2', -, hnx, hinv2, -⟩ := inv_next_lt hB hinv hlt
              rw [hn] at hnx
              cases hnx
              exact hinv2
            · cases e with
              | eof =>
                obtain ⟨o', s2', hnx, hinv2, -⟩ := inv_next_eof hB hinv (by omega)
                rw [hn] at hnx
                cases hnx
                exact hinv2
              | other n =>
                obtain ⟨s2', hnx, -⟩ := inv_next_err hB hinv (by omega)
                rw [hn] at hnx
                cases hnx
                have := hno (0, some (Err.other n)) (by simp)
                cases this
          exact ih _ _ _ hinv2 hr (fun o ho => hno o (by simp [ho]))

/-- The goroutine is scheduled, or not, between two calls of the consumer. -/
theorem inv_yieldIf {B : List Byte} {e : Err} {s : scanner} (hB : (B.length : Int) < maxInt)
    (y : Bool) (h : Inv B e s) :
    Inv B e (yieldIf y s) ∧ (yieldIf y s).pos = s.pos ∧ (yieldIf y s).ipos = s.ipos := by
  cases y with
  | false => exact ⟨h, rfl, rfl⟩
  | true =>
    obtain ⟨wp, wi, -, -⟩ := workerRun_consumer s
    exact ⟨inv_yield hB h, wp, wi⟩

theorem stripZero_of_padded {a b : List ReadResult} (h : Padded a b) :
    stripZero b = stripZero a := by
  induction h with
  | nil => rfl
  | keep r _ ih => simp only [stripZero, List.filter_cons] at ih ⊢; rw [ih]
  | zero _ ih => simpa [stripZero] using ih

theorem scan_stripZero (rs : List ReadResult) :
    ∀ (s : scanner) (x : List ReadResult),
      scan { s with reader := x } (stripZero rs) = normReader (scan s rs) := by
  induction rs with
  | nil => intro s x; rfl
  | cons r rs ih =>
    intro s x
    by_cases hz : r.data = [] ∧ r.err = none
    · have h1 : stripZero (r :: rs) = stripZero rs := by simp [stripZero, hz]
      have h2 : scan s (r :: rs) = scan { s with reader := rs } rs := by
        obtain ⟨d, e⟩ := r
        obtain ⟨hd, he⟩ := hz
        simp only at hd he
        subst hd he
        simp [scan]
      rw [h1, h2]
      exact ih { s with reader := rs } x
    · have h1 : stripZero (r :: rs) = r :: stripZero rs := by
        unfold stripZero
        exact List.filter_cons_of_pos (by simp only [decide_eq_false hz]; rfl)
      rw [h1]
      obtain ⟨d, e⟩ := r
      simp only [scan]
      by_cases hd : d.length = 0
      · have hd' : d = [] := List.length_eq_zero.mp hd
        simp only [hd, if_true]
        cases e with
        | none => exact absurd ⟨hd', rfl⟩ hz
        | some e =>
          cases e with
          | eof => rfl
          | other n => rfl
      · simp only [hd, if_false]
        rfl

theorem workerRun_normReader (s : scanner) :
    workerRun (normReader s) = normReader (workerRun s) := by
  obtain ⟨pos, ipos, ifill, end_, buf, nbuf, rpos, w, rd⟩ := s
  cases w
  · rfl
  · exact scan_stripZero rd _ _
  · rfl
  · rfl

theorem recvFillReady_normReader (s : scanner) :
    recvFillReady (normReader s) =
      (recvFillReady s).map (fun r => (r.1, normReader r.2)) := by
  unfold recvFillReady
  simp only [workerRun_normReader]
  have hw : (normReader (workerRun s)).worker = (workerRun s).worker := rfl
  rw [hw]
  cases (workerRun s).worker <;> rfl

theorem nextReturn_normReader (s : scanner) :
    nextReturn (normReader s) = (nextReturn s).map (fun r => (r.1, normReader r.2)) := by
  unfold nextReturn
  have hb : bufAt (normReader s) (normReader s).ipos = bufAt s s.ipos := rfl
  rw [hb]
  cases bufAt s s.ipos <;> rfl

theorem sendFillReq_normReader (s : scanner) :
    sendFillReq (normReader s) = (sendFillReq s).map normReader := by
  unfold sendFillReq
  have hw : (normReader s).worker = s.worker := rfl
  rw [hw]
  cases s.worker <;> rfl

theorem refill_normReader (s : scanner) :
    refill (normReader s) = (refill s).map (fun r => (r.1, normReader r.2)) := by
  unfold refill
  rw [recvFillReady_normReader]
  cases recvFillReady s with
  | error f => rfl
  | ok r =>
    obtain ⟨fr, s2⟩ := r
    obtain ⟨fill, err⟩ := fr
    cases err with
    | some e => rfl
    | none =>
      simp only [Except.map]
      have hs3 : swapBuffers fill (normReader s2) = normReader (swapBuffers fill s2) := rfl
      have he3 : (normReader (swapBuffers fill s2)).end_ = (swapBuffers fill s2).end_ := rfl
      rw [hs3, he3]
      by_cases h3 : (swapBuffers fill s2).end_ = maxInt
      · simp only [h3, if_true]
        rw [sendFillReq_normReader]
        cases sendFillReq (swapBuffers fill s2) with
        | error f => rfl
        | ok s4 => exact nextReturn_normReader s4
      · simp only [h3, if_false]
        exact nextReturn_normReader _

theorem next_normReader (s : scanner) :
    next (normReader s) = (next s).map (fun r => (r.1, normReader r.2)) := by
  unfold next
  have hp : (normReader s).pos = s.pos := rfl
  have he : (normReader s).end_ = s.end_ := rfl
  rw [hp, he]
  by_cases h1 : s.pos ≥ s.end_
  · simp only [h1, if_true]
    rfl
  · simp only [h1, if_false]
    by_cases h2 : wrapInt64 (s.ipos + 1) > s.ifill
    · have h2' : wrapInt64 ((normReader s).ipos + 1) > (normReader s).ifill := h2
      simp only [h2, h2', if_true]
      exact refill_normReader { s with ipos := wrapInt64 (s.ipos + 1) }
    · have h2' : ¬ wrapInt64 ((normReader s).ipos + 1) > (normReader s).ifill := h2
      simp only [h2, h2', if_false]
      exact nextReturn_normReader { s with ipos := wrapInt64 (s.ipos + 1) }

theorem back_normReader (s : scanner) : back (normReader s) = (back s).map normReader := by
  unfold back
  have hi : (normReader s).ipos = s.ipos := rfl
  rw [hi]
  by_cases h : s.ipos ≤ 0
  · simp only [h, if_true]
    rfl
  · simp only [h, if_false]
    rfl

theorem run_normReader (ops : List Op) :
    ∀ s : scanner, run ops (normReader s) = (run ops s).map (fun r => (r.1, normReader r.2)) := by
  induction ops with
  | nil => intro s; rfl
  | cons op ops ih =>
    intro s
    cases op with
    | yield =>
      simp only [run]
      rw [workerRun_normReader]
      exact ih _
    | back =>
      simp only [run]
      rw [back_normReader]
      cases back s with
      | error f => rfl
      | ok s1 => exact ih s1
    | next =>
      simp only [run]
      rw [next_normReader]
      cases next s with
      | error f => rfl
      | ok r =>
        obtain ⟨o, s1⟩ := r
        simp only [Except.map]
        rw [ih s1]
        cases run ops s1 with
        | error f => rfl
        | ok r2 => rfl

theorem observe_run_stripZero (ops : List Op) (rs : List ReadResult) :
    (run ops (newScanner (stripZero rs))).map observe = (run ops (newScanner rs)).map observe := by
  have h : newScanner (stripZero rs) = normReader (newScanner rs) := rfl
  rw [h, run_normReader]
  cases run ops (newScanner rs) with
  | error f => rfl
  | ok r => rfl

/-- C1: over a reader that gives the stream `B = cs.flatten` in reads of 1 to 4095 bytes and
then `(0, io.EOF)`, in every interleaving with the fill goroutine and without `back`, the first
`k ≤ len(B)` calls of `next` on a fresh scanner return `(B[0], nil) .. (B[k-1], nil)`, and after
the `k`-th call `pos = k` and `cur() = B[k-1]`. -/
theorem c1_next_returns_stream_in_order (cs : List (List Byte)) (ops : List Op) (k : Nat)
    (hcs : ChunksOk cs) (hlen : (cs.flatten.length : Int) < maxInt) (hback : Op.back ∉ ops)
    (hk : ops.count .next = k) (h1 : 1 ≤ k) (hkN : k ≤ cs.flatten.length) :
    ∃ s b, run ops (newScanner (chunkReader cs .eof)) =
        .ok ((cs.flatten.take k).map (fun x => (x, none)), s) ∧
      cs.flatten[k - 1]? = some b ∧ s.pos = k ∧ cur s = .ok b := by
  subst hk
  obtain ⟨s, hrun, -, hp, -, hc1⟩ := run_forward hlen ops _ 0 (inv_newScanner cs .eof hcs) rfl
    hback (by omega)
  obtain ⟨b, hb, hcur, -⟩ := hc1 h1
  refine ⟨s, b, by simpa using hrun, by simpa using hb, by simpa using hp, hcur⟩

theorem c1_witness :
    ChunksOk [[1, 2], [3]] ∧ (([[1, 2], [3]] : List (List Byte)).flatten.length : Int) < maxInt ∧
    Op.back ∉ [Op.next, Op.yield, Op.next, Op.next] ∧
    ∃ s b, run [Op.next, Op.yield, Op.next, Op.next] (newScanner (chunkReader [[1, 2], [3]] .eof)) =
        .ok ((([[1, 2], [3]] : List (List Byte)).flatten.take 3).map (fun x => (x, none)), s) ∧
      ([[1, 2], [3]] : List (List Byte)).flatten[3 - 1]? = some b ∧ s.pos = (3 : Nat) ∧
      cur s = .ok b :=
  ⟨by unfold ChunksOk; decide, by decide, by decide,
    c1_next_returns_stream_in_order [[1, 2], [3]] [Op.next, Op.yield, Op.next, Op.next] 3
      (by unfold ChunksOk; decide) (by decide) (by decide) (by decide) (by decide) (by decide)⟩

/-- C2: for a stream of `N` bytes (also `N = 0`), once `next` has returned all `N` bytes the
goroutine records end-of-input as soon as it runs (`end = N`); from then on, and in any state
after these `N` calls in which end-of-input is already recorded, every further call of `next`
returns `(0, nil)` and leaves the whole scanner state, `pos = N`, `ipos` and the buffers
included, as it was. -/
theorem c2_next_at_end_returns_zero (cs : List (List Byte)) (ops more : List Op)
    (hcs : ChunksOk cs) (hlen : (cs.flatten.length : Int) < maxInt) (hback : Op.back ∉ ops)
    (hk : ops.count .next = cs.flatten.length) (hmore : Op.back ∉ more) :
    ∃ s, run ops (newScanner (chunkReader cs .eof)) =
        .ok (cs.flatten.map (fun x => (x, none)), s) ∧
      s.pos = cs.flatten.length ∧ (workerRun s).end_ = cs.flatten.length ∧
      (workerRun s).pos = cs.flatten.length ∧
      run more (workerRun s) =
        .ok (List.replicate (more.count .next) (0, none), workerRun s) ∧
      (s.end_ ≠ maxInt →
        run more s = .ok (List.replicate (more.count .next) (0, none), s)) := by
  obtain ⟨s, hrun, hinv, hp, -, -⟩ := run_forward hlen ops _ 0 (inv_newScanner cs .eof hcs) rfl
    hback (by omega)
  rw [hk] at hrun hp
  rw [List.drop_zero, List.take_length] at hrun
  have hp' : s.pos = cs.flatten.length := by simpa using hp
  have hrec := inv_recorded hlen hinv hp'
  have hwp := (workerRun_consumer s).1
  have hne : (workerRun s).end_ ≠ maxInt := by
    rw [hrec.1]
    exact ne_of_lt hlen
  refine ⟨s, hrun, hp', hrec.1, by rw [hwp, hp'], ?_, ?_⟩
  · exact run_at_end hlen (inv_yield hlen hinv) (by rw [hwp, hp']) hne more hmore
  · exact fun hend => run_at_end hlen hinv (by rw [hp']) hend more hmore

theorem c2_witness :
    ChunksOk [[1, 2]] ∧ (([[1, 2]] : List (List Byte)).flatten.length : Int) < maxInt ∧
    ∃ s, run [Op.next, Op.next] (newScanner (chunkReader [[1, 2]] .eof)) =
        .ok (([[1, 2]] : List (List Byte)).flatten.map (fun x => (x, none)), s) ∧
      s.pos = ([[1, 2]] : List (List Byte)).flatten.length ∧
      (workerRun s).end_ = ([[1, 2]] : List (List Byte)).flatten.length ∧
      (workerRun s).pos = ([[1, 2]] : List (List Byte)).flatten.length ∧
      run [Op.next, Op.yield, Op.next] (workerRun s) =
        .ok (List.replicate ([Op.next, Op.yield, Op.next].count .next) (0, none),
          workerRun s) ∧
      (s.end_ ≠ maxInt →
        run [Op.next, Op.yield, Op.next] s =
          .ok (List.replicate ([Op.next, Op.yield, Op.next].count .next) (0, none), s)) :=
  ⟨by unfold ChunksOk; decide, by decide,
    c2_next_at_end_returns_zero [[1, 2]] [Op.next, Op.next]
      [Op.next, Op.yield, Op.next] (by unfold ChunksOk; decide) (by decide) (by decide)
      (by decide) (by decide)⟩

/-- C3, counterexample: the stream is the one byte `7` and end-of-input is recorded after the
first `next` (`pos = 1`).  The next `next` returns `(0, nil)` without advancing, `back` then
leaves `pos = 0`, not `1`, and the `next` after it returns `(7, nil)`, not `(0, nil)`. -/
theorem c3_counterexample :
    (run [Op.next, Op.yield] (newScanner (chunkReader [[7]] .eof))).toOption.map
        (fun r => (r.1, r.2.pos, r.2.end_)) = some ([(7, none)], 1, 1) ∧
    (run [Op.next, Op.yield, Op.next, Op.back] (newScanner (chunkReader [[7]] .eof))).toOption.map
        (fun r => (r.1, r.2.pos)) = some ([(7, none), (0, none)], 0) ∧
    (run [Op.next, Op.yield, Op.next, Op.back, Op.next]
        (newScanner (chunkReader [[7]] .eof))).toOption.map
        (fun r => (r.1, r.2.pos)) = some ([(7, none), (0, none), (7, none)], 1) := by
  decide

/-- C3, amended: over a reader that gives a stream of `N` bytes in reads of 1 to 4095 bytes and
then a terminal `(0, e)`, in every state reached from a fresh scanner in which no `next` has
returned an error and `pos < N`, `next` returns the stream byte at `pos`, a `back` after it
returns and leaves `pos` as it was before that `next`, and the `next` that follows returns the
same byte with a nil error, whether or not the goroutine runs in between. -/
theorem c3_back_undoes_next_of_stream_byte (cs : List (List Byte)) (e : Err) (ops : List Op)
    (outs : List (Byte × Option Err)) (s : scanner) (y1 y2 : Bool)
    (hcs : ChunksOk cs) (hlen : (cs.flatten.length : Int) < maxInt)
    (hrun : run ops (newScanner (chunkReader cs e)) = .ok (outs, s))
    (hno : ∀ o ∈ outs, o.2 = none) (hlt : s.pos < cs.flatten.length) :
    ∃ b s1 s2 s3, cs.flatten[s.pos.toNat]? = some b ∧ next s = .ok ((b, none), s1) ∧
      back (yieldIf y1 s1) = .ok s2 ∧ s2.pos = s.pos ∧
      next (yieldIf y2 s2) = .ok ((b, none), s3) := by
  have hinv := inv_run_noerr hlen ops _ outs s (inv_newScanner cs e hcs) hrun hno
  obtain ⟨b, s1, hb, hnx, hinv1, hp1, -, hi1⟩ := inv_next_lt hlen hinv hlt
  obtain ⟨hinv1y, hp1y, hi1y⟩ := inv_yieldIf hlen y1 hinv1
  obtain ⟨s2, hbk, hinv2, hp2, -⟩ := (inv_back hlen hinv1y).2 (by rw [hi1y]; exact hi1)
  have hp2' : s2.pos = s.pos := by rw [hp2, hp1y, hp1]; ring
  obtain ⟨hinv2y, hp2y, -⟩ := inv_yieldIf hlen y2 hinv2
  obtain ⟨b2, s3, hb2, hnx2, -⟩ := inv_next_lt hlen hinv2y (by rw [hp2y, hp2']; exact hlt)
  rw [hp2y, hp2', hb] at hb2
  cases hb2
  exact ⟨b, s1, s2, s3, hb, hnx, hbk, hp2', hnx2⟩

theorem c3_witness :
    ChunksOk [[7, 8], [9]] ∧
    (stateAfter [Op.next, Op.next] (chunkReader [[7, 8], [9]] .eof)).pos <
      (([[7, 8], [9]] : List (List Byte)).flatten.length : Int) ∧
    ∃ b s1 s2 s3,
      ([[7, 8], [9]] : List (List Byte)).flatten[
        (stateAfter [Op.next, Op.next] (chunkReader [[7, 8], [9]] .eof)).pos.toNat]? = some b ∧
      next (stateAfter [Op.next, Op.next] (chunkReader [[7, 8], [9]] .eof)) =
        .ok ((b, none), s1) ∧
      back (yieldIf true s1) = .ok s2 ∧
      s2.pos = (stateAfter [Op.next, Op.next] (chunkReader [[7, 8], [9]] .eof)).pos ∧
      next (yieldIf false s2) = .ok ((b, none), s3) :=
  ⟨by unfold ChunksOk; decide, by decide,
    c3_back_undoes_next_of_stream_byte [[7, 8], [9]] .eof [Op.next, Op.next]
      (resultsAfter [Op.next, Op.next] (chunkReader [[7, 8], [9]] .eof))
      (stateAfter [Op.next, Op.next] (chunkReader [[7, 8], [9]] .eof)) true false
      (by unfold ChunksOk; decide) (by decide) rfl (by decide) (by decide)⟩

/-- C4, counterexample: after two calls of `next` on the stream `1, 2` (`pos = ipos = 2`), a
`back` leaves `pos = ipos = 1`, and the `back` right after it does not panic: it returns and
leaves `pos = ipos = 0`. -/
theorem c4_counterexample :
    (run [Op.next, Op.next, Op.back] (newScanner (chunkReader [[1, 2]] .eof))).toOption.map
        (fun r => (r.2.pos, r.2.ipos)) = some (1, 1) ∧
    (run [Op.next, Op.next, Op.back, Op.back] (newScanner (chunkReader [[1, 2]] .eof))).toOption.map
        (fun r => (r.2.pos, r.2.ipos)) = some (0, 0) := by
  decide

/-- C4, amended: `back` panics exactly when `ipos ≤ 0`.  In every state reached from a fresh
scanner (reader and calls as in C3, no error returned yet), `back` panics if `ipos ≤ 0`; if
`0 < ipos` it returns, and a `back` right after it panics if `ipos` was 1 and otherwise returns
as well, with `pos` and `ipos` two less than before the pair. -/
theorem c4_back_panics_iff_ipos_zero (cs : List (List Byte)) (e : Err) (ops : List Op)
    (outs : List (Byte × Option Err)) (s : scanner)
    (hcs : ChunksOk cs) (hlen : (cs.flatten.length : Int) < maxInt)
    (hrun : run ops (newScanner (chunkReader cs e)) = .ok (outs, s))
    (hno : ∀ o ∈ outs, o.2 = none) :
    (s.ipos ≤ 0 → back s = .error .panic) ∧
    (0 < s.ipos → ∃ s1, back s = .ok s1 ∧ s1.pos = s.pos - 1 ∧ s1.ipos = s.ipos - 1 ∧
      (s.ipos = 1 → back s1 = .error .panic) ∧
      (1 < s.ipos → ∃ s2, back s1 = .ok s2 ∧ s2.pos = s.pos - 2 ∧ s2.ipos = s.ipos - 2)) := by
  have hinv := inv_run_noerr hlen ops _ outs s (inv_newScanner cs e hcs) hrun hno
  refine ⟨(inv_back hlen hinv).1, fun h0 => ?_⟩
  obtain ⟨s1, hbk, hinv1, hp1, hi1⟩ := (inv_back hlen hinv).2 h0
  refine ⟨s1, hbk, hp1, hi1, fun h1 => (inv_back hlen hinv1).1 (by omega), fun h1 => ?_⟩
  obtain ⟨s2, hbk2, -, hp2, hi2⟩ := (inv_back hlen hinv1).2 (by omega)
  exact ⟨s2, hbk2, by omega, by omega⟩

theorem c4_witness :
    ChunksOk [[1, 2]] ∧
    0 < (stateAfter [Op.next, Op.next, Op.back] (chunkReader [[1, 2]] .eof)).ipos ∧
    ∃ s1, back (stateAfter [Op.next, Op.next, Op.back] (chunkReader [[1, 2]] .eof)) = .ok s1 ∧
      s1.pos = (stateAfter [Op.next, Op.next, Op.back] (chunkReader [[1, 2]] .eof)).pos - 1 ∧
      s1.ipos = (stateAfter [Op.next, Op.next, Op.back] (chunkReader [[1, 2]] .eof)).ipos - 1 ∧
      ((stateAfter [Op.next, Op.next, Op.back] (chunkReader [[1, 2]] .eof)).ipos = 1 →
        back s1 = .error .panic) ∧
      (1 < (stateAfter [Op.next, Op.next, Op.back] (chunkReader [[1, 2]] .eof)).ipos →
        ∃ s2, back s1 = .ok s2 ∧
          s2.pos = (stateAfter [Op.next, Op.next, Op.back] (chunkReader [[1, 2]] .eof)).pos - 2 ∧
          s2.ipos =
            (stateAfter [Op.next, Op.next, Op.back] (chunkReader [[1, 2]] .eof)).ipos - 2) :=
  ⟨by unfold ChunksOk; decide, by decide,
    (c4_back_panics_iff_ipos_zero [[1, 2]] .eof [Op.next, Op.next, Op.back]
      (resultsAfter [Op.next, Op.next, Op.back] (chunkReader [[1, 2]] .eof))
      (stateAfter [Op.next, Op.next, Op.back] (chunkReader [[1, 2]] .eof))
      (by unfold ChunksOk; decide) (by decide) rfl (by decide)).2 (by decide)⟩

/-- The value of `remaining()`: for a stream of `N` bytes, in every state reached from a fresh
scanner, it is `maxInt` while end-of-input is not recorded (`end = maxInt`), and once it is
recorded `end = N` and it is `N - pos`.  That is the number of bytes not yet returned as long as
`pos` has not passed `N`. -/
theorem remaining_eq_end_sub_pos (cs : List (List Byte)) (ops : List Op)
    (outs : List (Byte × Option Err)) (s : scanner)
    (hcs : ChunksOk cs) (hlen : (cs.flatten.length : Int) < maxInt)
    (hrun : run ops (newScanner (chunkReader cs .eof)) = .ok (outs, s)) :
    (s.end_ = maxInt → remaining s = maxInt) ∧
    (s.end_ ≠ maxInt → s.end_ = cs.flatten.length ∧ remaining s = cs.flatten.length - s.pos) := by
  have hinv := inv_run hlen ops _ outs s (inv_newScanner cs .eof hcs) hrun
  constructor
  · intro h
    simp [remaining, h]
  · intro h
    obtain ⟨base, fill, i, rest, hfill, hipos, hpos, hfc, hle, hdrop, hrest, hbuf, hW, hi⟩ := hinv
    have hmax := maxInt_eq
    have hend : s.end_ = cs.flatten.length := by
      rcases workerInv_end hW with h1 | ⟨-, -, -, h1⟩
      · exact absurd h1 h
      · exact h1
    refine ⟨hend, ?_⟩
    have hi2 : i ≤ fill + 1 := by
      rcases hi with hi | ⟨h1, h2, -⟩ <;> omega
    have e1 : wrapInt64 (s.end_ - s.pos) = s.end_ - s.pos :=
      wrapInt64_eq _ (by omega) (by omega)
    unfold remaining
    rw [if_neg h, e1, hend]

theorem remaining_eq_end_sub_pos_example :
    ChunksOk [[1, 2]] ∧
    (stateAfter [Op.next, Op.yield, Op.back] (chunkReader [[1, 2]] .eof)).end_ ≠ maxInt ∧
    ((stateAfter [Op.next, Op.yield, Op.back] (chunkReader [[1, 2]] .eof)).end_ = maxInt →
      remaining (stateAfter [Op.next, Op.yield, Op.back] (chunkReader [[1, 2]] .eof)) =
        maxInt) ∧
    ((stateAfter [Op.next, Op.yield, Op.back] (chunkReader [[1, 2]] .eof)).end_ ≠ maxInt →
      (stateAfter [Op.next, Op.yield, Op.back] (chunkReader [[1, 2]] .eof)).end_ =
        ([[1, 2]] : List (List Byte)).flatten.length ∧
      remaining (stateAfter [Op.next, Op.yield, Op.back] (chunkReader [[1, 2]] .eof)) =
        ([[1, 2]] : List (List Byte)).flatten.length -
          (stateAfter [Op.next, Op.yield, Op.back] (chunkReader [[1, 2]] .eof)).pos) :=
  ⟨by unfold ChunksOk; decide, by decide,
    remaining_eq_end_sub_pos [[1, 2]] [Op.next, Op.yield, Op.back]
      (resultsAfter [Op.next, Op.yield, Op.back] (chunkReader [[1, 2]] .eof))
      (stateAfter [Op.next, Op.yield, Op.back] (chunkReader [[1, 2]] .eof))
      (by unfold ChunksOk; decide) (by decide) rfl⟩

/-- C5, failing input: the stream is the two bytes 7 and 8, given in one read, and the consumer
calls `next` three times before the goroutine has run again.  The first two calls return the two
bytes; the third receives the zero value from the closed channel `fillReady`, returns a stale
byte and leaves `pos = 3` with `end = 2` recorded.  `remaining()` is then `-1`, while the number
of bytes of the stream that `next` has not returned is 0.  When the goroutine runs before the
third call, that call returns `(0, nil)` and `remaining()` is 0. -/
theorem c5_remaining_negative_after_race :
    (run [Op.next, Op.next, Op.next] (newScanner (chunkReader [[7, 8]] .eof))).toOption.map
        (fun r => (r.1, r.2.pos, r.2.end_, remaining r.2)) =
      some ([(7, none), (8, none), (7, none)], 3, 2, -1) ∧
    (run [Op.next, Op.next, Op.yield, Op.next]
        (newScanner (chunkReader [[7, 8]] .eof))).toOption.map
        (fun r => (r.1, r.2.pos, r.2.end_, remaining r.2)) =
      some ([(7, none), (8, none), (0, none)], 2, 2, 0) := by
  decide

/-- C6: when the reader gives the bytes `B` in reads of 1 to 4095 bytes and then `(0, e)` with
`e` neither nil nor `io.EOF`, the first `len(B)` calls of `next` return the bytes of `B` in
order with nil error, and the call after them returns `(0, e)` and leaves `pos = len(B)`. -/
theorem c6_error_after_delivered_bytes (cs : List (List Byte)) (n : Nat) (ops : List Op)
    (hcs : ChunksOk cs) (hlen : (cs.flatten.length : Int) < maxInt) (hback : Op.back ∉ ops)
    (hk : ops.count .next = cs.flatten.length) :
    ∃ s s1, run ops (newScanner (chunkReader cs (.other n))) =
        .ok (cs.flatten.map (fun x => (x, none)), s) ∧
      s.pos = cs.flatten.length ∧
      next s = .ok ((0, some (.other n)), s1) ∧ s1.pos = s.pos := by
  obtain ⟨s, hrun, hinv, hp, -, -⟩ := run_forward hlen ops _ 0
    (inv_newScanner cs (.other n) hcs) rfl hback (by omega)
  rw [hk] at hrun hp
  rw [List.drop_zero, List.take_length] at hrun
  obtain ⟨s1, hnx, hp1⟩ := inv_next_err hlen hinv (by rw [hp]; simp)
  exact ⟨s, s1, hrun, by simpa using hp, hnx, hp1⟩

theorem c6_witness :
    ChunksOk [[1, 2], [3]] ∧ (([[1, 2], [3]] : List (List Byte)).flatten.length : Int) < maxInt ∧
    ∃ s s1, run [Op.next, Op.next, Op.yield, Op.next]
          (newScanner (chunkReader [[1, 2], [3]] (.other 5))) =
        .ok (([[1, 2], [3]] : List (List Byte)).flatten.map (fun x => (x, none)), s) ∧
      s.pos = ([[1, 2], [3]] : List (List Byte)).flatten.length ∧
      next s = .ok ((0, some (.other 5)), s1) ∧ s1.pos = s.pos :=
  ⟨by unfold ChunksOk; decide, by decide,
    c6_error_after_delivered_bytes [[1, 2], [3]] 5 [Op.next, Op.next, Op.yield, Op.next]
      (by unfold ChunksOk; decide) (by decide) (by decide) (by decide)⟩

/-- C7: results `(0, nil)` of the reader are transparent.  When the result sequence `rs1` is
`rs` with any number of `(0, nil)` results inserted anywhere, every interleaving of `next`, `back`
and the goroutine gives over `rs1` what it gives over `rs`: the same `(byte, error)` results of
`next` (or the same panic or blocking), and the same `pos`, `remaining()` and `cur()`. -/
theorem c7_zero_reads_are_transparent (rs rs1 : List ReadResult) (ops : List Op)
    (h : Padded rs rs1) :
    (run ops (newScanner rs1)).map observe = (run ops (newScanner rs)).map observe := by
  rw [← observe_run_stripZero ops rs1, ← observe_run_stripZero ops rs, stripZero_of_padded h]

theorem c7_witness :
    (run [Op.next, Op.next, Op.back, Op.next, Op.next]
        (newScanner [⟨[], none⟩, ⟨[5], none⟩, ⟨[], none⟩, ⟨[], none⟩, ⟨[], some .eof⟩])).map
        observe =
      (run [Op.next, Op.next, Op.back, Op.next, Op.next]
        (newScanner [⟨[5], none⟩, ⟨[], some .eof⟩])).map observe :=
  c7_zero_reads_are_transparent [⟨[5], none⟩, ⟨[], some .eof⟩]
    [⟨[], none⟩, ⟨[5], none⟩, ⟨[], none⟩, ⟨[], none⟩, ⟨[], some .eof⟩]
    [Op.next, Op.next, Op.back, Op.next, Op.next]
    (.zero (.keep _ (.zero (.zero (.keep _ .nil)))))

/-! ## The decode engine recognises well-formed text -/

theorem skipSpaces_ws (w rest : List Byte) (hw : IsWs w) :
    skipSpaces (w ++ rest) = skipSpaces rest := by
  induction w with
  | nil => rfl
  | cons b w ih =>
    have hb : isSpace b = true := hw b (by simp)
    simp only [List.cons_append, skipSpaces, hb, if_true]
    exact ih (fun x hx => hw x (by simp [hx]))

theorem skipSpaces_cons (b : Byte) (rest : List Byte) (hb : isSpace b = false) :
    skipSpaces (b :: rest) = b :: rest := by
  simp [skipSpaces, hb]

theorem takeDigits_append (ds rest : List Byte) (hds : ∀ x ∈ ds, isDigit x = true)
    (hr : ∀ b ∈ rest.head?, isDigit b = false) : takeDigits (ds ++ rest) = (ds, rest) := by
  induction ds with
  | nil =>
    cases rest with
    | nil => rfl
    | cons b r =>
      have hb : isDigit b = false := hr b (by simp)
      simp [takeDigits, hb]
  | cons d ds ih =>
    have hd : isDigit d = true := hds d (by simp)
    have := ih (fun x hx => hds x (by simp [hx]))
    simp [takeDigits, hd, this]

theorem lexInt_ok (i rest : List Byte) (hi : IntPart i)
    (hr : ∀ b ∈ rest.head?, isDigit b = false) : lexInt (i ++ rest) = .ok (i, rest) := by
  cases hi with
  | zero =>
    cases rest with
    | nil => rfl
    | cons b r =>
      have hb : isDigit b = false := hr b (by simp)
      simp [lexInt, hb]
  | nonzero b ds hb hb0 hds =>
    simp [lexInt, hb, hb0, takeDigits_append ds rest hds hr]

theorem lexFrac_ok (f rest : List Byte) (hf : FracPart f)
    (hr : ∀ b ∈ rest.head?, isDigit b = false) (hdot : f = [] → ∀ b ∈ rest.head?, b ≠ 46) :
    lexFrac (f ++ rest) = .ok (f, rest) := by
  cases hf with
  | none =>
    cases rest with
    | nil => rfl
    | cons b r =>
      have hb : b ≠ 46 := hdot rfl b (by simp)
      simp [lexFrac, hb]
  | some ds hne hds =>
    cases ds with
    | nil => exact absurd rfl hne
    | cons x xs =>
      have h := takeDigits_append (x :: xs) rest hds hr
      simp only [List.cons_append] at h
      simp [lexFrac, h]

theorem lexExpDigits_ok (mark ds rest : List Byte) (hne : ds ≠ [])
    (hds : ∀ x ∈ ds, isDigit x = true) (hr : ∀ b ∈ rest.head?, isDigit b = false) :
    lexExpDigits mark (ds ++ rest) = .ok (mark ++ ds, rest) := by
  cases ds with
  | nil => exact absurd rfl hne
  | cons x xs =>
    have h := takeDigits_append (x :: xs) rest hds hr
    simp only [List.cons_append] at h
    simp [lexExpDigits, h]

set_option maxRecDepth 20000 in
theorem isDigit_ne (x : Byte) (hx : isDigit x = true) : x ≠ 43 ∧ x ≠ 45 ∧ x ≠ 46 ∧ x ≠ 101 ∧
    x ≠ 69 ∧ x ≠ 34 ∧ x ≠ 91 ∧ x ≠ 123 ∧ x ≠ 93 ∧ x ≠ 125 ∧ isSpace x = false := by
  revert x
  decide

theorem lexExp_ok (e rest : List Byte) (he : ExpPart e)
    (hr : ∀ b ∈ rest.head?, isDigit b = false)
    (hmark : e = [] → ∀ b ∈ rest.head?, b ≠ 101 ∧ b ≠ 69) :
    lexExp (e ++ rest) = .ok (e, rest) := by
  cases he with
  | none =>
    cases rest with
    | nil => rfl
    | cons b r =>
      have hb := hmark rfl b (by simp)
      simp [lexExp, hb.1, hb.2]
  | some m sg ds hm hsg hne hds =>
    have h1 : (m = 101 ∨ m = 69) = True := by simp [hm]
    rcases hsg with hsg | hsg | hsg
    · subst hsg
      cases ds with
      | nil => exact absurd rfl hne
      | cons x xs =>
        have hx := isDigit_ne x (hds x (by simp))
        have := lexExpDigits_ok [m] (x :: xs) rest hne hds hr
        simp only [List.cons_append] at this
        simp [lexExp, h1, hx.1, hx.2.1, this]
    · subst hsg
      have := lexExpDigits_ok [m, 43] ds rest hne hds hr
      simp [lexExp, h1, this]
    · subst hsg
      have := lexExpDigits_ok [m, 45] ds rest hne hds hr
      simp [lexExp, h1, this]

set_option maxRecDepth 20000 in
theorem delim_byte (b : Byte) (h : isSpace b = true ∨ b = 44 ∨ b = 93 ∨ b = 125) :
    isDigit b = false ∧ b ≠ 46 ∧ b ≠ 101 ∧ b ≠ 69 ∧ b ≠ 34 ∧ b ≠ 92 := by
  revert b
  decide

theorem numEnd_of_delim (rest : List Byte) (h : Delim rest) : NumEnd rest := by
  intro b hb
  have h1 := delim_byte b (h b hb)
  exact ⟨h1.1, h1.2.1, h1.2.2.1, h1.2.2.2.1⟩

theorem intPart_head (i : List Byte) (hi : IntPart i) :
    ∃ b t, i = b :: t ∧ isDigit b = true := by
  cases hi with
  | zero => exact ⟨48, [], rfl, by decide⟩
  | nonzero b ds hb _ _ => exact ⟨b, ds, rfl, hb⟩

theorem lexNumber_ok (t rest : List Byte) (ht : NumberLit t) (hr : NumEnd rest) :
    lexNumber (t ++ rest) = .ok (t, rest) := by
  cases ht with
  | mk sg i f e hsg hi hf he =>
    have hr1 : ∀ b ∈ rest.head?, isDigit b = false := fun b hb => (hr b hb).1
    -- the exponent
    have hE : lexExp (e ++ rest) = .ok (e, rest) :=
      lexExp_ok e rest he hr1 (fun _ b hb => ⟨(hr b hb).2.2.1, (hr b hb).2.2.2⟩)
    -- the head of the exponent and what follows is no digit and no point
    have hE1 : ∀ b ∈ (e ++ rest).head?, isDigit b = false ∧ b ≠ 46 := by
      cases he with
      | none => exact fun b hb => ⟨(hr b hb).1, (hr b hb).2.1⟩
      | some m sg1 ds hm _ _ _ =>
        intro b hb
        simp at hb
        subst hb
        rcases hm with hm | hm <;> subst hm <;> decide
    have hF : lexFrac (f ++ (e ++ rest)) = .ok (f, e ++ rest) :=
      lexFrac_ok f _ hf (fun b hb => (hE1 b hb).1) (fun _ b hb => (hE1 b hb).2)
    have hF1 : ∀ b ∈ (f ++ (e ++ rest)).head?, isDigit b = false := by
      cases hf with
      | none => exact fun b hb => (hE1 b hb).1
      | some ds _ _ =>
        intro b hb
        simp at hb
        subst hb
        decide
    have hI : lexInt (i ++ (f ++ (e ++ rest))) = .ok (i, f ++ (e ++ rest)) :=
      lexInt_ok i _ hi hF1
    obtain ⟨b, i1, hib, hbd⟩ := intPart_head i hi
    have hb45 : b ≠ 45 := (isDigit_ne b hbd).2.1
    rcases hsg with hsg | hsg
    · subst hsg
      have hinp : [] ++ i ++ f ++ e ++ rest = b :: (i1 ++ (f ++ (e ++ rest))) := by
        simp [hib]
      have hI' : lexInt (b :: (i1 ++ (f ++ (e ++ rest)))) = .ok (i, f ++ (e ++ rest)) := by
        rw [← hI, hib]; rfl
      rw [hinp]
      simp only [lexNumber, hb45, if_false, hI', hF, hE]
    · subst hsg
      have hinp : [45] ++ i ++ f ++ e ++ rest = 45 :: (i ++ (f ++ (e ++ rest))) := by simp
      rw [hinp]
      simp only [lexNumber, if_true, hI, hF, hE]

theorem hex4_append (h1 h2 h3 h4 : Byte) (u : Nat) (rest : List Byte)
    (h : hex4 [h1, h2, h3, h4] = some (u, [])) :
    hex4 (h1 :: h2 :: h3 :: h4 :: rest) = some (u, rest) := by
  cases e1 : hexVal h1 <;> cases e2 : hexVal h2 <;> cases e3 : hexVal h3 <;>
    cases e4 : hexVal h4 <;> simp_all [hex4]

theorem lexUnicode_single (h1 h2 h3 h4 : Byte) (u : Nat) (rest : List Byte)
    (h : hex4 [h1, h2, h3, h4] = some (u, [])) (hhi : isHighSurrogate u = false)
    (hlo : isLowSurrogate u = false) :
    lexUnicode (h1 :: h2 :: h3 :: h4 :: rest) = .ok (u, rest) := by
  simp [lexUnicode, hex4_append h1 h2 h3 h4 u rest h, hhi, hlo]

theorem lexUnicode_pair (h1 h2 h3 h4 l1 l2 l3 l4 : Byte) (hi lo : Nat) (rest : List Byte)
    (h : hex4 [h1, h2, h3, h4] = some (hi, [])) (hhi : isHighSurrogate hi = true)
    (l : hex4 [l1, l2, l3, l4] = some (lo, [])) (hlo : isLowSurrogate lo = true) :
    lexUnicode (h1 :: h2 :: h3 :: h4 :: 92 :: 117 :: l1 :: l2 :: l3 :: l4 :: rest) =
      .ok (surrogatePair hi lo, rest) := by
  simp [lexUnicode, hex4_append h1 h2 h3 h4 hi _ h, hhi, hex4_append l1 l2 l3 l4 lo rest l, hlo]

theorem lexStringFuel_ok (body s : List Byte) (h : StrBody body s) :
    ∀ (fuel : Nat) (rest : List Byte), body.length + 1 ≤ fuel →
      lexStringFuel fuel (body ++ 34 :: rest) = .ok (s, rest) := by
  induction h with
  | nil =>
    intro fuel rest hf
    obtain ⟨f, rfl⟩ : ∃ f, fuel = f + 1 := ⟨fuel - 1, by omega⟩
    simp [lexStringFuel]
  | plain b body s hb1 hb2 _ ih =>
    intro fuel rest hf
    obtain ⟨f, rfl⟩ : ∃ f, fuel = f + 1 := ⟨fuel - 1, by omega⟩
    simp only [List.length_cons] at hf
    simp [lexStringFuel, hb1, hb2, ih f rest (by omega)]
  | escape c x body s hc _ ih =>
    intro fuel rest hf
    obtain ⟨f, rfl⟩ : ∃ f, fuel = f + 1 := ⟨fuel - 1, by omega⟩
    simp only [List.length_cons] at hf
    have hc1 : c ≠ 117 := by
      intro h
      subst h
      simp [simpleEscape] at hc
    simp [lexStringFuel, hc1, hc, ih f rest (by omega)]
  | unicode h1 h2 h3 h4 u body s h hhi hlo _ ih =>
    intro fuel rest hf
    obtain ⟨f, rfl⟩ : ∃ f, fuel = f + 1 := ⟨fuel - 1, by omega⟩
    simp only [List.length_cons] at hf
    have hu := lexUnicode_single h1 h2 h3 h4 u (body ++ 34 :: rest) h hhi hlo
    simp [lexStringFuel, hu, ih f rest (by omega)]
  | pair h1 h2 h3 h4 l1 l2 l3 l4 hi lo body s h hhi l hlo _ ih =>
    intro fuel rest hf
    obtain ⟨f, rfl⟩ : ∃ f, fuel = f + 1 := ⟨fuel - 1, by omega⟩
    simp only [List.length_cons] at hf
    have hu := lexUnicode_pair h1 h2 h3 h4 l1 l2 l3 l4 hi lo (body ++ 34 :: rest) h hhi l hlo
    simp [lexStringFuel, hu, ih f rest (by omega)]

theorem lexString_ok (body s rest : List Byte) (h : StrBody body s) :
    lexString (body ++ 34 :: rest) = .ok (s, rest) :=
  lexStringFuel_ok body s h _ rest (by simp)

theorem numberLit_head (t : List Byte) (h : NumberLit t) :
    ∃ b t1, t = b :: t1 ∧ (b = 45 ∨ isDigit b = true) := by
  cases h with
  | mk sg i f e hsg hi _ _ =>
    obtain ⟨b, i1, hib, hbd⟩ := intPart_head i hi
    rcases hsg with hsg | hsg
    · subst hsg
      exact ⟨b, i1 ++ f ++ e, by simp [hib], Or.inr hbd⟩
    · subst hsg
      exact ⟨45, i ++ f ++ e, by simp, Or.inl rfl⟩

set_option maxRecDepth 20000 in
theorem numberStart_byte (b : Byte) (h : b = 45 ∨ isDigit b = true) :
    isSpace b = false ∧ b ≠ 93 ∧ b ≠ 125 ∧ b ≠ 91 ∧ b ≠ 123 ∧ b ≠ 34 := by
  revert b
  decide

/-- A well-formed value starts with a byte that is no whitespace and closes nothing. -/
theorem wf_val_head (t : List Byte) (v : JValue) (h : Wf t (.val v)) :
    ∃ b t1, t = b :: t1 ∧ isSpace b = false ∧ b ≠ 93 ∧ b ≠ 125 := by
  cases h with
  | null => exact ⟨_, _, rfl, by decide⟩
  | true_ => exact ⟨_, _, rfl, by decide⟩
  | false_ => exact ⟨_, _, rfl, by decide⟩
  | number _ hn =>
    obtain ⟨b, t1, ht, hb⟩ := numberLit_head t hn
    have := numberStart_byte b hb
    exact ⟨b, t1, ht, this.1, this.2.1, this.2.2.1⟩
  | string body s _ => exact ⟨_, _, rfl, by decide⟩
  | emptyArray w _ => exact ⟨_, _, rfl, by decide⟩
  | array body vs _ => exact ⟨_, _, rfl, by decide⟩
  | emptyObject w _ => exact ⟨_, _, rfl, by decide⟩
  | object body kvs _ => exact ⟨_, _, rfl, by decide⟩

theorem parseValue_scalar (d : Decoder) (fuel depth : Nat) (key : Option (List Byte))
    (w : List Byte) (b : Byte) (t : List Byte) (v : JValue) (rest : List Byte) (hw : IsWs w)
    (hb : isSpace b = false) (hb1 : b ≠ 91) (hb2 : b ≠ 123)
    (hs : parseScalar (b :: t) = .ok (v, rest)) :
    parseValue d (fuel + 1) depth key (w ++ b :: t) =
      (emit d depth key v (b :: t) rest, .ok (v, rest)) := by
  rw [parseValue, skipSpaces_ws _ _ hw, skipSpaces_cons b _ hb]
  simp only [hb1, hb2, if_false, hs]

theorem delim_append_ws (w : List Byte) (c : Byte) (rest : List Byte) (hw : IsWs w)
    (hc : c = 44 ∨ c = 93 ∨ c = 125) : Delim (w ++ c :: rest) := by
  intro b hb
  cases w with
  | nil =>
    simp at hb
    subst hb
    exact Or.inr hc
  | cons x xs =>
    simp at hb
    subst hb
    exact Or.inl (hw _ (by simp))

theorem emit_shape (d : Decoder) (depth : Nat) (key : Option (List Byte)) (v : JValue)
    (a b : List Byte) :
    (emit d depth key v a b).map shape =
      if depth = d.emitDepth then [(depth, payload d key v)] else [] := by
  unfold emit
  split <;> rfl

theorem elems_head (body : List Byte) (vs : List JValue) (h : Wf body (.elems vs)) :
    ∃ w1 b r, body = w1 ++ b :: r ∧ IsWs w1 ∧ isSpace b = false ∧ b ≠ 93 ∧ b ≠ 125 := by
  cases h with
  | lastElem w1 t w2 v hw1 _ ht =>
    obtain ⟨b, t1, rfl, hb⟩ := wf_val_head t v ht
    exact ⟨w1, b, t1 ++ w2 ++ [93], by simp, hw1, hb⟩
  | consElem w1 t w2 body1 v vs1 hw1 _ ht _ =>
    obtain ⟨b, t1, rfl, hb⟩ := wf_val_head t v ht
    exact ⟨w1, b, t1 ++ w2 ++ 44 :: body1, by simp, hw1, hb⟩

theorem members_head (body : List Byte) (kvs : List (List Byte × JValue))
    (h : Wf body (.members kvs)) :
    ∃ w1 r, body = w1 ++ 34 :: r ∧ IsWs w1 := by
  cases h with
  | lastMember w1 kb k w2 w3 t w4 v hw1 _ _ _ _ _ => exact ⟨w1, _, rfl, hw1⟩
  | consMember w1 kb k w2 w3 t w4 body1 v kvs1 hw1 _ _ _ _ _ _ => exact ⟨w1, _, rfl, hw1⟩

theorem map_shape_nil (evs : List MetaValue) (h : evs.map shape = []) : evs = [] := by
  cases evs with
  | nil => rfl
  | cons e es => simp at h

/-- The decode engine recognises every well-formed text. -/
theorem wf_good (d : Decoder) (t : List Byte) (sem : Sem) (h : Wf t sem) : Good d t sem := by
  induction h with
  | null =>
    intro fuel depth key w rest hf hd hw hr
    obtain ⟨f, rfl⟩ : ∃ f, fuel = f + 1 := ⟨fuel - 1, by simp at hf; omega⟩
    have hdig : isDigit (110 : Byte) = false := by decide
    exact parseValue_scalar d f depth key w 110 _ .null rest hw (by decide) (by decide)
      (by decide) (by simp [parseScalar, matchLiteral, hdig])
  | true_ =>
    intro fuel depth key w rest hf hd hw hr
    obtain ⟨f, rfl⟩ : ∃ f, fuel = f + 1 := ⟨fuel - 1, by simp at hf; omega⟩
    have hdig : isDigit (116 : Byte) = false := by decide
    exact parseValue_scalar d f depth key w 116 _ (.bool true) rest hw (by decide) (by decide)
      (by decide) (by simp [parseScalar, matchLiteral, hdig])
  | false_ =>
    intro fuel depth key w rest hf hd hw hr
    obtain ⟨f, rfl⟩ : ∃ f, fuel = f + 1 := ⟨fuel - 1, by simp at hf; omega⟩
    have hdig : isDigit (102 : Byte) = false := by decide
    exact parseValue_scalar d f depth key w 102 _ (.bool false) rest hw (by decide) (by decide)
      (by decide) (by simp [parseScalar, matchLiteral, hdig])
  | number t hn =>
    intro fuel depth key w rest hf hd hw hr
    obtain ⟨b, t1, rfl, hb⟩ := numberLit_head t hn
    obtain ⟨f, rfl⟩ : ∃ f, fuel = f + 1 := ⟨fuel - 1, by simp at hf; omega⟩
    have hb' := numberStart_byte b hb
    have hlex := lexNumber_ok (b :: t1) rest hn (numEnd_of_delim rest hr)
    have hs : parseScalar (b :: (t1 ++ rest)) = .ok (.number (b :: t1), rest) := by
      have hb1 : (b = 45 ∨ isDigit b = true) = True := by simp [hb]
      simp only [List.cons_append] at hlex
      simp only [parseScalar, hb'.2.2.2.2.2, if_false, hb1, if_true, hlex]
    exact parseValue_scalar d f depth key w b _ _ rest hw hb'.1 hb'.2.2.2.1 hb'.2.2.2.2.1 hs
  | string body s hs =>
    intro fuel depth key w rest hf hd hw hr
    obtain ⟨f, rfl⟩ : ∃ f, fuel = f + 1 := ⟨fuel - 1, by simp at hf; omega⟩
    have hlex := lexString_ok body s rest hs
    have hsc : parseScalar (34 :: (body ++ [34] ++ rest)) = .ok (.string s, rest) := by
      have : body ++ [34] ++ rest = body ++ 34 :: rest := by simp
      rw [this]
      simp only [parseScalar, if_true, hlex]
    exact parseValue_scalar d f depth key w 34 _ _ rest hw (by decide) (by decide)
      (by decide) hsc
  | emptyArray w0 hw0 =>
    intro fuel depth key w rest hf hd hw hr
    obtain ⟨f, rfl⟩ : ∃ f, fuel = f + 1 := ⟨fuel - 1, by simp at hf; omega⟩
    have h1 : w0 ++ [93] ++ rest = w0 ++ 93 :: rest := by simp
    show parseValue d (f + 1) depth key (w ++ 91 :: (w0 ++ [93] ++ rest)) = _
    rw [parseValue, skipSpaces_ws _ _ hw, skipSpaces_cons 91 _ (by decide), h1]
    simp only [if_true, skipSpaces_ws _ _ hw0, skipSpaces_cons 93 _ (by decide)]
    simp
  | emptyObject w0 hw0 =>
    intro fuel depth key w rest hf hd hw hr
    obtain ⟨f, rfl⟩ : ∃ f, fuel = f + 1 := ⟨fuel - 1, by simp at hf; omega⟩
    have h1 : w0 ++ [125] ++ rest = w0 ++ 125 :: rest := by simp
    have h91 : ¬ ((123 : Byte) = 91) := by decide
    show parseValue d (f + 1) depth key (w ++ 123 :: (w0 ++ [125] ++ rest)) = _
    rw [parseValue, skipSpaces_ws _ _ hw, skipSpaces_cons 123 _ (by decide), h1]
    simp only [h91, if_false, if_true, skipSpaces_ws _ _ hw0, skipSpaces_cons 125 _ (by decide)]
    simp
  | array body vs hbody ih =>
    intro fuel depth key w rest hf hd hw hr
    obtain ⟨f, rfl⟩ : ∃ f, fuel = f + 1 := ⟨fuel - 1, by simp at hf; omega⟩
    obtain ⟨w1, b, r, rfl, hw1, hb, hb93, -⟩ := elems_head body vs hbody
    obtain ⟨evs, hpe, hsh⟩ := ih f (depth + 1) rest (by simp at hf ⊢; omega) (by omega)
    have hne : ¬ depth + 1 = d.emitDepth := by omega
    rw [if_neg hne] at hsh
    have hevs := map_shape_nil evs hsh
    subst hevs
    show parseValue d (f + 1) depth key (w ++ 91 :: (w1 ++ b :: r ++ rest)) = _
    rw [parseValue, skipSpaces_ws _ _ hw, skipSpaces_cons 91 _ (by decide)]
    have hsk : skipSpaces (w1 ++ b :: r ++ rest) = b :: (r ++ rest) := by
      rw [List.append_assoc, skipSpaces_ws _ _ hw1]
      exact skipSpaces_cons b _ hb
    simp only [if_true, hsk, hb93, if_false, hpe]
    rfl
  | object body kvs hbody ih =>
    intro fuel depth key w rest hf hd hw hr
    obtain ⟨f, rfl⟩ : ∃ f, fuel = f + 1 := ⟨fuel - 1, by simp at hf; omega⟩
    obtain ⟨w1, r, rfl, hw1⟩ := members_head body kvs hbody
    obtain ⟨evs, hpe, hsh⟩ := ih f (depth + 1) rest (by simp at hf ⊢; omega) (by omega)
    have hne : ¬ depth + 1 = d.emitDepth := by omega
    rw [if_neg hne] at hsh
    have hevs := map_shape_nil evs hsh
    subst hevs
    have h91 : ¬ ((123 : Byte) = 91) := by decide
    have h125 : ¬ ((34 : Byte) = 125) := by decide
    show parseValue d (f + 1) depth key (w ++ 123 :: (w1 ++ 34 :: r ++ rest)) = _
    rw [parseValue, skipSpaces_ws _ _ hw, skipSpaces_cons 123 _ (by decide)]
    have hsk : skipSpaces (w1 ++ 34 :: r ++ rest) = 34 :: (r ++ rest) := by
      rw [List.append_assoc, skipSpaces_ws _ _ hw1]
      exact skipSpaces_cons 34 _ (by decide)
    simp only [h91, if_true, hsk, h125, if_false, hpe]
    rfl
  | lastElem w1 t w2 v hw1 hw2 ht iht =>
    intro fuel depth rest hf hd
    obtain ⟨f, rfl⟩ : ∃ f, fuel = f + 1 := ⟨fuel - 1, by
      obtain ⟨b, t1, rfl, -⟩ := wf_val_head t v ht
      simp at hf; omega⟩
    have hpv := iht f depth none w1 (w2 ++ 93 :: rest) (by simp at hf; omega) hd hw1
      (delim_append_ws w2 93 rest hw2 (by simp))
    have htxt : w1 ++ t ++ w2 ++ [93] ++ rest = w1 ++ (t ++ (w2 ++ 93 :: rest)) := by simp
    refine ⟨emit d depth none v (t ++ (w2 ++ 93 :: rest)) (w2 ++ 93 :: rest), ?_, ?_⟩
    · rw [htxt, parseElems]
      simp only [hpv, skipSpaces_ws _ _ hw2, skipSpaces_cons 93 _ (by decide), if_true]
    · rw [emit_shape]
      rfl
  | consElem w1 t w2 body v vs hw1 hw2 ht hbody iht ihb =>
    intro fuel depth rest hf hd
    obtain ⟨f, rfl⟩ : ∃ f, fuel = f + 1 := ⟨fuel - 1, by simp at hf; omega⟩
    have hpv := iht f depth none w1 (w2 ++ 44 :: (body ++ rest)) (by simp at hf; omega) hd hw1
      (delim_append_ws w2 44 _ hw2 (by simp))
    obtain ⟨evs, hpe, hsh⟩ := ihb f depth rest (by simp at hf; omega) hd
    have htxt : w1 ++ t ++ w2 ++ 44 :: body ++ rest =
        w1 ++ (t ++ (w2 ++ 44 :: (body ++ rest))) := by simp
    have h93 : ¬ ((44 : Byte) = 93) := by decide
    refine ⟨emit d depth none v (t ++ (w2 ++ 44 :: (body ++ rest))) (w2 ++ 44 :: (body ++ rest))
      ++ evs, ?_, ?_⟩
    · rw [htxt, parseElems]
      simp only [hpv, skipSpaces_ws _ _ hw2, skipSpaces_cons 44 _ (by decide), h93, if_false,
        if_true, hpe]
    · rw [List.map_append, emit_shape, hsh]
      by_cases hde : depth = d.emitDepth <;> simp [hde, payload]
  | lastMember w1 kb k w2 w3 t w4 v hw1 hw2 hw3 hw4 hk ht iht =>
    intro fuel depth rest hf hd
    obtain ⟨f, rfl⟩ : ∃ f, fuel = f + 1 := ⟨fuel - 1, by simp at hf; omega⟩
    have hpv := iht f depth (some k) w3 (w4 ++ 125 :: rest) (by simp at hf; omega) hd hw3
      (delim_append_ws w4 125 rest hw4 (by simp))
    have htxt : w1 ++ 34 :: (kb ++ 34 :: (w2 ++ 58 :: (w3 ++ t ++ w4 ++ [125]))) ++ rest =
        w1 ++ 34 :: (kb ++ 34 :: (w2 ++ 58 :: (w3 ++ (t ++ (w4 ++ 125 :: rest))))) := by simp
    have hlex := lexString_ok kb k (w2 ++ 58 :: (w3 ++ (t ++ (w4 ++ 125 :: rest)))) hk
    refine ⟨emit d depth (some k) v (t ++ (w4 ++ 125 :: rest)) (w4 ++ 125 :: rest), ?_, ?_⟩
    · rw [htxt, parseMembers]
      simp only [skipSpaces_ws _ _ hw1, skipSpaces_cons 34 _ (by decide), if_true, hlex,
        skipSpaces_ws _ _ hw2, skipSpaces_cons 58 _ (by decide), hpv,
        skipSpaces_ws _ _ hw4, skipSpaces_cons 125 _ (by decide)]
    · rw [emit_shape]
      rfl
  | consMember w1 kb k w2 w3 t w4 body v kvs hw1 hw2 hw3 hw4 hk ht hbody iht ihb =>
    intro fuel depth rest hf hd
    obtain ⟨f, rfl⟩ : ∃ f, fuel = f + 1 := ⟨fuel - 1, by simp at hf; omega⟩
    have hpv := iht f depth (some k) w3 (w4 ++ 44 :: (body ++ rest)) (by simp at hf; omega) hd
      hw3 (delim_append_ws w4 44 _ hw4 (by simp))
    obtain ⟨evs, hpe, hsh⟩ := ihb f depth rest (by simp at hf; omega) hd
    have htxt : w1 ++ 34 :: (kb ++ 34 :: (w2 ++ 58 :: (w3 ++ t ++ w4 ++ 44 :: body))) ++ rest =
        w1 ++ 34 :: (kb ++ 34 :: (w2 ++ 58 :: (w3 ++ (t ++ (w4 ++ 44 :: (body ++ rest)))))) := by
      simp
    have hlex := lexString_ok kb k (w2 ++ 58 :: (w3 ++ (t ++ (w4 ++ 44 :: (body ++ rest))))) hk
    have h125 : ¬ ((44 : Byte) = 125) := by decide
    refine ⟨emit d depth (some k) v (t ++ (w4 ++ 44 :: (body ++ rest)))
      (w4 ++ 44 :: (body ++ rest)) ++ evs, ?_, ?_⟩
    · rw [htxt, parseMembers]
      simp only [skipSpaces_ws _ _ hw1, skipSpaces_cons 34 _ (by decide), if_true, hlex,
        skipSpaces_ws _ _ hw2, skipSpaces_cons 58 _ (by decide), hpv,
        skipSpaces_ws _ _ hw4, skipSpaces_cons 44 _ (by decide), h125, if_false, hpe]
    · rw [List.map_append, emit_shape, hsh]
      by_cases hde : depth = d.emitDepth <;> simp [hde]

theorem skipSpaces_all (w : List Byte) (hw : IsWs w) : skipSpaces w = [] := by
  have := skipSpaces_ws w [] hw
  simpa [skipSpaces] using this

theorem delim_ws_append (w rest : List Byte) (hw : IsWs w) (h : w ≠ [] ∨ Delim rest) :
    Delim (w ++ rest) := by
  cases w with
  | nil =>
    rcases h with h | h
    · exact absurd rfl h
    · simpa using h
  | cons x xs =>
    intro b hb
    simp at hb
    subst hb
    exact Or.inl (hw _ (by simp))

theorem delim_of_ws (w : List Byte) (hw : IsWs w) : Delim w := by
  have := delim_ws_append w [] hw (Or.inr (by intro b hb; simp at hb))
  simpa using this

/-- The document loop over well-formed documents: the events of each document in turn, and
no error. -/
theorem decodeLoop_documents {α : Type} (d : Decoder) (R : List Byte → α → Prop)
    (E : α → List (Nat × Emitted))
    (hR : ∀ t a rest, R t a → Delim rest → t.length ≤ d.input.length →
      (∃ b t1, t = b :: t1 ∧ isSpace b = false) ∧
      ∃ v evs, parseValue d (2 * d.input.length + 1) 0 none (t ++ rest) = (evs, .ok (v, rest)) ∧
        evs.map shape = E a)
    (text : List Byte) (as : List α) (h : Documents R text as) :
    ∀ (n : Nat) (w0 : List Byte), IsWs w0 → text.length + 1 ≤ n →
      text.length ≤ d.input.length →
      ∃ evs, decodeLoop d n (w0 ++ text) = (evs, none) ∧
        evs.map shape = (as.map E).flatten := by
  induction h with
  | done w hw =>
    intro n w0 hw0 hn _
    obtain ⟨m, rfl⟩ : ∃ m, n = m + 1 := ⟨n - 1, by omega⟩
    refine ⟨[], ?_, rfl⟩
    rw [decodeLoop, skipSpaces_ws _ _ hw0, skipSpaces_all w hw]
  | cons t w rest a as hRa hw hsep hrest ih =>
    intro n w0 hw0 hn hlen
    obtain ⟨m, rfl⟩ : ∃ m, n = m + 1 := ⟨n - 1, by omega⟩
    simp only [List.length_append] at hn hlen
    have hdel : Delim (w ++ rest) := by
      refine delim_ws_append w rest hw ?_
      rcases hsep with h1 | h1
      · exact Or.inl h1
      · subst h1
        cases hrest with
        | done w1 hw1 => exact Or.inr (delim_of_ws _ hw1)
    obtain ⟨⟨b, t1, rfl, hb⟩, v, evs, hpv, hsh⟩ := hR _ a (w ++ rest) hRa hdel (by omega)
    simp only [List.length_cons] at hn hlen
    obtain ⟨evs1, hloop, hsh1⟩ := ih m w hw (by omega) (by omega)
    refine ⟨evs ++ evs1, ?_, ?_⟩
    · have htxt : w0 ++ (b :: t1 ++ w ++ rest) = w0 ++ b :: (t1 ++ (w ++ rest)) := by simp
      have hpv' : parseValue d (2 * d.input.length + 1) 0 none (b :: (t1 ++ (w ++ rest))) =
          (evs, .ok (v, w ++ rest)) := by
        rw [← hpv]; rfl
      rw [htxt, decodeLoop, skipSpaces_ws _ _ hw0, skipSpaces_cons b _ hb]
      simp only [hpv', hloop]
    · simp [hsh, hsh1]

theorem emit_off (d : Decoder) (depth : Nat) (key : Option (List Byte)) (v : JValue)
    (a b : List Byte) (h : depth ≠ d.emitDepth) : emit d depth key v a b = [] := by
  simp [emit, h]

/-- An array one level above the target depth: its elements are the events. -/
theorem parseValue_array_above (d : Decoder) (t : List Byte) (vs : List JValue)
    (rest : List Byte) (fuel depth : Nat) (h : Wf t (.val (.array vs)))
    (hd : depth + 1 = d.emitDepth) (hf : 2 * t.length ≤ fuel) :
    ∃ evs, parseValue d fuel depth none (t ++ rest) = (evs, .ok (.array vs, rest)) ∧
      evs.map shape = vs.map (fun v => (depth + 1, Emitted.plain v)) := by
  have hne : depth ≠ d.emitDepth := by omega
  cases h with
  | emptyArray w0 hw0 =>
    obtain ⟨f, rfl⟩ : ∃ f, fuel = f + 1 := ⟨fuel - 1, by simp at hf; omega⟩
    refine ⟨[], ?_, rfl⟩
    have h1 : 91 :: (w0 ++ [93]) ++ rest = 91 :: (w0 ++ 93 :: rest) := by simp
    rw [h1, parseValue, skipSpaces_cons 91 _ (by decide)]
    simp only [if_true, skipSpaces_ws _ _ hw0, skipSpaces_cons 93 _ (by decide),
      emit_off d depth none _ _ _ hne]
  | array body _ hbody =>
    obtain ⟨f, rfl⟩ : ∃ f, fuel = f + 1 := ⟨fuel - 1, by simp at hf; omega⟩
    obtain ⟨w1, b, r, rfl, hw1, hb, hb93, -⟩ := elems_head body vs hbody
    obtain ⟨evs, hpe, hsh⟩ := wf_good d _ _ hbody f (depth + 1) rest (by simp at hf ⊢; omega)
      (by omega)
    rw [if_pos hd] at hsh
    refine ⟨evs, ?_, hsh⟩
    have h1 : 91 :: (w1 ++ b :: r) ++ rest = 91 :: (w1 ++ b :: r ++ rest) := by simp
    have hsk : skipSpaces (w1 ++ b :: r ++ rest) = b :: (r ++ rest) := by
      rw [List.append_assoc, skipSpaces_ws _ _ hw1]
      exact skipSpaces_cons b _ hb
    rw [h1, parseValue, skipSpaces_cons 91 _ (by decide)]
    simp only [if_true, hsk, hb93, if_false, hpe, emit_off d depth none _ _ _ hne,
      List.append_nil]

/-- An object one level above the target depth: its properties are the events. -/
theorem parseValue_object_above (d : Decoder) (t : List Byte)
    (kvs : List (List Byte × JValue)) (rest : List Byte) (fuel depth : Nat)
    (h : IsObjectText t kvs) (hd : depth + 1 = d.emitDepth) (hf : 2 * t.length ≤ fuel) :
    ∃ v evs, parseValue d fuel depth none (t ++ rest) = (evs, .ok (v, rest)) ∧
      evs.map shape = kvs.map (fun kv => (depth + 1, payload d (some kv.1) kv.2)) := by
  have hne : depth ≠ d.emitDepth := by omega
  have h91 : ¬ ((123 : Byte) = 91) := by decide
  rcases h with ⟨rfl, w0, hw0, rfl⟩ | ⟨body, rfl, hbody⟩
  · obtain ⟨f, rfl⟩ : ∃ f, fuel = f + 1 := ⟨fuel - 1, by simp at hf; omega⟩
    refine ⟨.object [], [], ?_, rfl⟩
    have h1 : 123 :: (w0 ++ [125]) ++ rest = 123 :: (w0 ++ 125 :: rest) := by simp
    rw [h1, parseValue, skipSpaces_cons 123 _ (by decide)]
    simp only [h91, if_false, if_true, skipSpaces_ws _ _ hw0, skipSpaces_cons 125 _ (by decide),
      emit_off d depth none _ _ _ hne]
  · obtain ⟨f, rfl⟩ : ∃ f, fuel = f + 1 := ⟨fuel - 1, by simp at hf; omega⟩
    obtain ⟨w1, r, rfl, hw1⟩ := members_head body kvs hbody
    obtain ⟨evs, hpe, hsh⟩ := wf_good d _ _ hbody f (depth + 1) rest (by simp at hf ⊢; omega)
      (by omega)
    rw [if_pos hd] at hsh
    refine ⟨.object (mkObject kvs), evs, ?_, hsh⟩
    have h1 : 123 :: (w1 ++ 34 :: r) ++ rest = 123 :: (w1 ++ 34 :: r ++ rest) := by simp
    have h125 : ¬ ((34 : Byte) = 125) := by decide
    have hsk : skipSpaces (w1 ++ 34 :: r ++ rest) = 34 :: (r ++ rest) := by
      rw [List.append_assoc, skipSpaces_ws _ _ hw1]
      exact skipSpaces_cons 34 _ (by decide)
    rw [h1, parseValue, skipSpaces_cons 123 _ (by decide)]
    simp only [h91, if_false, if_true, hsk, h125, hpe, emit_off d depth none _ _ _ hne,
      List.append_nil]

theorem of_shapes (evs : List MetaValue) (xs : List (Nat × Emitted))
    (h : evs.map shape = xs) :
    evs.map (fun e => e.Value) = xs.map Prod.snd ∧ evs.map (fun e => e.Depth) = xs.map Prod.fst ∧
      evs.length = xs.length := by
  subst h
  refine ⟨?_, ?_, by simp⟩ <;> simp [shape, Function.comp_def]

/-- The stream and the error of a decoder over well-formed documents. -/
theorem stream_documents {α : Type} (d : Decoder) (R : List Byte → α → Prop)
    (E : α → List (Nat × Emitted))
    (hR : ∀ t a rest, R t a → Delim rest → t.length ≤ d.input.length →
      (∃ b t1, t = b :: t1 ∧ isSpace b = false) ∧
      ∃ v evs, parseValue d (2 * d.input.length + 1) 0 none (t ++ rest) = (evs, .ok (v, rest)) ∧
        evs.map shape = E a)
    (w0 text : List Byte) (as : List α) (hin : d.input = w0 ++ text) (hw0 : IsWs w0)
    (h : Documents R text as) :
    d.Stream.map shape = (as.map E).flatten ∧ d.Err = none := by
  obtain ⟨evs, hloop, hsh⟩ := decodeLoop_documents d R E hR text as h (d.input.length + 1) w0 hw0
    (by rw [hin]; simp) (by rw [hin]; simp)
  unfold Decoder.Stream Decoder.Err
  rw [hin] at hloop ⊢
  rw [hloop]
  exact ⟨hsh, rfl⟩

theorem isWs_nil : IsWs [] := by
  intro b hb
  simp at hb

theorem isWs_cons (b : Byte) (w : List Byte) (hb : isSpace b = true) (hw : IsWs w) :
    IsWs (b :: w) := by
  intro x hx
  rcases List.mem_cons.mp hx with h | h
  · rw [h]; exact hb
  · exact hw x h

theorem flatten_singletons {α β : Type} (f : α → β) (xs : List α) :
    (xs.map (fun x => [f x])).flatten = xs.map f := by
  induction xs with
  | nil => rfl
  | cons x xs ih => simp [ih]

/-- C8: when the input is `N` well-formed JSON documents separated by whitespace (whitespace
may lead and trail), the decoder with target depth 0 yields exactly `N` events, the `i`-th
with the decoded value of the `i`-th document, each with `Depth` 0, and `Err()` is nil. -/
theorem c8_one_event_per_document (w0 text : List Byte) (vs : List JValue) (hw0 : IsWs w0)
    (h : Documents (fun t v => Wf t (.val v)) text vs) :
    (NewDecoder (w0 ++ text) 0).Stream.map (fun e => e.Value) = vs.map Emitted.plain ∧
    (NewDecoder (w0 ++ text) 0).Stream.length = vs.length ∧
    (∀ e ∈ (NewDecoder (w0 ++ text) 0).Stream, e.Depth = 0) ∧
    (NewDecoder (w0 ++ text) 0).Err = none := by
  obtain ⟨hsh, herr⟩ := stream_documents (NewDecoder (w0 ++ text) 0)
    (fun t v => Wf t (.val v)) (fun v => [(0, Emitted.plain v)])
    (by
      intro t1 v rest ht hr hlen
      obtain ⟨b, t2, hbt, hb, -⟩ := wf_val_head t1 v ht
      refine ⟨⟨b, t2, hbt, hb⟩, v, emit (NewDecoder (w0 ++ text) 0) 0 none v (t1 ++ rest) rest,
        ?_, ?_⟩
      · exact wf_good (NewDecoder (w0 ++ text) 0) t1 (.val v) ht _ 0 none [] rest (by omega)
          (Nat.le_refl _) (by intro x hx; simp at hx) hr
      · rw [emit_shape]
        rfl)
    w0 text vs rfl hw0 h
  rw [flatten_singletons] at hsh
  obtain ⟨h1, h2, h3⟩ := of_shapes _ _ hsh
  refine ⟨?_, ?_, ?_, herr⟩
  · rw [h1]
    simp [Function.comp_def]
  · rw [h3]
    simp
  · intro e he
    have hmem : e.Depth ∈ (NewDecoder (w0 ++ text) 0).Stream.map (fun e => e.Depth) :=
      List.mem_map_of_mem _ he
    rw [h2] at hmem
    simp at hmem
    exact hmem.2.symm

theorem c8_witness :
    IsWs [32] ∧
    Documents (fun t v => Wf t (.val v))
      ([110, 117, 108, 108] ++ [10] ++ ([116, 114, 117, 101] ++ [] ++ []))
      [.null, .bool true] ∧
    (NewDecoder ([32] ++ ([110, 117, 108, 108] ++ [10] ++ ([116, 114, 117, 101] ++ [] ++ [])))
        0).Stream.map (fun e => e.Value) = [JValue.null, JValue.bool true].map Emitted.plain ∧
    (NewDecoder ([32] ++ ([110, 117, 108, 108] ++ [10] ++ ([116, 114, 117, 101] ++ [] ++ [])))
        0).Stream.length = [JValue.null, JValue.bool true].length ∧
    (∀ e ∈ (NewDecoder ([32] ++ ([110, 117, 108, 108] ++ [10] ++
        ([116, 114, 117, 101] ++ [] ++ []))) 0).Stream, e.Depth = 0) ∧
    (NewDecoder ([32] ++ ([110, 117, 108, 108] ++ [10] ++ ([116, 114, 117, 101] ++ [] ++ [])))
        0).Err = none :=
  ⟨isWs_cons 32 [] (by decide) isWs_nil,
    .cons _ _ _ _ _ .null (isWs_cons 10 [] (by decide) isWs_nil) (Or.inl (by decide))
      (.cons _ _ _ _ _ .true_ isWs_nil (Or.inr rfl)
        (.done [] isWs_nil)),
    c8_one_event_per_document [32]
      ([110, 117, 108, 108] ++ [10] ++ ([116, 114, 117, 101] ++ [] ++ []))
      [.null, .bool true] (isWs_cons 32 [] (by decide) isWs_nil)
      (.cons _ _ _ _ _ .null (isWs_cons 10 [] (by decide) isWs_nil) (Or.inl (by decide))
        (.cons _ _ _ _ _ .true_ isWs_nil (Or.inr rfl)
          (.done [] isWs_nil)))⟩

/-- C9: when the input is a well-formed JSON array (of scalars, or of any values), with
whitespace before and after it, the decoder with target depth 1 yields one event per element,
in order, whose `Value` is the decoded element: a number as the double of its literal, `null`,
a boolean, a string as its decoded text; and `Err()` is nil. -/
theorem c9_array_elements_in_order (w0 t w1 : List Byte) (vs : List JValue) (hw0 : IsWs w0)
    (hw1 : IsWs w1) (ht : Wf t (.val (.array vs))) :
    (NewDecoder (w0 ++ t ++ w1) 1).Stream.map (fun e => e.Value) = vs.map Emitted.plain ∧
    (NewDecoder (w0 ++ t ++ w1) 1).Stream.length = vs.length ∧
    (NewDecoder (w0 ++ t ++ w1) 1).Err = none := by
  have hin : w0 ++ t ++ w1 = w0 ++ (t ++ w1 ++ []) := by simp
  rw [hin]
  obtain ⟨hsh, herr⟩ := stream_documents (NewDecoder (w0 ++ (t ++ w1 ++ [])) 1)
    (fun t1 vs1 => Wf t1 (.val (.array vs1)))
    (fun vs1 => vs1.map (fun v => (0 + 1, Emitted.plain v)))
    (by
      intro t1 vs1 rest ht1 hr hlen
      obtain ⟨b, t2, hbt, hb, -⟩ := wf_val_head t1 _ ht1
      refine ⟨⟨b, t2, hbt, hb⟩, ?_⟩
      obtain ⟨evs, hpv, hsh⟩ := parseValue_array_above (NewDecoder (w0 ++ (t ++ w1 ++ [])) 1) t1
        vs1 rest (2 * (NewDecoder (w0 ++ (t ++ w1 ++ [])) 1).input.length + 1) 0 ht1 rfl
        (by omega)
      exact ⟨_, evs, hpv, hsh⟩)
    w0 (t ++ w1 ++ []) [vs] rfl hw0
    (.cons t w1 [] vs [] ht hw1 (Or.inr rfl) (.done [] (by intro x hx; simp at hx)))
  obtain ⟨h1, -, h3⟩ := of_shapes _ _ hsh
  refine ⟨?_, ?_, herr⟩
  · rw [h1]
    simp [Function.comp_def]
  · rw [h3]
    simp

/-- C10: when the input is well-formed JSON objects separated by whitespace, the decoder with
target depth 1 yields exactly one event per property, in the order of the text: without
`EmitKV()` each `Value` is the property's decoded value and none is a `KV`; with `EmitKV()`
each `Value` is a `KV` with the property's key and the same decoded value, and the number of
events is the same.  `Err()` is nil in both modes. -/
theorem c10_one_event_per_property (w0 text : List Byte)
    (kvss : List (List (List Byte × JValue))) (hw0 : IsWs w0)
    (h : Documents IsObjectText text kvss) :
    (NewDecoder (w0 ++ text) 1).Stream.map (fun e => e.Value) =
      kvss.flatten.map (fun kv => Emitted.plain kv.2) ∧
    (NewDecoder (w0 ++ text) 1).Stream.length = kvss.flatten.length ∧
    (NewDecoder (w0 ++ text) 1).Err = none ∧
    (NewDecoder (w0 ++ text) 1).EmitKV.Stream.map (fun e => e.Value) =
      kvss.flatten.map (fun kv => Emitted.KV kv.1 kv.2) ∧
    (NewDecoder (w0 ++ text) 1).EmitKV.Stream.length = kvss.flatten.length ∧
    (NewDecoder (w0 ++ text) 1).EmitKV.Err = none := by
  have key : ∀ d : Decoder, d.input = w0 ++ text → d.emitDepth = 1 →
      d.Stream.map shape = (kvss.map (fun kvs =>
        kvs.map (fun kv => (0 + 1, payload d (some kv.1) kv.2)))).flatten ∧ d.Err = none := by
    intro d hin hdep
    refine stream_documents d IsObjectText _ ?_ w0 text kvss hin hw0 h
    intro t kvs rest ht hr hlen
    have hhead : ∃ b t1, t = b :: t1 ∧ isSpace b = false := by
      rcases ht with ⟨-, w, -, rfl⟩ | ⟨body, rfl, -⟩
      · exact ⟨_, _, rfl, by decide⟩
      · exact ⟨_, _, rfl, by decide⟩
    exact ⟨hhead, parseValue_object_above d t kvs rest _ 0 ht (by omega) (by omega)⟩
  obtain ⟨hsh, herr⟩ := key (NewDecoder (w0 ++ text) 1) rfl rfl
  obtain ⟨hshk, herrk⟩ := key (NewDecoder (w0 ++ text) 1).EmitKV rfl rfl
  obtain ⟨h1, -, h3⟩ := of_shapes _ _ hsh
  obtain ⟨k1, -, k3⟩ := of_shapes _ _ hshk
  refine ⟨?_, ?_, herr, ?_, ?_, herrk⟩
  · rw [h1]
    simp [List.map_flatten, Function.comp_def, payload, NewDecoder]
  · rw [h3]
    simp [List.length_flatten, Function.comp_def]
  · rw [k1]
    simp [List.map_flatten, Function.comp_def, payload, NewDecoder, Decoder.EmitKV]
  · rw [k3]
    simp [List.length_flatten, Function.comp_def]

theorem c9_witness :
    Wf (91 :: ([] ++ [49] ++ [] ++ 44 :: ([32] ++ [110, 117, 108, 108] ++ [] ++ [93])))
      (.val (.array [.number [49], .null])) ∧
    (NewDecoder ([10] ++ 91 :: ([] ++ [49] ++ [] ++
        44 :: ([32] ++ [110, 117, 108, 108] ++ [] ++ [93])) ++ [10]) 1).Stream.map
        (fun e => e.Value) = [JValue.number [49], JValue.null].map Emitted.plain ∧
    (NewDecoder ([10] ++ 91 :: ([] ++ [49] ++ [] ++
        44 :: ([32] ++ [110, 117, 108, 108] ++ [] ++ [93])) ++ [10]) 1).Stream.length =
      [JValue.number [49], JValue.null].length ∧
    (NewDecoder ([10] ++ 91 :: ([] ++ [49] ++ [] ++
        44 :: ([32] ++ [110, 117, 108, 108] ++ [] ++ [93])) ++ [10]) 1).Err = none :=
  ⟨.array _ _ (.consElem [] [49] [] _ _ _ isWs_nil isWs_nil
      (.number [49] (.mk [] [49] [] [] (Or.inl rfl)
        (.nonzero 49 [] (by decide) (by decide) (by intro x hx; simp at hx)) .none .none))
      (.lastElem [32] _ [] _ (isWs_cons 32 [] (by decide) isWs_nil) isWs_nil .null)),
    c9_array_elements_in_order [10]
      (91 :: ([] ++ [49] ++ [] ++ 44 :: ([32] ++ [110, 117, 108, 108] ++ [] ++ [93]))) [10]
      [.number [49], .null] (isWs_cons 10 [] (by decide) isWs_nil)
      (isWs_cons 10 [] (by decide) isWs_nil)
      (.array _ _ (.consElem [] [49] [] _ _ _ isWs_nil isWs_nil
        (.number [49] (.mk [] [49] [] [] (Or.inl rfl)
          (.nonzero 49 [] (by decide) (by decide) (by intro x hx; simp at hx)) .none .none))
        (.lastElem [32] _ [] _ (isWs_cons 32 [] (by decide) isWs_nil) isWs_nil .null)))⟩

theorem c10_witness :
    Documents IsObjectText
      (123 :: ([] ++ 34 :: ([97] ++ 34 :: ([] ++ 58 :: ([32] ++ [116, 114, 117, 101] ++ [] ++
        [125])))) ++ [10] ++ (123 :: ([] ++ [125]) ++ [] ++ []))
      [[([97], .bool true)], []] ∧
    (NewDecoder ([] ++ (123 :: ([] ++ 34 :: ([97] ++ 34 :: ([] ++ 58 :: ([32] ++
        [116, 114, 117, 101] ++ [] ++ [125])))) ++ [10] ++ (123 :: ([] ++ [125]) ++ [] ++ [])))
        1).Stream.map (fun e => e.Value) =
      ([[([97], JValue.bool true)], []] : List (List (List Byte × JValue))).flatten.map
        (fun kv => Emitted.plain kv.2) ∧
    (NewDecoder ([] ++ (123 :: ([] ++ 34 :: ([97] ++ 34 :: ([] ++ 58 :: ([32] ++
        [116, 114, 117, 101] ++ [] ++ [125])))) ++ [10] ++ (123 :: ([] ++ [125]) ++ [] ++ [])))
        1).EmitKV.Stream.map (fun e => e.Value) =
      ([[([97], JValue.bool true)], []] : List (List (List Byte × JValue))).flatten.map
        (fun kv => Emitted.KV kv.1 kv.2) :=
  have hdocs : Documents IsObjectText
      (123 :: ([] ++ 34 :: ([97] ++ 34 :: ([] ++ 58 :: ([32] ++ [116, 114, 117, 101] ++ [] ++
        [125])))) ++ [10] ++ (123 :: ([] ++ [125]) ++ [] ++ []))
      [[([97], .bool true)], []] :=
    .cons _ [10] _ _ _
      (Or.inr ⟨_, rfl, .lastMember [] [97] [97] [] [32] _ [] _ isWs_nil isWs_nil
        (isWs_cons 32 [] (by decide) isWs_nil) isWs_nil
        (.plain 97 [] [] (by decide) (by decide) .nil) .true_⟩)
      (isWs_cons 10 [] (by decide) isWs_nil) (Or.inl (by decide))
      (.cons _ [] [] _ _ (Or.inl ⟨rfl, [], isWs_nil, rfl⟩) isWs_nil (Or.inr rfl)
        (.done [] isWs_nil))
  have hall := c10_one_event_per_property [] _ _ isWs_nil hdocs
  ⟨hdocs, hall.1, hall.2.2.2.1⟩

/-- The input of `TestDecoderFlat` at target depth 1. -/
theorem testDecoderFlat_values :
    (NewDecoder [91, 10, 32, 32, 34, 49, 115, 116, 32, 116, 101, 115, 116, 32, 115, 116, 114,
        105, 110, 103, 34, 44, 10, 32, 32, 34, 82, 111, 98, 101, 114, 116, 111, 42, 77, 97, 101,
        115, 116, 114, 111, 34, 44, 32, 34, 67, 104, 97, 114, 108, 101, 115, 34, 44, 10, 32, 32,
        48, 44, 32, 110, 117, 108, 108, 44, 32, 102, 97, 108, 115, 101, 44, 10, 32, 32, 49, 44,
        32, 50, 46, 53, 10, 93] 1).Stream.map (fun e => (e.Depth, e.Value)) =
      [(1, .plain (.string [49, 115, 116, 32, 116, 101, 115, 116, 32, 115, 116, 114, 105, 110,
          103])),
        (1, .plain (.string [82, 111, 98, 101, 114, 116, 111, 42, 77, 97, 101, 115, 116, 114,
          111])),
        (1, .plain (.string [67, 104, 97, 114, 108, 101, 115])),
        (1, .plain (.number [48])), (1, .plain .null), (1, .plain (.bool false)),
        (1, .plain (.number [49])), (1, .plain (.number [50, 46, 53]))] := by
  rfl

set_option maxRecDepth 100000 in
/-- The input of `TestDecoderMultiDoc` gives the counts that the test expects: 5 events at
target depth 0; 15 events, none of them a `KV`, at target depth 1; 15 events, all of them `KV`,
at target depth 1 with `EmitKV()`; and no error. -/
theorem testDecoderMultiDoc_counts :
    (NewDecoder multiDocBody 0).Stream.length = 5 ∧
    (NewDecoder multiDocBody 0).Err = none ∧
    ((NewDecoder multiDocBody 1).Stream.filter (fun e => e.Value.isKV)).length = 0 ∧
    ((NewDecoder multiDocBody 1).Stream.filter (fun e => !e.Value.isKV)).length = 15 ∧
    (NewDecoder multiDocBody 1).Err = none ∧
    ((NewDecoder multiDocBody 1).EmitKV.Stream.filter (fun e => e.Value.isKV)).length = 15 ∧
    ((NewDecoder multiDocBody 1).EmitKV.Stream.filter (fun e => !e.Value.isKV)).length = 0 ∧
    (NewDecoder multiDocBody 1).EmitKV.Err = none := by
  refine ⟨?_, ?_, ?_, ?_, ?_, ?_, ?_, ?_⟩ <;> rfl

/-! ## Lookback, positions and bounds of the scanner -/

/-- A run over two lists of calls is the run over the first followed by the run over the
second. -/
theorem run_append (a b : List Op) (s : scanner) :
    run (a ++ b) s =
      match run a s with
      | .ok (o1, s1) =>
        match run b s1 with
        | .ok (o2, s2) => .ok (o1 ++ o2, s2)
        | .error f => .error f
      | .error f => .error f := by
  induction a generalizing s with
  | nil =>
    simp only [List.nil_append, run]
    cases run b s with
    | error f => rfl
    | ok r => rfl
  | cons op a ih =>
    cases op with
    | next =>
      simp only [List.cons_append, run]
      cases next s with
      | error f => rfl
      | ok r =>
        obtain ⟨o, s1⟩ := r
        simp only [List.append_eq, ih s1]
        cases run a s1 with
        | error f => rfl
        | ok r1 =>
          obtain ⟨o1, s2⟩ := r1
          simp only
          cases run b s2 with
          | error f => rfl
          | ok r2 => rfl
    | back =>
      simp only [List.cons_append, run]
      cases back s with
      | error f => rfl
      | ok s1 => simpa only [List.append_eq] using ih s1
    | yield =>
      simp only [List.cons_append, run]
      simpa only [List.append_eq] using ih (workerRun s)

/-- Calls of `next` that stay inside the active window only move `ipos` and `pos`. -/
theorem run_window (k : Nat) : ∀ s : scanner, 0 ≤ s.ipos → s.ipos + k ≤ s.ifill →
    s.ifill ≤ chunk → 0 ≤ s.pos → s.pos + k ≤ s.end_ → s.end_ ≤ maxInt →
    ∃ outs, run (List.replicate k .next) s =
      .ok (outs, { s with ipos := s.ipos + k, pos := s.pos + k }) := by
  induction k with
  | zero =>
    intro s _ _ _ _ _ _
    exact ⟨[], by simp [run]⟩
  | succ k ih =>
    intro s h0 h1 h2 h3 h4 h5
    have hnx := next_window s (by omega) h0 (by omega) h2 h3 (by omega)
    obtain ⟨outs, hrun⟩ := ih { s with ipos := s.ipos + 1, pos := s.pos + 1 }
      (by simp only; omega) (by simp only; omega) h2 (by simp only; omega)
      (by simp only; omega) h5
    refine ⟨(s.buf (s.ipos + 1).toNat, none) :: outs, ?_⟩
    have e1 : s.ipos + 1 + (k : Int) = s.ipos + ((k + 1 : Nat) : Int) := by push_cast; ring
    have e2 : s.pos + 1 + (k : Int) = s.pos + ((k + 1 : Nat) : Int) := by push_cast; ring
    simp only [e1, e2] at hrun
    simp only [List.replicate_succ, run, hnx, hrun]


/-- The first call of `next` on a fresh scanner whose reader starts with a read of 1 to `chunk`
bytes: it takes that read as its window and requests the next fill. -/
theorem next_first (c : List Byte) (rest : List (List Byte)) (e : Err) (hc1 : 1 ≤ c.length) :
    ∃ s1, next (newScanner (chunkReader (c :: rest) e)) = .ok ((c.getD 0 0, none), s1) ∧
      s1.ipos = 1 ∧ s1.pos = 1 ∧ s1.ifill = c.length ∧ s1.end_ = maxInt ∧
      s1.worker = .reading ∧ s1.reader = chunkReader rest e := by
  have hmax := maxInt_eq
  have hw0 : workerRun (newScanner (chunkReader (c :: rest) e)) =
      { newScanner (chunkReader (c :: rest) e) with
        nbuf := fun i => c.getD i 0
        reader := chunkReader rest e
        rpos := wrapInt64 (0 + (c.length : Int))
        worker := .sending ⟨(c.length : Int), none⟩ false } := by
    have h := scan_chunkReader_cons (newScanner (chunkReader (c :: rest) e)) c rest e hc1
    simpa only [workerRun, newScanner] using h
  have h1 := next_refill (newScanner (chunkReader (c :: rest) e)) (c.length : Int)
    (by show (0 : Int) < maxInt; omega) (le_refl _) (by show (0 : Int) < 0 + 1; omega)
    (by show (0 : Int) < maxInt; omega) (le_refl _) (by show (0 : Int) < maxInt; omega)
    (by rw [hw0]) (by rw [hw0]; rfl)
  rw [hw0] at h1
  exact ⟨_, h1, rfl, rfl, rfl, rfl, rfl, rfl⟩

/-- The call of `next` that receives a source error: it returns the error and leaves `ipos`
incremented, `pos` as it was. -/
theorem next_error_ipos (s : scanner) (n : Nat) (h1 : s.pos < s.end_) (h0 : 0 ≤ s.ipos)
    (h2 : s.ifill < s.ipos + 1) (hi : s.ipos < maxInt) (hw : s.worker = .reading)
    (hr : s.reader = chunkReader [] (.other n)) :
    ∃ s1, next s = .ok ((0, some (.other n)), s1) ∧ s1.ipos = s.ipos + 1 ∧ s1.pos = s.pos := by
  have hs : workerRun s = { s with reader := [], worker := .sending ⟨0, some (.other n)⟩ true } := by
    simp only [workerRun, hw, hr, scan_chunkReader_other]
  have hnx := next_error s (.other n) h1 h0 h2 hi (by rw [hs])
  exact ⟨_, hnx, rfl, (workerRun_consumer s).1⟩

/-- A read that fills the whole prefetch buffer, then a source error: after the `chunk` bytes the
call of `next` that receives the error leaves `ipos = chunk + 1`, outside `buf`. -/
theorem full_read_then_error (c : List Byte) (n : Nat) (hc : c.length = chunk) :
    ∃ outs s, run (List.replicate (chunk + 1) .next) (newScanner (chunkReader [c] (.other n))) =
        .ok (outs ++ [(0, some (.other n))], s) ∧
      s.ipos = chunk + 1 ∧ s.pos = chunk ∧ cur s = .error .panic := by
  have hmax := maxInt_eq
  have hch : (chunk : Int) = 4095 := rfl
  have hcl : (c.length : Int) = 4095 := by rw [hc]; rfl
  obtain ⟨s1, hn1, hi1, hp1, hf1, he1, hw1, hr1⟩ := next_first c [] (.other n)
    (by rw [hc]; decide)
  obtain ⟨outs, h2⟩ := run_window 4094 s1 (by omega) (by push_cast; omega) (by omega) (by omega)
    (by push_cast; omega) (by omega)
  obtain ⟨s3, hn3, hi3, hp3⟩ := next_error_ipos
    { s1 with ipos := s1.ipos + (4094 : Nat), pos := s1.pos + (4094 : Nat) } n
    (by show s1.pos + (4094 : Nat) < s1.end_; push_cast; omega)
    (by show 0 ≤ s1.ipos + (4094 : Nat); push_cast; omega)
    (by show s1.ifill < s1.ipos + (4094 : Nat) + 1; push_cast; omega)
    (by show s1.ipos + (4094 : Nat) < maxInt; push_cast; omega) hw1 hr1
  have hops : List.replicate (chunk + 1) Op.next =
      [Op.next] ++ (List.replicate 4094 Op.next ++ [Op.next]) := by
    have : chunk = 4094 + 1 := rfl
    rw [List.replicate_succ, this, List.replicate_succ']
    rfl
  generalize List.replicate 4094 Op.next = w at h2 hops
  refine ⟨(c.getD 0 0, none) :: outs, s3, ?_, ?_, ?_, ?_⟩
  · rw [hops, run_append]
    simp only [run, hn1]
    rw [run_append]
    simp only [run, h2, hn3, List.singleton_append, List.cons_append, List.nil_append]
  · rw [hi3]
    show s1.ipos + (4094 : Nat) + 1 = (chunk : Int) + 1
    push_cast; omega
  · rw [hp3]
    show s1.pos + (4094 : Nat) = (chunk : Int)
    push_cast; omega
  · have h4 : s3.ipos = 4096 := by
      rw [hi3]
      show s1.ipos + (4094 : Nat) + 1 = 4096
      push_cast; omega
    simp [cur, bufAt, h4, hch]
/-- The ways a call of `next` returns: at the guard `pos >= end`, inside the active window, or
after a receive on `fillReady` (with the source error, with a new fill request, or without). -/
theorem next_cases (s s1 : scanner) (o : Byte × Option Err) (h : next s = .ok (o, s1)) :
    (s.end_ ≤ s.pos ∧ o = (0, none) ∧ s1 = s) ∨
    (s.pos < s.end_ ∧ wrapInt64 (s.ipos + 1) ≤ s.ifill ∧ o.2 = none ∧
      s1 = { s with ipos := wrapInt64 (s.ipos + 1), pos := wrapInt64 (s.pos + 1) }) ∨
    (s.pos < s.end_ ∧ s.ifill < wrapInt64 (s.ipos + 1) ∧
      ∃ fr s2, recvFillReady { s with ipos := wrapInt64 (s.ipos + 1) } = .ok (fr, s2) ∧
        ((∃ e, fr.err = some e ∧ o = (0, some e) ∧ s1 = s2) ∨
         (fr.err = none ∧ o.2 = none ∧ s2.end_ = maxInt ∧ s2.worker = .idle ∧
            s1 = { swapBuffers fr.fill s2 with
                   worker := .reading, pos := wrapInt64 (s2.pos + 1) }) ∨
         (fr.err = none ∧ o.2 = none ∧ s2.end_ ≠ maxInt ∧
            s1 = { swapBuffers fr.fill s2 with pos := wrapInt64 (s2.pos + 1) }))) := by
  unfold next at h
  split at h
  · next hge =>
    left
    simp only [Except.ok.injEq, Prod.mk.injEq] at h
    exact ⟨hge, h.1.symm, h.2.symm⟩
  · next hlt =>
    have hlt : s.pos < s.end_ := by omega
    simp only at h
    split at h
    · next hex =>
      right; right
      refine ⟨hlt, hex, ?_⟩
      unfold refill at h
      split at h
      · cases h
      · next fr s2 hrecv =>
        refine ⟨fr, s2, hrecv, ?_⟩
        split at h
        · next e he =>
          left
          simp only [Except.ok.injEq, Prod.mk.injEq] at h
          exact ⟨e, he, h.1.symm, h.2.symm⟩
        · next he =>
          right
          simp only at h
          split at h
          · next hend =>
            left
            have hend2 : s2.end_ = maxInt := hend
            unfold sendFillReq at h
            cases hw : s2.worker with
            | idle =>
              have hw3 : (swapBuffers fr.fill s2).worker = .idle := hw
              simp only [hw3, nextReturn, bufAt] at h
              split at h
              · simp only [Except.ok.injEq, Prod.mk.injEq] at h
                refine ⟨he, ?_, hend2, rfl, h.2.symm⟩
                rw [← h.1]
              · cases h
            | reading =>
              have hw3 : (swapBuffers fr.fill s2).worker = .reading := hw
              simp [hw3] at h
            | sending a b =>
              have hw3 : (swapBuffers fr.fill s2).worker = .sending a b := hw
              simp [hw3] at h
            | exited =>
              have hw3 : (swapBuffers fr.fill s2).worker = .exited := hw
              simp [hw3] at h
          · next hend =>
            right
            have hend2 : s2.end_ ≠ maxInt := hend
            simp only [nextReturn, bufAt] at h
            split at h
            · simp only [Except.ok.injEq, Prod.mk.injEq] at h
              refine ⟨he, ?_, hend2, h.2.symm⟩
              rw [← h.1]
            · cases h
    · next hwin =>
      right; left
      have hwin2 : wrapInt64 (s.ipos + 1) ≤ s.ifill := by
        simp only [gt_iff_lt, not_lt] at hwin
        exact hwin
      simp only [nextReturn, bufAt] at h
      split at h
      · simp only [Except.ok.injEq, Prod.mk.injEq] at h
        refine ⟨hlt, hwin2, ?_, h.2.symm⟩
        rw [← h.1]
      · cases h

/-- A receive on `fillReady` lets the goroutine run up to its send or its exit and changes
nothing on the consumer side. -/
theorem recvFillReady_cases (s s2 : scanner) (fr : fillReady)
    (h : recvFillReady s = .ok (fr, s2)) :
    s2.pos = s.pos ∧ s2.ipos = s.ipos ∧ s2.ifill = s.ifill ∧ s2.buf = s.buf ∧
    s2.reader = (workerRun s).reader ∧ s2.nbuf = (workerRun s).nbuf ∧
    s2.rpos = (workerRun s).rpos ∧ s2.end_ = (workerRun s).end_ ∧
    (((workerRun s).worker = .sending fr false ∧ s2.worker = .idle) ∨
     ((workerRun s).worker = .sending fr true ∧ s2.worker = .exited) ∨
     ((workerRun s).worker = .exited ∧ s2.worker = .exited ∧ fr = ⟨0, none⟩)) := by
  obtain ⟨wp, wi, wf, wb⟩ := workerRun_consumer s
  unfold recvFillReady at h
  simp only at h
  split at h
  · next fr1 closing hw =>
    simp only [Except.ok.injEq, Prod.mk.injEq] at h
    obtain ⟨h1, h2⟩ := h
    subst h1
    subst h2
    refine ⟨wp, wi, wf, wb, rfl, rfl, rfl, rfl, ?_⟩
    cases closing
    · exact Or.inl ⟨hw, rfl⟩
    · exact Or.inr (Or.inl ⟨hw, rfl⟩)
  · next hw =>
    simp only [Except.ok.injEq, Prod.mk.injEq] at h
    obtain ⟨h1, h2⟩ := h
    subst h1
    subst h2
    exact ⟨wp, wi, wf, wb, rfl, rfl, rfl, rfl, Or.inr (Or.inr ⟨hw, hw, rfl⟩)⟩
  · cases h
  · cases h

/-- How the calls move `pos` (int64 arithmetic): `next` leaves it or adds one, `back` subtracts
one, a run of the goroutine leaves it. -/
theorem pos_step (s : scanner) :
    (∀ o s1, next s = .ok (o, s1) → s1.pos = s.pos ∨ s1.pos = wrapInt64 (s.pos + 1)) ∧
    (∀ s1, back s = .ok s1 → s1.pos = wrapInt64 (s.pos - 1)) ∧
    (workerRun s).pos = s.pos := by
  refine ⟨?_, ?_, (workerRun_consumer s).1⟩
  · intro o s1 hn
    rcases next_cases s s1 o hn with ⟨-, -, h1⟩ | ⟨-, -, -, h1⟩ | ⟨-, -, fr, s2, hrecv, hc⟩
    · exact Or.inl (by rw [h1])
    · exact Or.inr (by rw [h1])
    · obtain ⟨hp, -⟩ := recvFillReady_cases _ s2 fr hrecv
      have hp2 : s2.pos = s.pos := hp
      rcases hc with ⟨e1, -, -, h1⟩ | ⟨-, -, -, -, h1⟩ | ⟨-, -, -, h1⟩
      · exact Or.inl (by rw [h1, hp2])
      · exact Or.inr (by rw [h1, ← hp2])
      · exact Or.inr (by rw [h1, ← hp2])
  · intro s1 hb
    unfold back at hb
    split at hb
    · cases hb
    · simp only [Except.ok.injEq] at hb
      rw [← hb]

/-- The lookback after a refill: when a call of `next` exhausts the window and takes a new one, a
call of `back` right after it leaves `cur()` at the byte `buf[chunk]` of the old buffer, its
last index.  That is the byte the call before had returned when the old window was full
(`ipos = chunk`). -/
theorem cur_after_refill_and_back (s s1 s2 : scanner) (o : Byte × Option Err)
    (hn : next s = .ok (o, s1)) (hlt : s.pos < s.end_) (hex : s.ifill < wrapInt64 (s.ipos + 1))
    (ho : o.2 = none) (hb : back s1 = .ok s2) :
    cur s2 = .ok (s.buf chunk) ∧ (s.ipos = chunk → cur s2 = cur s) := by
  have hcur : ∀ t : scanner, t.ipos = 1 → t.buf 0 = s.buf chunk → back t = .ok s2 →
      cur s2 = .ok (s.buf chunk) := by
    intro t ht hbuf hback
    unfold back at hback
    rw [ht] at hback
    split at hback
    · omega
    · simp only [Except.ok.injEq] at hback
      rw [← hback]
      simp [cur, bufAt, wrapInt64, hbuf]
  have h1 : cur s2 = .ok (s.buf chunk) := by
    rcases next_cases s s1 o hn with ⟨h0, -, -⟩ | ⟨-, h0, -, -⟩ | ⟨-, -, fr, s2', hrecv, hc⟩
    · omega
    · omega
    · obtain ⟨-, -, -, hbuf, -⟩ := recvFillReady_cases _ s2' fr hrecv
      have hbuf2 : s2'.buf = s.buf := hbuf
      rcases hc with ⟨e1, -, h2, -⟩ | ⟨-, -, -, -, h1⟩ | ⟨-, -, -, h1⟩
      · rw [h2] at ho
        cases ho
      · exact hcur s1 (by rw [h1]; rfl) (by rw [h1]; simp [swapBuffers, hbuf2]) hb
      · exact hcur s1 (by rw [h1]; rfl) (by rw [h1]; simp [swapBuffers, hbuf2]) hb
  refine ⟨h1, fun hi => ?_⟩
  rw [h1]
  have hc : (chunk : Int) = 4095 := rfl
  simp [cur, bufAt, hi]

/-- While no call of `next` has returned an error, `ipos` stays inside `buf`, `cur()` does not
panic and `pos` is not negative. -/
theorem ipos_in_bounds_without_error (cs : List (List Byte)) (e : Err) (ops : List Op)
    (outs : List (Byte × Option Err)) (s : scanner)
    (hcs : ChunksOk cs) (hlen : (cs.flatten.length : Int) < maxInt)
    (hrun : run ops (newScanner (chunkReader cs e)) = .ok (outs, s))
    (hno : ∀ o ∈ outs, o.2 = none) :
    0 ≤ s.ipos ∧ s.ipos ≤ chunk ∧ 0 ≤ s.pos ∧ ∃ b, cur s = .ok b := by
  have hinv := inv_run_noerr hlen ops _ outs s (inv_newScanner cs e hcs) hrun hno
  obtain ⟨base, fill, i, rest, hfill, hipos, hpos, hfc, hle, hdrop, hrest, hbuf, hW, hi⟩ := hinv
  have hc : (chunk : Int) = 4095 := rfl
  have hfc2 : fill ≤ 4095 := hfc
  have hi2 : i ≤ 4095 := by
    rcases hi with hi | ⟨-, h2, -⟩ <;> omega
  refine ⟨by omega, by omega, by omega, ?_⟩
  have hb : 0 ≤ s.ipos ∧ s.ipos ≤ (chunk : Int) := by omega
  refine ⟨s.buf s.ipos.toNat, ?_⟩
  simp only [cur, bufAt, hb, and_self, if_true]

/-- C11, failing input: the reader gives the byte 1 in one read and the byte 2 in the next.  The
first `next` returns 1, the second exhausts the window of one byte, takes the new window and
returns 2; the `back` right after it leaves `cur()` at 0, the byte at the last index of the
buffer, and not at 1, the byte that the call before had returned. -/
theorem c11_lookback_lost_after_short_read :
    (run [Op.next, Op.next, Op.back] (newScanner (chunkReader [[1], [2]] .eof))).toOption.map
      (fun r => (r.1, (cur r.2).toOption)) = some ([(1, none), (2, none)], some 0) := by
  decide

/-- C12, failing inputs.  The first read of the reader returns `(0, e)`: the call of `next`
returns `(0, e)` and leaves `pos = 0`, and the call of `back` after it does not panic and leaves
`pos = -1`.  The stream is the one byte 7 and the consumer calls `next` twice before the
goroutine has run again: the second call adds one to `pos`, now 2, and the byte it returns is
not a byte of the stream, which has ended. -/
theorem c12_pos_negative_after_error_and_back :
    (run [Op.next] (newScanner [⟨[], some (.other 1)⟩])).toOption.map
        (fun r => (r.1, r.2.pos)) = some ([(0, some (.other 1))], 0) ∧
    (run [Op.next, Op.back] (newScanner [⟨[], some (.other 1)⟩])).toOption.map
        (fun r => r.2.pos) = some (-1) ∧
    (run [Op.next, Op.next] (newScanner (chunkReader [[7]] .eof))).toOption.map
        (fun r => (r.1, r.2.pos)) = some ([(7, none), (7, none)], 2) := by
  decide

/-! ## The reads of the fill goroutine -/

theorem workerRun_of_done (s : scanner) (h : WorkerDone s) : workerRun s = s := by
  apply workerRun_of_ne
  rcases h with h | ⟨fr, h⟩ <;> rw [h] <;> simp

/-- One run of the goroutine's loop over a reader that has the terminal result `(0, e)` ahead:
it stops before that result, or it consumes exactly up to it and ends its reading. -/
theorem scan_upto_terminal (tail : List ReadResult) (e : Err) :
    ∀ (pre : List ReadResult) (s : scanner),
      (∃ pre1, (scan s (pre ++ ⟨[], some e⟩ :: tail)).reader = pre1 ++ ⟨[], some e⟩ :: tail) ∨
      ((scan s (pre ++ ⟨[], some e⟩ :: tail)).reader = tail ∧
        WorkerDone (scan s (pre ++ ⟨[], some e⟩ :: tail))) := by
  intro pre
  induction pre with
  | nil =>
    intro s
    right
    cases e with
    | eof => exact ⟨rfl, Or.inl rfl⟩
    | other n => exact ⟨rfl, Or.inr ⟨_, rfl⟩⟩
  | cons r pre ih =>
    intro s
    simp only [List.cons_append, scan]
    split
    · split
      · exact Or.inl ⟨pre, rfl⟩
      · exact ih { s with nbuf := fun i => r.data.getD i (s.nbuf i),
                          reader := pre ++ ⟨[], some e⟩ :: tail }
      · exact Or.inl ⟨pre, rfl⟩
    · exact Or.inl ⟨pre, rfl⟩

/-- The results that follow a terminal result `(0, e)` stay in the reader: a run of the
goroutine either stops before the terminal result or consumes exactly up to it and ends the
goroutine's reading; after that it changes nothing. -/
theorem ahead_workerRun (tail : List ReadResult) (e : Err) (s : scanner)
    (h : (∃ pre, s.reader = pre ++ ⟨[], some e⟩ :: tail) ∨ (s.reader = tail ∧ WorkerDone s)) :
    (∃ pre, (workerRun s).reader = pre ++ ⟨[], some e⟩ :: tail) ∨
      ((workerRun s).reader = tail ∧ WorkerDone (workerRun s)) := by
  rcases h with ⟨pre, h⟩ | ⟨h1, h2⟩
  · by_cases hw : s.worker = .reading
    · have hs : workerRun s = scan s (pre ++ ⟨[], some e⟩ :: tail) := by
        simp only [workerRun, hw, h]
      rw [hs]
      exact scan_upto_terminal tail e pre s
    · left
      rw [workerRun_of_ne s hw]
      exact ⟨pre, h⟩
  · right
    rw [workerRun_of_done s h2]
    exact ⟨h1, h2⟩

theorem ahead_next (tail : List ReadResult) (e : Err) (s s1 : scanner) (o : Byte × Option Err)
    (h : (∃ pre, s.reader = pre ++ ⟨[], some e⟩ :: tail) ∨ (s.reader = tail ∧ WorkerDone s))
    (hn : next s = .ok (o, s1)) :
    (∃ pre, s1.reader = pre ++ ⟨[], some e⟩ :: tail) ∨ (s1.reader = tail ∧ WorkerDone s1) := by
  rcases next_cases s s1 o hn with ⟨-, -, h1⟩ | ⟨-, -, -, h1⟩ | ⟨-, -, fr, s2, hrecv, hc⟩
  · rw [h1]
    exact h
  · rw [h1]
    exact h
  · obtain ⟨-, -, -, -, hrd, -, -, -, hwk⟩ := recvFillReady_cases _ s2 fr hrecv
    have hP := ahead_workerRun tail e { s with ipos := wrapInt64 (s.ipos + 1) } h
    have hP2 : (∃ pre, s2.reader = pre ++ ⟨[], some e⟩ :: tail) ∨
        (s2.reader = tail ∧ WorkerDone s2) := by
      rw [hrd]
      rcases hP with hP | ⟨hP1, hP2⟩
      · exact Or.inl hP
      · refine Or.inr ⟨hP1, Or.inl ?_⟩
        rcases hwk with ⟨hw1, -⟩ | ⟨-, hw2⟩ | ⟨-, hw2, -⟩
        · rcases hP2 with hd | ⟨fr1, hd⟩
          · rw [hd] at hw1; cases hw1
          · rw [hd] at hw1; cases hw1
        · exact hw2
        · exact hw2
    rcases hc with ⟨e1, -, -, h1⟩ | ⟨-, -, -, hidle, h1⟩ | ⟨-, -, -, h1⟩
    · rw [h1]
      exact hP2
    · rcases hP2 with hP2 | ⟨-, hd⟩
      · left
        rw [h1]
        exact hP2
      · rcases hd with hd | ⟨fr1, hd⟩
        · rw [hd] at hidle; cases hidle
        · rw [hd] at hidle; cases hidle
    · rw [h1]
      exact hP2

theorem ahead_run (tail : List ReadResult) (e : Err) :
    ∀ (ops : List Op) (s s1 : scanner) (outs : List (Byte × Option Err)),
      ((∃ pre, s.reader = pre ++ ⟨[], some e⟩ :: tail) ∨ (s.reader = tail ∧ WorkerDone s)) →
      run ops s = .ok (outs, s1) →
      (∃ pre, s1.reader = pre ++ ⟨[], some e⟩ :: tail) ∨ (s1.reader = tail ∧ WorkerDone s1) := by
  intro ops
  induction ops with
  | nil =>
    intro s s1 outs h hrun
    simp only [run, Except.ok.injEq, Prod.mk.injEq] at hrun
    rw [← hrun.2]
    exact h
  | cons op ops ih =>
    intro s s1 outs h hrun
    cases op with
    | next =>
      simp only [run] at hrun
      split at hrun
      · next o s2 hn =>
        split at hrun
        · next os s3 hr =>
          simp only [Except.ok.injEq, Prod.mk.injEq] at hrun
          rw [← hrun.2]
          exact ih s2 s3 os (ahead_next tail e s s2 o h hn) hr
        · cases hrun
      · cases hrun
    | back =>
      simp only [run] at hrun
      split at hrun
      · next s2 hb =>
        refine ih s2 s1 outs ?_ hrun
        unfold back at hb
        split at hb
        · cases hb
        · simp only [Except.ok.injEq] at hb
          rw [← hb]
          exact h
      · cases hrun
    | yield =>
      simp only [run] at hrun
      exact ih (workerRun s) s1 outs (ahead_workerRun tail e s h) hrun

/-- An error that a read returns together with bytes has no effect on the goroutine. -/
theorem scan_error_with_bytes (s : scanner) (d : List Byte) (e : Option Err)
    (rs : List ReadResult) (hd : d ≠ []) :
    scan s (⟨d, e⟩ :: rs) =
      { s with nbuf := fun i => d.getD i (s.nbuf i)
               reader := rs
               rpos := wrapInt64 (s.rpos + (d.length : Int))
               worker := .sending ⟨(d.length : Int), none⟩ false } := by
  have h : d.length ≠ 0 := by
    intro h0
    exact hd (List.length_eq_zero.mp h0)
  simp [scan, h]

/-- C13: the reader has a terminal result `(0, e)` ahead, `e` being `io.EOF` or another error,
behind any results `pre`, and `tail` is what it would return to reads after that.  Whatever calls
of `next` and `back` follow, in any interleaving with the goroutine (`cur` and `remaining`
change no state), the state reached is one of two.  Either the read that returns `(0, e)` has
not been made: the reader still has that result and `tail` ahead.  Or it has been made and no
read after it: the reader holds all of `tail`, the goroutine has ended its reading, and
scheduling it changes nothing. -/
theorem c13_no_read_after_terminal_result (pre tail : List ReadResult) (e : Err)
    (ops : List Op) (s s1 : scanner) (outs : List (Byte × Option Err))
    (hr : s.reader = pre ++ ⟨[], some e⟩ :: tail)
    (hrun : run ops s = .ok (outs, s1)) :
    (∃ pre1, s1.reader = pre1 ++ ⟨[], some e⟩ :: tail) ∨
      (s1.reader = tail ∧ WorkerDone s1 ∧ workerRun s1 = s1) := by
  rcases ahead_run tail e ops s s1 outs (Or.inl ⟨pre, hr⟩) hrun with h | ⟨h1, h2⟩
  · exact Or.inl h
  · exact Or.inr ⟨h1, h2, workerRun_of_done s1 h2⟩

theorem c13_witness :
    (stateAfter [Op.next, Op.next, Op.yield, Op.next, Op.back, Op.next]
        [⟨[1, 2], none⟩, ⟨[], none⟩, ⟨[], some .eof⟩, ⟨[9], none⟩]).reader = [⟨[9], none⟩] ∧
    ((∃ pre1, (stateAfter [Op.next, Op.next, Op.yield, Op.next, Op.back, Op.next]
        [⟨[1, 2], none⟩, ⟨[], none⟩, ⟨[], some .eof⟩, ⟨[9], none⟩]).reader =
          pre1 ++ ⟨[], some .eof⟩ :: [⟨[9], none⟩]) ∨
      ((stateAfter [Op.next, Op.next, Op.yield, Op.next, Op.back, Op.next]
          [⟨[1, 2], none⟩, ⟨[], none⟩, ⟨[], some .eof⟩, ⟨[9], none⟩]).reader = [⟨[9], none⟩] ∧
        WorkerDone (stateAfter [Op.next, Op.next, Op.yield, Op.next, Op.back, Op.next]
          [⟨[1, 2], none⟩, ⟨[], none⟩, ⟨[], some .eof⟩, ⟨[9], none⟩]) ∧
        workerRun (stateAfter [Op.next, Op.next, Op.yield, Op.next, Op.back, Op.next]
          [⟨[1, 2], none⟩, ⟨[], none⟩, ⟨[], some .eof⟩, ⟨[9], none⟩]) =
          stateAfter [Op.next, Op.next, Op.yield, Op.next, Op.back, Op.next]
            [⟨[1, 2], none⟩, ⟨[], none⟩, ⟨[], some .eof⟩, ⟨[9], none⟩])) :=
  ⟨by decide,
    c13_no_read_after_terminal_result [⟨[1, 2], none⟩, ⟨[], none⟩] [⟨[9], none⟩] .eof
      [Op.next, Op.next, Op.yield, Op.next, Op.back, Op.next]
      (newScanner [⟨[1, 2], none⟩, ⟨[], none⟩, ⟨[], some .eof⟩, ⟨[9], none⟩])
      (stateAfter [Op.next, Op.next, Op.yield, Op.next, Op.back, Op.next]
        [⟨[1, 2], none⟩, ⟨[], none⟩, ⟨[], some .eof⟩, ⟨[9], none⟩])
      (resultsAfter [Op.next, Op.next, Op.yield, Op.next, Op.back, Op.next]
        [⟨[1, 2], none⟩, ⟨[], none⟩, ⟨[], some .eof⟩, ⟨[9], none⟩])
      rfl rfl⟩

/-! ## The text of a decoder error -/

/-- C14: `Error()` of a `DecoderError` with nil `readerErr` is `msg`, a space, `context`, a colon
and a space, `quoteChar(atChar)`, a space and `[`, the line number in decimal, a comma, the byte
offset in decimal, and `]`; with a reader error `r` it is that text followed by a line feed,
`reader error: ` and `r.Error()`; and `ReaderErr()` returns `readerErr`. -/
theorem c14_error_text (errorText : Err → String) (msg context : String) (pos : errPos)
    (atChar : Byte) :
    DecoderError.Error errorText ⟨msg, context, pos, atChar, none⟩ =
      msg ++ " " ++ context ++ ": " ++ quoteChar atChar ++ " [" ++ toString pos.1 ++ "," ++
        toString pos.2 ++ "]" ∧
    (∀ r : Err, DecoderError.Error errorText ⟨msg, context, pos, atChar, some r⟩ =
      msg ++ " " ++ context ++ ": " ++ quoteChar atChar ++ " [" ++ toString pos.1 ++ "," ++
        toString pos.2 ++ "]" ++ "\nreader error: " ++ errorText r) ∧
    (∀ r : Option Err, DecoderError.ReaderErr ⟨msg, context, pos, atChar, r⟩ = r) := by
  refine ⟨?_, fun r => ?_, fun r => rfl⟩
  · simp only [DecoderError.Error, Sprintf]
    apply String.ext
    simp [sprintfChars, String.data_append]
  · simp only [DecoderError.Error, Sprintf]
    apply String.ext
    simp [sprintfChars, String.data_append]

theorem c14_witness :
    DecoderError.Error (fun _ => "EOF") ⟨"invalid character", "", (1, 5), 120, none⟩ =
      "invalid character" ++ " " ++ "" ++ ": " ++ quoteChar 120 ++ " [" ++
        toString (1 : Int) ++ "," ++ toString (5 : Int) ++ "]" :=
  (c14_error_text (fun _ => "EOF") "invalid character" "" (1, 5) 120).1

/-- The text of a syntax error at the byte `x`, line 1, offset 5, and of an error that carries
a reader error. -/
theorem error_text_example :
    DecoderError.Error (fun _ => "EOF") { ErrSyntax with pos := (1, 5), atChar := 120 } =
      "invalid character : 'x' [1,5]" ∧
    DecoderError.Error (fun _ => "timeout")
        { ErrUnexpectedEOF with context := "in string", pos := (2, -3), atChar := 10,
                                readerErr := some (.other 1) } =
      "unexpected end of JSON input in string: '\\n' [2,-3]\nreader error: timeout" := by
  decide

set_option maxRecDepth 100000 in
theorem unquoteChar_quoteChar : ∀ c : Byte, unquoteChar (quoteChar c) = c.val := by
  decide

set_option maxRecDepth 100000 in
theorem quoteChar_ends : ∀ c : Byte,
    (quoteChar c).toList.head? = some '\'' ∧ (quoteChar c).toList.getLast? = some '\'' := by
  decide

set_option maxRecDepth 100000 in
theorem quoteChar_printable : ∀ c : Byte, 32 ≤ c.val → c.val ≤ 126 → c ≠ 39 → c ≠ 34 → c ≠ 92 →
    quoteChar c = String.mk ['\'', Char.ofNat c.val, '\''] := by
  decide

theorem quoteChar_special : quoteChar 39 = "'\\''" ∧ quoteChar 34 = "'\"'" ∧
   (quoteChar 39).length = 4 ∧ (quoteChar 34).length = 3 := by
  decide

theorem quoteChar_injective : Function.Injective quoteChar := by
  intro a b h
  have := congrArg unquoteChar h
  rw [unquoteChar_quoteChar, unquoteChar_quoteChar] at this
  exact Fin.ext this

/-- C15: for every byte the text of `quoteChar` starts and ends with a single quote; for the
single quote it is the 4 characters quote, backslash, quote, quote, and for the double quote the
3 characters quote, double quote, quote; for every other printable ASCII byte except the
backslash it is the 3 characters quote, the byte, quote; and distinct bytes have distinct texts,
so that the byte is read back from its text. -/
theorem c15_quoteChar_literal :
    (∀ c : Byte, (quoteChar c).toList.head? = some '\'' ∧
      (quoteChar c).toList.getLast? = some '\'') ∧
    (quoteChar 39 = "'\\''" ∧ quoteChar 34 = "'\"'" ∧
      (quoteChar 39).length = 4 ∧ (quoteChar 34).length = 3) ∧
    (∀ c : Byte, 32 ≤ c.val → c.val ≤ 126 → c ≠ 39 → c ≠ 34 → c ≠ 92 →
      quoteChar c = String.mk ['\'', Char.ofNat c.val, '\'']) ∧
    (∀ a b : Byte, a ≠ b → quoteChar a ≠ quoteChar b) ∧
    (∀ c : Byte, unquoteChar (quoteChar c) = c.val) :=
  ⟨quoteChar_ends, quoteChar_special, quoteChar_printable,
    fun _ _ hab h => hab (quoteChar_injective h), unquoteChar_quoteChar⟩

theorem c15_witness :
    (32 ≤ (120 : Byte).val ∧ (120 : Byte).val ≤ 126 ∧ (120 : Byte) ≠ 39 ∧ (120 : Byte) ≠ 34 ∧
      (120 : Byte) ≠ 92) ∧
    quoteChar 120 = String.mk ['\'', Char.ofNat (120 : Byte).val, '\''] :=
  ⟨by decide,
    c15_quoteChar_literal.2.2.1 120 (by decide) (by decide) (by decide) (by decide)
      (by decide)⟩

/-! ## Errors of the reader and the end of the stream -/

/-- C16, failing input: the reader fills the whole prefetch buffer in one read (`chunk` bytes,
here all 7) and its next read returns `(0, e)`.  After the `chunk` calls of `next` that return
the bytes, the call that returns `(0, e)` leaves `ipos = chunk + 1`, past the last index `chunk`
of `buf`, and `cur()` then indexes outside `buf` and panics. -/
theorem c16_ipos_past_buffer_after_error :
    ∃ outs s, run (List.replicate (chunk + 1) Op.next)
        (newScanner (chunkReader [List.replicate chunk 7] (.other 1))) =
        .ok (outs ++ [(0, some (.other 1))], s) ∧
      s.ipos = chunk + 1 ∧ s.pos = chunk ∧ cur s = .error .panic :=
  full_read_then_error (List.replicate chunk 7) 1 (List.length_replicate _ _)

/-- C17, failing input: the stream is the one byte 7, and the consumer calls `next` twice before
the goroutine has run again.  The second call finds `end` unset, receives the zero value from
the closed channel `fillReady`, takes it for a fill and returns `(7, nil)`, the byte left in the
prefetch buffer, not `(0, nil)`; it leaves `pos = 2` past `end = 1`, and `remaining()` is `-1`.
When the goroutine runs between the two calls the second call returns `(0, nil)`. -/
theorem c17_race_returns_stale_byte :
    (run [Op.next, Op.next] (newScanner (chunkReader [[7]] .eof))).toOption.map
        (fun r => (r.1, r.2.pos, r.2.end_, remaining r.2)) =
      some ([(7, none), (7, none)], 2, 1, -1) ∧
    (run [Op.next, Op.yield, Op.next] (newScanner (chunkReader [[7]] .eof))).toOption.map
        (fun r => (r.1, r.2.pos, r.2.end_, remaining r.2)) =
      some ([(7, none), (0, none)], 1, 1, 0) := by
  decide

/-- C18, failing input: the first read of the reader returns the byte 7 together with an error
`e`, and its next read returns `(0, io.EOF)`.  The calls of `next` return `(7, nil)` and then
`(0, nil)`, with `end = 1` recorded and the goroutine gone: the stream ends as a clean
end-of-input and no call returns `e`, whether the goroutine runs between the calls or not. -/
theorem c18_error_with_bytes_is_dropped :
    (run [Op.next, Op.yield, Op.next, Op.next]
        (newScanner [⟨[7], some (.other 1)⟩, ⟨[], some .eof⟩])).toOption.map
        (fun r => (r.1, r.2.pos, r.2.end_, r.2.worker)) =
      some ([(7, none), (0, none), (0, none)], 1, 1, Worker.exited) ∧
    (run [Op.next, Op.next, Op.next]
        (newScanner [⟨[7], some (.other 1)⟩, ⟨[], some .eof⟩])).toOption.map
        (fun r => (r.1.map (fun o => o.2), r.2.end_, r.2.worker)) =
      some ([none, none, none], 1, Worker.exited) := by
  decide

end Jstream
